import Mathlib

/-!
# fixlenrw: fixed-width record reader and writer

A shallow embedding of the Go package `fixlenrw` (`schema.go`, `parser.go`,
`writer.go`) together with the properties of its record codec.

Modelling conventions.

* A Go `string` is an immutable sequence of bytes; `len(s)` is its number of
  bytes.  It is embedded as `GoString = List Nat` (each element a byte value).
* A Go `rune` is a signed code point; it is embedded as `Rune = Int`.
* `[]rune(s)` and `string(rs)` are the UTF-8 decoding and encoding of the
  language: an invalid byte decodes to U+FFFD and consumes one byte, an
  invalid code point encodes as U+FFFD.
* Go `int` values (column lengths, the cursor, the line counter) are
  embedded as `Int`.  The sum `lineSize += col.Length` of `NewParser` and
  `NewWriter` wraps at 64 bits (`lineSizeOf`).  The cursor of the column loop
  is not wrapped: a slice bound outside of `[0, cap]` panics, so no slice
  succeeds once the cursor has left the 64-bit range, wrapped or not.
* A run-time panic is an explicit `Exec.fault`.  A slice expression `v[lo:hi]`
  on a rune slice is in range when `0 ≤ lo ≤ hi ≤ cap(v)`, and it reads the
  backing array: past `len(v)` it finds the zeroed rest of the allocation.
  The language leaves `cap([]rune(s))` open.  The compiler `gc` converts a
  string of at most 32 runes into a zeroed buffer of 32 runes when the slice
  does not escape, as in `parseLine`, and allocates a longer one with some
  surplus, which it zeroes.  That surplus is the parameter `Runtime`.
  `parseLine` never reads `len(v)`, so the rune slice is embedded as its
  backing array (`runeSlice`).
* The input is the list of its raw lines, the bytes between two line feeds.
  `bufio.Scanner` gives up on a raw line of `MaxScanTokenSize` bytes or more.
  A reader that fails is a reader that ends: `Scan` returns `false` in both
  cases and the package never looks at `scanner.Err()`.
* A `nil` slice and an empty slice are both the empty list.
-/

namespace FixLenRW

/-! ## Strings, runes and UTF-8 -/

/-- Go `string`: a sequence of bytes. -/
abbrev GoString := List Nat

/-- Go `rune`: a code point held in a signed integer. -/
abbrev Rune := Int

/-- The replacement character U+FFFD (`utf8.RuneError`). -/
def RuneError : Rune := 0xFFFD

/-- Continuation byte `10xxxxxx`. -/
def isCont (b : Nat) : Bool := 0x80 ≤ b && b < 0xC0

/-- `utf8.DecodeRuneInString`: the first rune of `s` and its width in bytes.
The empty string gives `(RuneError, 0)`; an invalid or truncated encoding
gives `(RuneError, 1)`. -/
def DecodeRuneInString : GoString → Rune × Nat
  | [] => (RuneError, 0)
  | b0 :: rest =>
    if b0 < 0x80 then ((b0 : Int), 1)
    else if 0xC2 ≤ b0 && b0 < 0xE0 then
      match rest with
      | b1 :: _ =>
        if isCont b1 then ((((b0 % 0x20) * 0x40 + b1 % 0x40 : Nat) : Int), 2)
        else (RuneError, 1)
      | _ => (RuneError, 1)
    else if 0xE0 ≤ b0 && b0 < 0xF0 then
      match rest with
      | b1 :: b2 :: _ =>
        let lo := if b0 = 0xE0 then 0xA0 else 0x80
        let hi := if b0 = 0xED then 0x9F else 0xBF
        if lo ≤ b1 && b1 ≤ hi && isCont b2 then
          ((((b0 % 0x10) * 0x1000 + (b1 % 0x40) * 0x40 + b2 % 0x40 : Nat) : Int), 3)
        else (RuneError, 1)
      | _ => (RuneError, 1)
    else if 0xF0 ≤ b0 && b0 < 0xF5 then
      match rest with
      | b1 :: b2 :: b3 :: _ =>
        let lo := if b0 = 0xF0 then 0x90 else 0x80
        let hi := if b0 = 0xF4 then 0x8F else 0xBF
        if lo ≤ b1 && b1 ≤ hi && isCont b2 && isCont b3 then
          ((((b0 % 0x08) * 0x40000 + (b1 % 0x40) * 0x1000 + (b2 % 0x40) * 0x40
              + b3 % 0x40 : Nat) : Int), 4)
        else (RuneError, 1)
      | _ => (RuneError, 1)
    else (RuneError, 1)

/-- Decoding loop of `[]rune(s)` and of `for _, r := range s`: `skip` counts
the bytes of the current rune that are still to be stepped over. -/
def toRunesFrom : Nat → GoString → List Rune
  | _, [] => []
  | 0, b :: rest =>
    (DecodeRuneInString (b :: rest)).1 ::
      toRunesFrom ((DecodeRuneInString (b :: rest)).2 - 1) rest
  | k + 1, _ :: rest => toRunesFrom k rest

/-- The conversion `[]rune(s)`. -/
def toRunes (s : GoString) : List Rune := toRunesFrom 0 s

/-- `utf8.RuneCountInString`: the number of characters of `s`. -/
def RuneCountInString (s : GoString) : Nat := (toRunes s).length

/-- The conversion `string(r)` of one rune (`utf8.EncodeRune`). -/
def encodeRune (r : Rune) : GoString :=
  if r < 0 ∨ 0x10FFFF < r ∨ (0xD800 ≤ r ∧ r ≤ 0xDFFF) then [0xEF, 0xBF, 0xBD]
  else
    let n := r.toNat
    if n < 0x80 then [n]
    else if n < 0x800 then [0xC0 + n / 0x40, 0x80 + n % 0x40]
    else if n < 0x10000 then [0xE0 + n / 0x1000, 0x80 + n / 0x40 % 0x40, 0x80 + n % 0x40]
    else [0xF0 + n / 0x40000, 0x80 + n / 0x1000 % 0x40, 0x80 + n / 0x40 % 0x40, 0x80 + n % 0x40]

/-- The conversion `string(rs)` of a rune slice. -/
def fromRunes (rs : List Rune) : GoString := (rs.map encodeRune).flatten

/-- The Go string literal with the text `s`: the UTF-8 bytes of its characters. -/
def lit (s : String) : GoString := fromRunes (s.toList.map fun c => (c.toNat : Int))

/-- `strings.Repeat(s, count)` for a non-negative count. -/
def Repeat (s : GoString) (count : Nat) : GoString :=
  (List.replicate count s).flatten

/-- `unicode.IsSpace`. -/
def IsSpace (r : Rune) : Bool :=
  r = 0x09 || r = 0x0A || r = 0x0B || r = 0x0C || r = 0x0D || r = 0x20 || r = 0x85 || r = 0xA0
    || r = 0x1680 || (0x2000 ≤ r && r ≤ 0x200A) || r = 0x2028 || r = 0x2029 || r = 0x202F
    || r = 0x205F || r = 0x3000

/-! ## Schema (`schema.go`) -/

/-- A column: `type Column struct { Name string; Length int }`. -/
structure Column where
  Name : GoString
  Length : Int
deriving DecidableEq, Repr

/-- A schema: `type Record struct { Columns []Column }`. -/
structure Record where
  Columns : List Column
deriving DecidableEq, Repr

/-- The value `x` in a signed integer of `bits` bits, wrapped to that size:
what `SetInt` stores in a field, and what Go `int` arithmetic (64 bits)
computes. -/
def wrapInt (bits : Nat) (x : Int) : Int :=
  (x + 2 ^ (bits - 1)) % 2 ^ bits - 2 ^ (bits - 1)

/-- The sum computed by the loop `lineSize += col.Length` of `NewParser` and
`NewWriter`, in Go `int` arithmetic. -/
def lineSizeOf (record : Record) : Int :=
  record.Columns.foldl (fun lineSize col => wrapInt 64 (lineSize + col.Length)) 0

/-- What the Go implementation chooses where the language leaves it open: the
surplus capacity of the rune slice that `[]rune(s)` allocates for a string of
more than 32 runes (the allocator rounds the size up). -/
structure Runtime where
  surplus : Nat → Nat

/-- The capacity `cap([]rune(s))` for a string of `n` runes, where the slice
does not escape: the 32 runes of the conversion buffer (`tmpStringBufSize`)
when they are enough, the length and the surplus of the allocator
otherwise. -/
def Runtime.runeCap (rt : Runtime) (n : Nat) : Nat :=
  if n ≤ 32 then 32 else n + rt.surplus n

/-- Outcome of running Go code: a returned value, a run-time panic, or (for
the loops that are run with a step budget) an exhausted budget. -/
inductive Exec (α : Type) where
  | ok : α → Exec α
  | fault : Exec α
  | outOfFuel : Exec α
deriving DecidableEq, Repr

/-! ## Writer (`writer.go`) -/

/-- The helper `min` of `writer.go`. -/
def min (a b : Int) : Int := if a < b then a else b

/-- The function `format` of `writer.go`.  `s[:min]` panics when `min` is
negative; `strings.Repeat` is reached with a positive count only. -/
def format (s : GoString) (pad : Rune) (col : Column) : Exec GoString :=
  let m := min (s.length : Int) col.Length
  if m < 0 then Exec.fault
  else
    let s1 := s.take m.toNat
    if m < col.Length then Exec.ok (s1 ++ Repeat (encodeRune pad) (col.Length - m).toNat)
    else Exec.ok s1

/-! ## Records seen through `reflect`, and `strconv` -/

/-- The error of a failed `strconv` conversion (`strconv.NumError`): bad
syntax or a value out of range. -/
inductive ConvError where
  | ErrSyntax
  | ErrRange
deriving DecidableEq, Repr

/-- The library functions that the package calls and that the embedding
takes as given: `unicode.IsUpper`, and the floating-point conversions, a
`float64` being held as its 64 bits.  `FormatFloat f` is
`strconv.FormatFloat(f, 'E', -1, 64)`, `ParseFloat s` is
`strconv.ParseFloat(s, 64)`, and `toFloat32 f` is `float64(float32(f))`. -/
structure Stdlib where
  IsUpper : Rune → Bool
  FormatFloat : Nat → GoString
  ParseFloat : GoString → Except ConvError Nat
  toFloat32 : Nat → Nat

/-- The value of a struct field with its `reflect.Kind`: a signed or unsigned
integer of the given bit size (`int` and `uint` have 64 bits), a float of 32
or 64 bits, a string, a bool, or a value of any other kind. -/
inductive FieldValue where
  | int (bits : Nat) (v : Int)
  | uint (bits : Nat) (v : Nat)
  | float (bits : Nat) (v : Nat)
  | string (s : GoString)
  | bool (b : Bool)
  | other
deriving DecidableEq, Repr

/-- A struct field: its name and its value. -/
structure Field where
  Name : GoString
  value : FieldValue
deriving DecidableEq, Repr

/-- A struct value: its fields in declaration order. -/
abbrev Struct := List Field

/-- A value passed as `interface{}`: a pointer to a struct, a struct passed
by value, or an `int`. -/
inductive Iface where
  | ptr (s : Struct)
  | struct (s : Struct)
  | int (n : Int)
deriving DecidableEq, Repr

/-- The loop `for i := 0; i < s.NumField(); i++ { fieldToIdx[name] = i }`
from index `i` on: a later field of the same name replaces the entry. -/
def fieldToIdxFrom (i : Nat) : Struct → (GoString → Option Nat) → (GoString → Option Nat)
  | [], m => m
  | f :: fs, m => fieldToIdxFrom (i + 1) fs (fun k => if k = f.Name then some i else m k)

/-- The map `fieldToIdx` that `Write` and `UnmarshallNext` build: the lookup
of a name gives `none` when the map does not contain it. -/
def fieldToIdx (s : Struct) : GoString → Option Nat :=
  fieldToIdxFrom 0 s (fun _ => none)

/-- Decimal digits of `n`, most significant first, in front of `acc`; the
budget is the number of digits at most. -/
def digitsFrom : Nat → Nat → List Nat → List Nat
  | 0, _, acc => acc
  | fuel + 1, n, acc =>
    if n < 10 then (0x30 + n) :: acc
    else digitsFrom fuel (n / 10) ((0x30 + n % 10) :: acc)

/-- `strconv.FormatUint(n, 10)`. -/
def FormatUint (n : Nat) : GoString := digitsFrom (n + 1) n []

/-- `strconv.FormatInt(n, 10)`. -/
def FormatInt (n : Int) : GoString :=
  if n < 0 then 0x2D :: FormatUint (-n).toNat else FormatUint n.toNat

/-- `strconv.FormatBool`. -/
def FormatBool (b : Bool) : GoString := if b then lit "true" else lit "false"

/-- The digit loop of `strconv.ParseUint(s, 10, 64)`, with the value `n` read
so far. -/
def parseUintLoop : GoString → Nat → Except ConvError Nat
  | [], n => Except.ok n
  | c :: cs, n =>
    if 0x30 ≤ c ∧ c ≤ 0x39 then
      if n ≥ (2 ^ 64 - 1) / 10 + 1 then Except.error ConvError.ErrRange
      else if n * 10 + (c - 0x30) > 2 ^ 64 - 1 then Except.error ConvError.ErrRange
      else parseUintLoop cs (n * 10 + (c - 0x30))
    else Except.error ConvError.ErrSyntax

/-- `strconv.ParseUint(s, 10, 64)`. -/
def ParseUint (s : GoString) : Except ConvError Nat :=
  if s = [] then Except.error ConvError.ErrSyntax else parseUintLoop s 0

/-- `strconv.ParseInt(s, 10, 64)`. -/
def ParseInt (s : GoString) : Except ConvError Int :=
  match s with
  | [] => Except.error ConvError.ErrSyntax
  | c :: cs =>
    let neg := c = 0x2D
    let digits := if c = 0x2B ∨ c = 0x2D then cs else c :: cs
    match ParseUint digits with
    | Except.error ConvError.ErrSyntax => Except.error ConvError.ErrSyntax
    | Except.error ConvError.ErrRange => Except.error ConvError.ErrRange
    | Except.ok un =>
      if ¬ neg ∧ un ≥ 2 ^ 63 then Except.error ConvError.ErrRange
      else if neg ∧ un > 2 ^ 63 then Except.error ConvError.ErrRange
      else Except.ok (if neg then -(un : Int) else (un : Int))

/-- `strconv.ParseBool`. -/
def ParseBool (s : GoString) : Except ConvError Bool :=
  if s = lit "1" ∨ s = lit "t" ∨ s = lit "T" ∨ s = lit "TRUE" ∨ s = lit "true" ∨ s = lit "True"
  then Except.ok true
  else if s = lit "0" ∨ s = lit "f" ∨ s = lit "F" ∨ s = lit "FALSE" ∨ s = lit "false"
    ∨ s = lit "False"
  then Except.ok false
  else Except.error ConvError.ErrSyntax

/-! ## Writer, continued -/

/-- The `bufio.Writer` with its sink: the bytes handed on to the sink and the
bytes still buffered.  The sink takes every write (as the `bytes.Buffer` of
the tests does), so no call returns a write error; a full buffer being
flushed early only moves bytes from `buffered` to `flushed` sooner. -/
structure BufWriter where
  flushed : GoString := []
  buffered : GoString := []
deriving DecidableEq, Repr

/-- `buffer.WriteString(s)`. -/
def BufWriter.WriteString (b : BufWriter) (s : GoString) : BufWriter :=
  { b with buffered := b.buffered ++ s }

/-- `buffer.WriteByte(c)`. -/
def BufWriter.WriteByte (b : BufWriter) (c : Nat) : BufWriter :=
  { b with buffered := b.buffered ++ [c] }

/-- `buffer.Flush()`. -/
def BufWriter.Flush (b : BufWriter) : BufWriter :=
  { flushed := b.flushed ++ b.buffered, buffered := [] }

/-- Everything written so far, in order. -/
def BufWriter.stream (b : BufWriter) : GoString := b.flushed ++ b.buffered

/-- The writer state: `type Writer struct`. -/
structure Writer where
  record : Record
  buffer : BufWriter := {}
  numCols : Int
  lineSize : Int
  padChar : Rune
  userCrlf : Bool := false
deriving DecidableEq, Repr

/-- The function `appendToken`. -/
def appendToken (s : GoString) (pad : Rune) (buffer : BufWriter) (col : Column) :
    Exec BufWriter :=
  match format s pad col with
  | Exec.ok token => Exec.ok (buffer.WriteString token)
  | Exec.fault => Exec.fault
  | Exec.outOfFuel => Exec.outOfFuel

/-- The `switch` of `Write` on the kind of the field: the text `sval` of the
value.  `log.Fatal` on any other kind ends the program: the call does not
return. -/
def fieldText (lib : Stdlib) : FieldValue → Exec GoString
  | FieldValue.int _ v => Exec.ok (FormatInt v)
  | FieldValue.uint _ v => Exec.ok (FormatUint v)
  | FieldValue.float _ v => Exec.ok (lib.FormatFloat v)
  | FieldValue.string s => Exec.ok s
  | FieldValue.bool b => Exec.ok (FormatBool b)
  | FieldValue.other => Exec.fault

/-- The loop `for _, col := range writer.record.Columns` of `Write`.  A name
that the map does not contain gives the index 0; `s.Field` panics on an index
that the struct does not have. -/
def writeColumns (lib : Stdlib) (s : Struct) (pad : Rune) :
    List Column → BufWriter → Exec BufWriter
  | [], buffer => Exec.ok buffer
  | col :: cols, buffer =>
    let fieldIdx := (fieldToIdx s col.Name).getD 0
    match s[fieldIdx]? with
    | none => Exec.fault
    | some v =>
      match fieldText lib v.value with
      | Exec.ok sval =>
        match appendToken sval pad buffer col with
        | Exec.ok buffer => writeColumns lib s pad cols buffer
        | Exec.fault => Exec.fault
        | Exec.outOfFuel => Exec.outOfFuel
      | Exec.fault => Exec.fault
      | Exec.outOfFuel => Exec.outOfFuel

/-- The method `Write`.  `reflect.ValueOf(v).Elem()` panics unless `v` is a
pointer (or an interface).  The error returned is nil. -/
def Writer.Write (lib : Stdlib) (writer : Writer) (v : Iface) : Exec Writer :=
  match v with
  | Iface.ptr s =>
    match writeColumns lib s writer.padChar writer.record.Columns writer.buffer with
    | Exec.ok buffer =>
      if writer.userCrlf then
        Exec.ok { writer with buffer := buffer.WriteString [0x0D, 0x0A] }
      else Exec.ok { writer with buffer := buffer.WriteByte 0x0A }
    | Exec.fault => Exec.fault
    | Exec.outOfFuel => Exec.outOfFuel
  | Iface.struct _ => Exec.fault
  | Iface.int _ => Exec.fault

/-- The method `Flush`. -/
def Writer.Flush (writer : Writer) : Writer :=
  { writer with buffer := writer.buffer.Flush }

/-- The loop `for i := range v { writer.Write(i) }` of `WriteAll` from the
index `i` on, then the flush: the argument of `Write` is the index. -/
def writeAllFrom (lib : Stdlib) (i : Nat) : List Iface → Writer → Exec Writer
  | [], writer => Exec.ok writer.Flush
  | _ :: rest, writer =>
    match writer.Write lib (Iface.int i) with
    | Exec.ok writer => writeAllFrom lib (i + 1) rest writer
    | Exec.fault => Exec.fault
    | Exec.outOfFuel => Exec.outOfFuel

/-- The method `WriteAll`. -/
def Writer.WriteAll (lib : Stdlib) (writer : Writer) (v : List Iface) : Exec Writer :=
  writeAllFrom lib 0 v writer

/-! ## String trimming (`strings.TrimLeftFunc`, `strings.TrimRightFunc`) -/

/-- Loop of `strings.TrimLeftFunc(s, f)`: ranges over the runes of `s` and
returns `s[i:]` at the first rune that does not satisfy `f` (the empty string
when there is none).  `skip` counts the bytes of the current rune that are
still to be stepped over. -/
def trimLeftFrom (f : Rune → Bool) : Nat → GoString → GoString
  | _, [] => []
  | 0, b :: rest =>
    if f (DecodeRuneInString (b :: rest)).1 then
      trimLeftFrom f ((DecodeRuneInString (b :: rest)).2 - 1) rest
    else b :: rest
  | k + 1, _ :: rest => trimLeftFrom f k rest

/-- `strings.TrimLeftFunc`. -/
def TrimLeftFunc (s : GoString) (f : Rune → Bool) : GoString := trimLeftFrom f 0 s

/-- `utf8.RuneStart`: the byte is not a continuation byte. -/
def RuneStart (b : Nat) : Bool := !isCont b

/-- `utf8.DecodeLastRuneInString`: the last rune of `s` and its width.  The
search for the start of the last rune looks at most three bytes back from the
last byte. -/
def DecodeLastRuneInString (s : GoString) : Rune × Nat :=
  let e := s.length
  if e = 0 then (RuneError, 0)
  else if s.getD (e - 1) 0 < 0x80 then ((s.getD (e - 1) 0 : Int), 1)
  else
    let start :=
      if 2 ≤ e ∧ RuneStart (s.getD (e - 2) 0) then e - 2
      else if 3 ≤ e ∧ RuneStart (s.getD (e - 3) 0) then e - 3
      else if 4 ≤ e ∧ RuneStart (s.getD (e - 4) 0) then e - 4
      else e - 5
    let d := DecodeRuneInString (s.drop start)
    if start + d.2 ≠ e then (RuneError, 1) else d

/-- Loop of `lastIndexFunc(s, f, truth)` from position `i` downwards: the
index of the last rune whose `f` value is `truth`, `none` for `-1`.  Every
step lowers `i` by at least one, so a budget of `i` steps reaches `i = 0`. -/
def lastIndexFrom (s : GoString) (f : Rune → Bool) (truth : Bool) : Nat → Nat → Option Nat
  | 0, _ => none
  | n + 1, i =>
    if i = 0 then none
    else
      let d := DecodeLastRuneInString (s.take i)
      if f d.1 = truth then some (i - d.2) else lastIndexFrom s f truth n (i - d.2)

/-- `strings.TrimRightFunc`. -/
def TrimRightFunc (s : GoString) (f : Rune → Bool) : GoString :=
  match lastIndexFrom s f false s.length s.length with
  | none => []
  | some i =>
    if 0x80 ≤ s.getD i 0 then s.take (i + (DecodeRuneInString (s.drop i)).2)
    else s.take (i + 1)

/-! ## Parser (`parser.go`) -/

/-- The sentinel errors `ErrLineTooLong`, `ErrLineTooShort`, `ErrNumCols`. -/
inductive Sentinel where
  | ErrLineTooLong
  | ErrLineTooShort
  | ErrNumCols
deriving DecidableEq, Repr

export Sentinel (ErrLineTooLong ErrLineTooShort ErrNumCols)

/-- A diagnostic: `type ParsingError struct`. -/
structure ParsingError where
  line : Int
  colName : GoString := []
  data : GoString := []
  message : GoString := []
  err : Sentinel
deriving DecidableEq, Repr

/-- The `bufio.Scanner` over the input, seen as the raw lines that the
reader still holds (the bytes between two line feeds) and the line that `Text`
returns. -/
structure Scanner where
  pending : List GoString
  text : GoString := []
deriving DecidableEq, Repr

/-- `bufio.MaxScanTokenSize`: the size the buffer of a `Scanner` grows to. -/
def MaxScanTokenSize : Nat := 64 * 1024

/-- The helper `dropCR` of `bufio.ScanLines`: one trailing carriage return is
dropped. -/
def dropCR (data : GoString) : GoString :=
  if data.getLast? = some 0x0D then data.dropLast else data

/-- `scanner.Scan()` with the split function `ScanLines`: advance to the next
line, `false` at the end of input.  A raw line that fills the buffer before
its line feed is read makes `Scan` give up (`ErrTooLong`): it returns `false`
with an empty token, as at the end of input, and the rest of the input is
never read (`HasNext` sets `done`, and no other function calls `Scan`). -/
def Scanner.Scan (s : Scanner) : Bool × Scanner :=
  match s.pending with
  | [] => (false, { pending := [], text := [] })
  | l :: ls =>
    if MaxScanTokenSize ≤ l.length then (false, { pending := l :: ls, text := [] })
    else (true, { pending := ls, text := dropCR l })

/-- `scanner.Text()`. -/
def Scanner.Text (s : Scanner) : GoString := s.text

/-- The parser state: `type Parser struct`. -/
structure Parser where
  scanner : Scanner
  record : Record
  handleShortLines : Bool := false
  ignoreExtraSize : Bool := false
  ignoreEmptyCols : Bool := false
  trimLeadingSpace : Bool := false
  trimTrailingSpace : Bool := false
  numLines : Int := 0
  numCols : Int
  lineSize : Int
  Errors : List ParsingError := []
  done : Bool := false
deriving DecidableEq, Repr

/-- The total width of a schema: the sum of its column widths, as a number.
`NewParser` and `NewWriter` compute it in Go `int` arithmetic (`lineSizeOf`),
which gives this number whenever it fits in 64 bits. -/
def totalWidth (record : Record) : Int :=
  record.Columns.foldl (fun lineSize col => lineSize + col.Length) 0

/-- `NewParser`, given the raw lines of the input and the schema that
`readSchema` decoded. -/
def NewParser (input : List GoString) (record : Record) : Parser :=
  { scanner := { pending := input }, record := record,
    numCols := record.Columns.length, lineSize := lineSizeOf record, Errors := [] }

/-- `WithTrimLeadingSpace`. -/
def Parser.WithTrimLeadingSpace (parser : Parser) : Parser :=
  { parser with trimLeadingSpace := true }

/-- `WithTrimTrailingSpace`. -/
def Parser.WithTrimTrailingSpace (parser : Parser) : Parser :=
  { parser with trimTrailingSpace := true }

/-- `WithIgnoreEmptyCols`. -/
def Parser.WithIgnoreEmptyCols (parser : Parser) : Parser :=
  { parser with ignoreEmptyCols := true }

/-- The conversion `[]rune(s)` in `parseLine`, as the backing array of the
slice: the runes of `s`, then the zeroed rest of the capacity. -/
def runeSlice (rt : Runtime) (s : GoString) : List Rune :=
  toRunes s ++ List.replicate (rt.runeCap (toRunes s).length - (toRunes s).length) 0

/-- The slice expression `v[lo:hi]` on a rune slice given as its backing
array `v`: the bounds are checked against the capacity, the length of the
array. -/
def sliceRunes (v : List Rune) (lo hi : Int) : Exec (List Rune) :=
  if 0 ≤ lo ∧ lo ≤ hi ∧ hi ≤ (v.length : Int) then
    Exec.ok ((v.drop lo.toNat).take (hi - lo).toNat)
  else Exec.fault

/-- The two optional trimming steps of `parseLine` on one token, under the
toggles `trimLeadingSpace` and `trimTrailingSpace`. -/
def trimToken (trimLeadingSpace trimTrailingSpace : Bool) (token : GoString) : GoString :=
  let token := if trimLeadingSpace then TrimLeftFunc token IsSpace else token
  if trimTrailingSpace then TrimRightFunc token IsSpace else token

/-- What `parseLine` hands back: the tokens, the error, and the parser it
has updated in place. -/
abbrev ParseResult := List GoString × Option ParsingError × Parser

/-- The column loop of `parseLine` (`for _, column := range record.Columns`),
from the cursor `idx` with the tokens collected so far. -/
def columnLoop (v : List Rune) :
    List Column → Int → List GoString → Parser → Exec ParseResult
  | [], _, tokens, parser => Exec.ok (tokens, none, parser)
  | column :: columns, idx, tokens, parser =>
    match sliceRunes v idx (idx + column.Length) with
    | Exec.ok span =>
      let token :=
        trimToken parser.trimLeadingSpace parser.trimTrailingSpace (fromRunes span)
      if token.length = 0 then
        let err : ParsingError :=
          { line := parser.numLines, colName := column.Name, err := ErrNumCols }
        let parser := { parser with Errors := parser.Errors ++ [err] }
        if !parser.ignoreEmptyCols then
          Exec.ok ([], some err, { parser with done := true })
        else columnLoop v columns (idx + column.Length) (tokens ++ [token]) parser
      else columnLoop v columns (idx + column.Length) (tokens ++ [token]) parser
    | Exec.fault => Exec.fault
    | Exec.outOfFuel => Exec.outOfFuel

/-- The function `parseLine`.  `make([]string, 0, parser.numCols)` panics on
a negative capacity. -/
def parseLine (rt : Runtime) (line : GoString) (record : Record) (parser : Parser) :
    Exec ParseResult :=
  if parser.numCols < 0 then Exec.fault
  else
    let parser := { parser with numLines := parser.numLines + 1 }
    if (line.length : Int) > parser.lineSize then
      let err : ParsingError := { line := parser.numLines, err := ErrLineTooLong }
      let parser := { parser with Errors := parser.Errors ++ [err] }
      if parser.ignoreExtraSize then
        let v := runeSlice rt line
        match sliceRunes v 0 parser.lineSize with
        | Exec.ok _ => columnLoop v record.Columns 0 [] parser
        | Exec.fault => Exec.fault
        | Exec.outOfFuel => Exec.outOfFuel
      else Exec.ok ([], some err, { parser with done := true })
    else if (line.length : Int) < parser.lineSize then
      let err : ParsingError := { line := parser.numLines, err := ErrLineTooShort }
      let parser := { parser with Errors := parser.Errors ++ [err] }
      if parser.handleShortLines then
        let line := line ++ Repeat [0x20] (parser.lineSize - (line.length : Int)).toNat
        columnLoop (runeSlice rt line) record.Columns 0 [] parser
      else Exec.ok ([], some err, { parser with done := true })
    else columnLoop (runeSlice rt line) record.Columns 0 [] parser

/-- The method `Next`. -/
def Parser.Next (rt : Runtime) (parser : Parser) : Exec ParseResult :=
  parseLine rt parser.scanner.Text parser.record parser

/-- The method `HasNext`. -/
def Parser.HasNext (parser : Parser) : Bool × Parser :=
  if parser.done then (false, parser)
  else
    let scan := parser.scanner.Scan
    if !scan.1 then (false, { parser with scanner := scan.2, done := true })
    else (true, { parser with scanner := scan.2 })

/-- What `All` hands back: the records, the error, and the updated parser. -/
abbrev AllResult := List (List GoString) × Option ParsingError × Parser

/-- The loop `for parser.HasNext() { ... }` of `All`, run for at most `fuel`
iterations, with the records collected so far. -/
def allLoop (rt : Runtime) : Nat → Parser → List (List GoString) → Exec AllResult
  | 0, _, _ => Exec.outOfFuel
  | fuel + 1, parser, records =>
    let next := parser.HasNext
    if next.1 then
      match next.2.Next rt with
      | Exec.ok (tokens, none, parser) => allLoop rt fuel parser (records ++ [tokens])
      | Exec.ok (_, some err, parser) => Exec.ok ([], some err, parser)
      | Exec.fault => Exec.fault
      | Exec.outOfFuel => Exec.outOfFuel
    else Exec.ok (records, none, { next.2 with done := true })

/-- The method `All`: every iteration but the last consumes one pending line,
so one more iteration than there are pending lines is enough. -/
def Parser.All (rt : Runtime) (parser : Parser) : Exec AllResult :=
  allLoop rt (parser.scanner.pending.length + 1) parser []

/-- The method `UnmarshallNext`: `Next`, and on success the field-binding
loop.  That loop reads `parser.record` and the tokens and writes into the
target `v` only; it is the parameter `bindFields`, which returns the updated
target and the conversion error, if any. -/
def Parser.UnmarshallNext {τ ε : Type} (rt : Runtime)
    (bindFields : Record → List GoString → τ → Exec (τ × Option ε))
    (parser : Parser) (v : τ) : Exec ((τ × Option (ParsingError ⊕ ε)) × Parser) :=
  match parser.Next rt with
  | Exec.ok (_, some err, parser) => Exec.ok ((v, some (Sum.inl err)), parser)
  | Exec.ok (tokens, none, parser) =>
    match bindFields parser.record tokens v with
    | Exec.ok (v, e) => Exec.ok ((v, e.map Sum.inr), parser)
    | Exec.fault => Exec.fault
    | Exec.outOfFuel => Exec.outOfFuel
  | Exec.fault => Exec.fault
  | Exec.outOfFuel => Exec.outOfFuel

/-! ## Field binding (`UnmarshallNext`, second half) -/

/-- `reflect` lets a field be set only if its name is exported: its first
character is an upper-case letter. -/
def IsExported (lib : Stdlib) (name : GoString) : Bool :=
  lib.IsUpper (DecodeRuneInString name).1

/-- What `SetUint` stores in an unsigned field of `bits` bits. -/
def wrapUint (bits : Nat) (x : Nat) : Nat := x % 2 ^ bits

/-- The `switch` of `UnmarshallNext` on the kind of the field: the field after
the assignment, or the conversion error that `UnmarshallNext` returns.  The
conversion comes first; then `Set...` panics on a field that is not exported.
On any other kind the program ends (`log.Fatal`, or the panic of
`s.Field(idx)` in its argument). -/
def setField (lib : Stdlib) (f : Field) (value : GoString) : Exec (Field × Option ConvError) :=
  match f.value with
  | FieldValue.int bits _ =>
    match ParseInt value with
    | Except.error e => Exec.ok (f, some e)
    | Except.ok intValue =>
      if IsExported lib f.Name then
        Exec.ok ({ f with value := FieldValue.int bits (wrapInt bits intValue) }, none)
      else Exec.fault
  | FieldValue.uint bits _ =>
    match ParseUint value with
    | Except.error e => Exec.ok (f, some e)
    | Except.ok uintValue =>
      if IsExported lib f.Name then
        Exec.ok ({ f with value := FieldValue.uint bits (wrapUint bits uintValue) }, none)
      else Exec.fault
  | FieldValue.float bits _ =>
    match lib.ParseFloat value with
    | Except.error e => Exec.ok (f, some e)
    | Except.ok floatValue =>
      if IsExported lib f.Name then
        Exec.ok ({ f with value :=
          FieldValue.float bits (if bits = 32 then lib.toFloat32 floatValue else floatValue) },
          none)
      else Exec.fault
  | FieldValue.string _ =>
    if IsExported lib f.Name then Exec.ok ({ f with value := FieldValue.string value }, none)
    else Exec.fault
  | FieldValue.bool _ =>
    match ParseBool value with
    | Except.error e => Exec.ok (f, some e)
    | Except.ok boolValue =>
      if IsExported lib f.Name then
        Exec.ok ({ f with value := FieldValue.bool boolValue }, none)
      else Exec.fault
  | FieldValue.other => Exec.fault

/-- The loop `for idx, col := range parser.record.Columns` of
`UnmarshallNext`, from the column index `idx` on, with the map `fieldToIdx`
built beforehand. -/
def bindLoop (lib : Stdlib) (m : GoString → Option Nat) :
    List Column → Nat → List GoString → Struct → Exec (Struct × Option ConvError)
  | [], _, _, s => Exec.ok (s, none)
  | col :: cols, idx, tokens, s =>
    match tokens[idx]? with
    | none => Exec.fault
    | some value =>
      match m col.Name with
      | none => bindLoop lib m cols (idx + 1) tokens s
      | some fieldIdx =>
        match s[fieldIdx]? with
        | none => Exec.fault
        | some f =>
          match setField lib f value with
          | Exec.ok (f, none) => bindLoop lib m cols (idx + 1) tokens (s.set fieldIdx f)
          | Exec.ok (_, some err) => Exec.ok (s, some err)
          | Exec.fault => Exec.fault
          | Exec.outOfFuel => Exec.outOfFuel

/-- The second half of `UnmarshallNext`, from `reflect.ValueOf(v).Elem()` on:
the target after the binding and the conversion error, if any. -/
def bindFields (lib : Stdlib) (record : Record) (tokens : List GoString) (v : Iface) :
    Exec (Iface × Option ConvError) :=
  match v with
  | Iface.ptr s =>
    match bindLoop lib (fieldToIdx s) record.Columns 0 tokens s with
    | Exec.ok (s, err) => Exec.ok (Iface.ptr s, err)
    | Exec.fault => Exec.fault
    | Exec.outOfFuel => Exec.outOfFuel
  | Iface.struct _ => Exec.fault
  | Iface.int _ => Exec.fault

/-! ## Schema loading (`readSchema`, `NewParser`, `NewWriter`) -/

/-- The schema reader, by what `ioutil.ReadAll` and `json.Unmarshal` make of
it: a read error, text that is not JSON for a `Record`, or the JSON of a
record.  Decoding checks the shape only: any list of names and integer
lengths is the JSON of a record. -/
inductive SchemaReader where
  | unreadable
  | malformed
  | json (record : Record)
deriving DecidableEq, Repr

/-- The function `readSchema`: `log.Fatal` on a read or decoding error ends
the program; otherwise the decoded record is returned as it is. -/
def readSchema : SchemaReader → Exec Record
  | SchemaReader.unreadable => Exec.fault
  | SchemaReader.malformed => Exec.fault
  | SchemaReader.json record => Exec.ok record

/-- `NewParser` from the schema reader: `readSchema`, then the parser built
on the decoded record. -/
def NewParser.ofReader (input : List GoString) (schemaReader : SchemaReader) : Exec Parser :=
  match readSchema schemaReader with
  | Exec.ok record => Exec.ok (NewParser input record)
  | Exec.fault => Exec.fault
  | Exec.outOfFuel => Exec.outOfFuel

/-- `NewWriter`, on an empty sink. -/
def NewWriter (schemaReader : SchemaReader) : Exec Writer :=
  match readSchema schemaReader with
  | Exec.ok record =>
    Exec.ok { record := record, numCols := record.Columns.length,
              lineSize := lineSizeOf record, padChar := 0x20 }
  | Exec.fault => Exec.fault
  | Exec.outOfFuel => Exec.outOfFuel

/-! ## Vocabulary of the properties -/

/-- Apply a function to a returned value. -/
def Exec.map {α β : Type} (f : α → β) : Exec α → Exec β
  | Exec.ok a => Exec.ok (f a)
  | Exec.fault => Exec.fault
  | Exec.outOfFuel => Exec.outOfFuel

/-- What one line contributes: its tokens, its error and the diagnostics it
appends. -/
abbrev LineOutcome := List GoString × Option ParsingError × List ParsingError

/-- The column loop of `parseLine` as a function of the configuration alone
(the two trim toggles, `ignoreEmptyCols` and the line number): the outcome it
contributes, without the parser state around it. -/
def loopOutcome (v : List Rune) (trimLeadingSpace trimTrailingSpace ignoreEmptyCols : Bool)
    (numLines : Int) : List Column → Int → List GoString → Exec LineOutcome
  | [], _, tokens => Exec.ok (tokens, none, [])
  | column :: columns, idx, tokens =>
    match sliceRunes v idx (idx + column.Length) with
    | Exec.ok span =>
      let token := trimToken trimLeadingSpace trimTrailingSpace (fromRunes span)
      if token.length = 0 then
        let err : ParsingError := { line := numLines, colName := column.Name, err := ErrNumCols }
        if !ignoreEmptyCols then Exec.ok ([], some err, [err])
        else
          (loopOutcome v trimLeadingSpace trimTrailingSpace ignoreEmptyCols numLines columns
            (idx + column.Length) (tokens ++ [token])).map
            (fun r => (r.1, r.2.1, err :: r.2.2))
      else
        loopOutcome v trimLeadingSpace trimTrailingSpace ignoreEmptyCols numLines columns
          (idx + column.Length) (tokens ++ [token])
    | Exec.fault => Exec.fault
    | Exec.outOfFuel => Exec.outOfFuel

/-- The characters of `line` at the positions `[lo, hi)`, as a string. -/
def spanOf (line : GoString) (lo hi : Int) : GoString :=
  fromRunes (((toRunes line).drop lo.toNat).take (hi - lo).toNat)

/-- The tokens the column loop cuts out of the rune slice `v` from the cursor
`idx` on: for each column the runes `[idx, idx + Length)`, as a string, after
the optional trimming. -/
def spansFrom (v : List Rune) (trimLeadingSpace trimTrailingSpace : Bool) :
    List Column → Int → List GoString
  | [], _ => []
  | column :: columns, idx =>
    trimToken trimLeadingSpace trimTrailingSpace
        (fromRunes ((v.drop idx.toNat).take column.Length.toNat)) ::
      spansFrom v trimLeadingSpace trimTrailingSpace columns (idx + column.Length)

/-- The empty-column diagnostics of a line with the tokens `tokens`: one per
column whose token is empty, in schema order, carrying the column name. -/
def emptyDiags (numLines : Int) (columns : List Column) (tokens : List GoString) :
    List ParsingError :=
  (columns.zip tokens).filterMap fun ct =>
    if ct.2.length = 0 then
      some { line := numLines, colName := ct.1.Name, err := ErrNumCols }
    else none

/-- Text of one-byte characters only (ASCII). -/
def SingleByte (s : GoString) : Prop := ∀ b ∈ s, b < 0x80

/-- The cursor before column `i`: the sum of the widths of the columns
before it. -/
def offsetOf (record : Record) (i : Nat) : Int :=
  totalWidth { Columns := record.Columns.take i }

/-- A character: a Unicode scalar value, that is, a code point up to U+10FFFF
outside the surrogate range. -/
def ValidRune (r : Int) : Prop := 0 ≤ r ∧ r ≤ 0x10FFFF ∧ ¬ (0xD800 ≤ r ∧ r ≤ 0xDFFF)

instance (r : Int) : Decidable (ValidRune r) :=
  inferInstanceAs (Decidable (0 ≤ r ∧ r ≤ 0x10FFFF ∧ ¬ (0xD800 ≤ r ∧ r ≤ 0xDFFF)))

/-- The characters of the text `s`. -/
def charsOf (s : String) : List Rune := s.toList.map fun c => (c.toNat : Int)

/-- The span `[lo, hi)` of a sequence of characters. -/
def charSpan (chars : List Rune) (lo hi : Int) : List Rune :=
  (chars.drop lo.toNat).take (hi - lo).toNat

/-- A sequence of characters without its leading whitespace when `leading`
is set and without its trailing whitespace when `trailing` is set. -/
def trimSpan (leading trailing : Bool) (chars : List Rune) : List Rune :=
  let chars := if leading then chars.dropWhile IsSpace else chars
  if trailing then chars.rdropWhile IsSpace else chars

/-- A call on a parser, as far as the parser state is concerned. -/
inductive Op (τ : Type) where
  | HasNext
  | Next
  | All
  | UnmarshallNext (v : τ)
  | WithTrimLeadingSpace
  | WithTrimTrailingSpace
  | WithIgnoreEmptyCols

/-- The parser state after one call. -/
def Op.apply {τ ε : Type} (rt : Runtime)
    (bindFields : Record → List GoString → τ → Exec (τ × Option ε)) :
    Op τ → Parser → Exec Parser
  | Op.HasNext, parser => Exec.ok parser.HasNext.2
  | Op.Next, parser =>
    match parser.Next rt with
    | Exec.ok r => Exec.ok r.2.2
    | Exec.fault => Exec.fault
    | Exec.outOfFuel => Exec.outOfFuel
  | Op.All, parser =>
    match parser.All rt with
    | Exec.ok r => Exec.ok r.2.2
    | Exec.fault => Exec.fault
    | Exec.outOfFuel => Exec.outOfFuel
  | Op.UnmarshallNext v, parser =>
    match parser.UnmarshallNext rt bindFields v with
    | Exec.ok r => Exec.ok r.2
    | Exec.fault => Exec.fault
    | Exec.outOfFuel => Exec.outOfFuel
  | Op.WithTrimLeadingSpace, parser => Exec.ok parser.WithTrimLeadingSpace
  | Op.WithTrimTrailingSpace, parser => Exec.ok parser.WithTrimTrailingSpace
  | Op.WithIgnoreEmptyCols, parser => Exec.ok parser.WithIgnoreEmptyCols

/-- The parser state after a sequence of calls. -/
def runOps {τ ε : Type} (rt : Runtime)
    (bindFields : Record → List GoString → τ → Exec (τ × Option ε)) :
    List (Op τ) → Parser → Exec Parser
  | [], parser => Exec.ok parser
  | op :: ops, parser =>
    match op.apply rt bindFields parser with
    | Exec.ok parser => runOps rt bindFields ops parser
    | Exec.fault => Exec.fault
    | Exec.outOfFuel => Exec.outOfFuel

/-- One call of `parseLine` as a function of the configuration and the line
counter alone: the outcome the line contributes. -/
def lineOutcome (rt : Runtime) (line : GoString) (record : Record) (p : Parser) :
    Exec LineOutcome :=
  if p.numCols < 0 then Exec.fault
  else if (line.length : Int) > p.lineSize then
    let err : ParsingError := { line := p.numLines + 1, err := ErrLineTooLong }
    if p.ignoreExtraSize then
      match sliceRunes (runeSlice rt line) 0 p.lineSize with
      | Exec.ok _ =>
        (loopOutcome (runeSlice rt line) p.trimLeadingSpace p.trimTrailingSpace p.ignoreEmptyCols
          (p.numLines + 1) record.Columns 0 []).map (fun r => (r.1, r.2.1, err :: r.2.2))
      | Exec.fault => Exec.fault
      | Exec.outOfFuel => Exec.outOfFuel
    else Exec.ok ([], some err, [err])
  else if (line.length : Int) < p.lineSize then
    let err : ParsingError := { line := p.numLines + 1, err := ErrLineTooShort }
    if p.handleShortLines then
      (loopOutcome (runeSlice rt (line ++ Repeat [0x20] (p.lineSize - (line.length : Int)).toNat))
        p.trimLeadingSpace p.trimTrailingSpace p.ignoreEmptyCols
        (p.numLines + 1) record.Columns 0 []).map (fun r => (r.1, r.2.1, err :: r.2.2))
    else Exec.ok ([], some err, [err])
  else
    loopOutcome (runeSlice rt line) p.trimLeadingSpace p.trimTrailingSpace p.ignoreEmptyCols
      (p.numLines + 1) record.Columns 0 []

/-- The lines `ls`, handed to `parseLine` one after the other from the
state `p`, are all decoded without error: `recs` are their token records, in
order, and `q` is the state after the last of them. -/
inductive Decoded (rt : Runtime) :
    Parser → List GoString → List (List GoString) → Parser → Prop where
  | nil (p : Parser) : Decoded rt p [] [] p
  | cons {p p1 q : Parser} {l : GoString} {ls : List GoString} {tokens : List GoString}
      {recs : List (List GoString)} :
      parseLine rt l p.record p = Exec.ok (tokens, none, p1) →
      Decoded rt p1 ls recs q → Decoded rt p (l :: ls) (tokens :: recs) q

/-- The parser with its scanner replaced. -/
def Parser.withScanner (p : Parser) (s : Scanner) : Parser := { p with scanner := s }

/-- The schema of the tests: `City` 5, `Street` 4, `Number` 4, `Main` 1. -/
def addressSchema : Record :=
  { Columns := [⟨lit "City", 5⟩, ⟨lit "Street", 4⟩, ⟨lit "Number", 4⟩, ⟨lit "Main", 1⟩] }

/-- A parser as the tests build it: `NewParser` on the input lines and the
address schema, then the five toggles. -/
def addressParser (input : List GoString)
    (handleShortLines ignoreExtraSize ignoreEmptyCols trimLeadingSpace trimTrailingSpace : Bool) :
    Parser :=
  { NewParser input addressSchema with
    handleShortLines := handleShortLines, ignoreExtraSize := ignoreExtraSize,
    ignoreEmptyCols := ignoreEmptyCols, trimLeadingSpace := trimLeadingSpace,
    trimTrailingSpace := trimTrailingSpace }

/-- A parser as `NewParser` builds it on the given schema and input lines,
then the five toggles. -/
def parserOn (record : Record) (input : List GoString)
    (handleShortLines ignoreExtraSize ignoreEmptyCols trimLeadingSpace trimTrailingSpace : Bool) :
    Parser :=
  { NewParser input record with
    handleShortLines := handleShortLines, ignoreExtraSize := ignoreExtraSize,
    ignoreEmptyCols := ignoreEmptyCols, trimLeadingSpace := trimLeadingSpace,
    trimTrailingSpace := trimTrailingSpace }

/-- A schema of one column `A` of the given width. -/
def oneColumn (width : Int) : Record := { Columns := [⟨lit "A", width⟩] }

/-- A parser on the one-column schema, with the three tolerances set and both
trims off. -/
def oneColumnParser (width : Int) (handleShortLines ignoreExtraSize ignoreEmptyCols : Bool) :
    Parser :=
  { NewParser [] (oneColumn width) with
    handleShortLines := handleShortLines, ignoreExtraSize := ignoreExtraSize,
    ignoreEmptyCols := ignoreEmptyCols }

/-- The part of the parser state that `parseLine` can change, written as
an update of `p`: the line counter, the diagnostics appended, and `done`. -/
def Parser.after (p : Parser) (numLines : Int) (diags : List ParsingError) (halt : Bool) :
    Parser :=
  { p with numLines := numLines, Errors := p.Errors ++ diags, done := halt || p.done }

/-- The coercion of a token to the type of a field: a base-10 integer wrapped
to the size of the field, a floating-point number, the text as it is, or a
boolean literal; `none` when the token is not of that form. -/
def coerceTo (lib : Stdlib) : FieldValue → GoString → Option FieldValue
  | FieldValue.int bits _, t =>
    match ParseInt t with
    | Except.ok n => some (FieldValue.int bits (wrapInt bits n))
    | Except.error _ => none
  | FieldValue.uint bits _, t =>
    match ParseUint t with
    | Except.ok n => some (FieldValue.uint bits (wrapUint bits n))
    | Except.error _ => none
  | FieldValue.float bits _, t =>
    match lib.ParseFloat t with
    | Except.ok x => some (FieldValue.float bits (if bits = 32 then lib.toFloat32 x else x))
    | Except.error _ => none
  | FieldValue.string _, t => some (FieldValue.string t)
  | FieldValue.bool _, t =>
    match ParseBool t with
    | Except.ok b => some (FieldValue.bool b)
    | Except.error _ => none
  | FieldValue.other, _ => none

/-- The lines that `Scan` delivers from the raw lines `pending`: the raw lines
before the first one that does not fit the buffer of the scanner, each
without its carriage return. -/
def delivered (pending : List GoString) : List GoString :=
  (pending.takeWhile fun l => decide (l.length < MaxScanTokenSize)).map dropCR

/-- The lines `ls` handed to `parseLine` one after the other, whatever each
call returns: the parser after the last of them. -/
def feedLines (rt : Runtime) : List GoString → Parser → Exec Parser
  | [], p => Exec.ok p
  | l :: ls, p =>
    match parseLine rt l p.record p with
    | Exec.ok r => feedLines rt ls r.2.2
    | Exec.fault => Exec.fault
    | Exec.outOfFuel => Exec.outOfFuel

/-- A runtime for the examples: no line of theirs has more than 32 runes, so
the surplus is not consulted. -/
def exampleRuntime : Runtime := { surplus := fun _ => 0 }

/-- A library for the examples: `unicode.IsUpper` on the ASCII letters; the
examples have no floating-point field, so the three floating-point functions
are not called. -/
def exampleLib : Stdlib :=
  { IsUpper := fun r => decide (0x41 ≤ r ∧ r ≤ 0x5A),
    FormatFloat := fun _ => [],
    ParseFloat := fun _ => Except.error ConvError.ErrSyntax,
    toFloat32 := fun x => x }

/-- The record type `Address` of the tests, as a value. -/
def address (city street : GoString) (number : Int) (main : Bool) : Struct :=
  [⟨lit "City", FieldValue.string city⟩, ⟨lit "Street", FieldValue.string street⟩,
   ⟨lit "Number", FieldValue.int 64 number⟩, ⟨lit "Main", FieldValue.bool main⟩]

/-- The writer that `NewWriter` builds on the address schema. -/
def addressWriter : Writer :=
  { record := addressSchema, numCols := 4, lineSize := 14, padChar := 0x20 }

/-- The six input lines of the tests. -/
def testLines : List GoString :=
  [lit "city1str15   T", lit "city2str24537T", lit "city3str3 24 F", lit "city4str4125 T",
   lit "city5str52   T", lit "city6    5   T"]

/-! ## Basic facts -/

set_option maxRecDepth 8000

variable {rt : Runtime}

theorem totalWidth_foldl (cols : List Column) (a : Int) :
    cols.foldl (fun lineSize col => lineSize + col.Length) a
      = a + cols.foldl (fun lineSize col => lineSize + col.Length) 0 := by
  induction cols generalizing a with
  | nil => simp
  | cons c cs ih =>
    simp only [List.foldl_cons]
    rw [ih (a + c.Length), ih (0 + c.Length)]
    omega

theorem totalWidth_cons (c : Column) (cs : List Column) :
    totalWidth ⟨c :: cs⟩ = c.Length + totalWidth ⟨cs⟩ := by
  unfold totalWidth
  simp only [List.foldl_cons]
  rw [totalWidth_foldl]
  omega

theorem columnLoop_eq (v : List Rune) (cols : List Column) (idx : Int)
    (acc : List GoString) (p : Parser) :
    columnLoop v cols idx acc p =
      (loopOutcome v p.trimLeadingSpace p.trimTrailingSpace p.ignoreEmptyCols p.numLines
        cols idx acc).map
        (fun r => (r.1, r.2.1, p.after p.numLines r.2.2 r.2.1.isSome)) := by
  induction cols generalizing idx acc p with
  | nil => simp [columnLoop, loopOutcome, Exec.map, Parser.after]
  | cons c cs ih =>
    unfold columnLoop loopOutcome
    cases hs : sliceRunes v idx (idx + c.Length) with
    | ok span =>
      simp only []
      split
      · cases hie : p.ignoreEmptyCols with
        | false => simp [Exec.map, Parser.after, hie]
        | true =>
          simp only [Bool.not_true, Bool.false_eq_true, if_false]
          rw [ih]
          simp only [hie]
          cases loopOutcome v p.trimLeadingSpace p.trimTrailingSpace true p.numLines cs
              (idx + c.Length) (acc ++ [trimToken p.trimLeadingSpace p.trimTrailingSpace
                (fromRunes span)]) with
          | ok r => simp [Exec.map, Parser.after, hie]
          | fault => simp [Exec.map]
          | outOfFuel => simp [Exec.map]
      · rw [ih]
    | fault => simp [Exec.map]
    | outOfFuel => simp [Exec.map]

theorem Exec.map_map {α β γ : Type} (f : α → β) (g : β → γ) (x : Exec α) :
    (x.map f).map g = x.map (fun a => g (f a)) := by
  cases x <;> rfl

/-- The function `parseLine` changes the parser by the outcome of the line:
the counter goes up by one, the diagnostics of the line are appended, and
`done` is set when the line is rejected. -/
theorem parseLine_eq (line : GoString) (record : Record) (p : Parser) :
    parseLine rt line record p =
      (lineOutcome rt line record p).map
        (fun r => (r.1, r.2.1, p.after (p.numLines + 1) r.2.2 r.2.1.isSome)) := by
  unfold parseLine lineOutcome
  by_cases hn : p.numCols < 0
  · simp [hn, Exec.map]
  · simp only [hn, if_false]
    by_cases h1 : (line.length : Int) > p.lineSize
    · simp only [h1, if_true]
      cases hx : p.ignoreExtraSize with
      | false => simp [Exec.map, Parser.after, hx]
      | true =>
        simp only [if_true]
        cases sliceRunes (runeSlice rt line) 0 p.lineSize with
        | ok pre =>
          simp only [columnLoop_eq, Exec.map_map]
          congr 1
          funext r
          simp [Parser.after, hx]
        | fault => simp [Exec.map]
        | outOfFuel => simp [Exec.map]
    · simp only [h1, if_false]
      by_cases h2 : (line.length : Int) < p.lineSize
      · simp only [h2, if_true]
        cases hx : p.handleShortLines with
        | false => simp [Exec.map, Parser.after, hx]
        | true =>
          simp only [if_true]
          simp only [columnLoop_eq, Exec.map_map]
          congr 1
          funext r
          simp [Parser.after, hx]
      · simp only [h2, if_false]
        simp only [columnLoop_eq]
        rfl

theorem Exec.map_eq_ok {α β : Type} {f : α → β} {x : Exec α} {b : β}
    (h : x.map f = Exec.ok b) : ∃ a, x = Exec.ok a ∧ f a = b := by
  cases x with
  | ok a => exact ⟨a, rfl, by simpa [Exec.map] using h⟩
  | fault => simp [Exec.map] at h
  | outOfFuel => simp [Exec.map] at h

/-- A rejected column: the loop hands back no tokens, the error is the
empty-column error of the current line, and `ignoreEmptyCols` is off. -/
theorem loopOutcome_err {v : List Rune} {tl tt ie : Bool} {n : Int} {cols : List Column}
    {idx : Int} {acc toks : List GoString} {e : ParsingError} {ds : List ParsingError}
    (h : loopOutcome v tl tt ie n cols idx acc = Exec.ok (toks, some e, ds)) :
    toks = [] ∧ ie = false ∧ e.err = ErrNumCols ∧ e.line = n ∧
      (∃ c ∈ cols, e.colName = c.Name) ∧ ∃ ds0, ds = ds0 ++ [e] := by
  induction cols generalizing idx acc ds with
  | nil => simp [loopOutcome] at h
  | cons c cs ih =>
    unfold loopOutcome at h
    cases hs : sliceRunes v idx (idx + c.Length) with
    | ok span =>
      simp only [hs] at h
      split at h
      · cases ie with
        | false =>
          simp at h
          obtain ⟨h1, h2, h3⟩ := h
          subst h1 h2 h3
          exact ⟨rfl, rfl, rfl, rfl, ⟨c, by simp, rfl⟩, [], rfl⟩
        | true =>
          simp only [Bool.not_true, Bool.false_eq_true, if_false] at h
          obtain ⟨r, hr, hreq⟩ := Exec.map_eq_ok h
          obtain ⟨r1, r2, r3⟩ := r
          simp at hreq
          obtain ⟨h1, h2, h3⟩ := hreq
          subst h1 h2 h3
          exact absurd (ih hr).2.1 (by simp)
      · obtain ⟨a, b, c1, d, ⟨c0, hc0, hn0⟩, ds0, hds⟩ := ih h
        exact ⟨a, b, c1, d, ⟨c0, by simp [hc0], hn0⟩, ds0, hds⟩
    | fault => simp [hs] at h
    | outOfFuel => simp [hs] at h

theorem loopOutcome_ne_outOfFuel (v : List Rune) (tl tt ie : Bool) (n : Int)
    (cols : List Column) (idx : Int) (acc : List GoString) :
    loopOutcome v tl tt ie n cols idx acc ≠ Exec.outOfFuel := by
  induction cols generalizing idx acc with
  | nil => simp [loopOutcome]
  | cons c cs ih =>
    unfold loopOutcome
    cases hs : sliceRunes v idx (idx + c.Length) with
    | ok span =>
      simp only []
      split
      · split
        · simp
        · intro h
          cases hl : loopOutcome v tl tt ie n cs (idx + c.Length)
              (acc ++ [trimToken tl tt (fromRunes span)]) with
          | ok r => simp [hl, Exec.map] at h
          | fault => simp [hl, Exec.map] at h
          | outOfFuel => exact ih _ _ hl
      · exact ih _ _
    | fault => simp
    | outOfFuel =>
      unfold sliceRunes at hs
      split at hs <;> simp at hs

theorem lineOutcome_ne_outOfFuel (line : GoString) (record : Record) (p : Parser) :
    lineOutcome rt line record p ≠ Exec.outOfFuel := by
  have key : ∀ (v : List Rune) (f : LineOutcome → LineOutcome),
      (loopOutcome v p.trimLeadingSpace p.trimTrailingSpace p.ignoreEmptyCols
        (p.numLines + 1) record.Columns 0 []).map f ≠ Exec.outOfFuel := by
    intro v f h
    cases hl : loopOutcome v p.trimLeadingSpace p.trimTrailingSpace p.ignoreEmptyCols
        (p.numLines + 1) record.Columns 0 [] with
    | ok r => simp [hl, Exec.map] at h
    | fault => simp [hl, Exec.map] at h
    | outOfFuel => exact loopOutcome_ne_outOfFuel _ _ _ _ _ _ _ _ hl
  unfold lineOutcome
  split
  · simp
  · split
    · split
      · cases hs : sliceRunes (runeSlice rt line) 0 p.lineSize with
        | ok pre => exact key _ _
        | fault => simp
        | outOfFuel =>
          unfold sliceRunes at hs
          split at hs <;> simp at hs
      · simp
    · split
      · split
        · exact key _ _
        · simp
      · exact loopOutcome_ne_outOfFuel _ _ _ _ _ _ _ _

/-- A rejected line: no tokens, and the error is one of the three untolerated
defects. -/
theorem lineOutcome_err {line : GoString} {record : Record} {p : Parser}
    {toks : List GoString} {e : ParsingError} {ds : List ParsingError}
    (h : lineOutcome rt line record p = Exec.ok (toks, some e, ds)) :
    toks = [] ∧ e.line = p.numLines + 1 ∧
      ((e.err = ErrLineTooLong ∧ p.ignoreExtraSize = false ∧ p.lineSize < (line.length : Int)) ∨
       (e.err = ErrLineTooShort ∧ p.handleShortLines = false ∧ (line.length : Int) < p.lineSize) ∨
       (e.err = ErrNumCols ∧ p.ignoreEmptyCols = false ∧ ∃ c ∈ record.Columns, e.colName = c.Name)) := by
  have key : ∀ (v : List Rune) (f : LineOutcome → LineOutcome),
      (∀ r, (f r).1 = r.1 ∧ (f r).2.1 = r.2.1) →
      (loopOutcome v p.trimLeadingSpace p.trimTrailingSpace p.ignoreEmptyCols
        (p.numLines + 1) record.Columns 0 []).map f = Exec.ok (toks, some e, ds) →
      toks = [] ∧ e.line = p.numLines + 1 ∧
        (e.err = ErrNumCols ∧ p.ignoreEmptyCols = false ∧
          ∃ c ∈ record.Columns, e.colName = c.Name) := by
    intro v f hf hm
    obtain ⟨r, hr, hreq⟩ := Exec.map_eq_ok hm
    obtain ⟨r1, r2, r3⟩ := r
    have h1 := (hf (r1, r2, r3)).1
    have h2 := (hf (r1, r2, r3)).2
    rw [hreq] at h1 h2
    simp only at h1 h2
    subst h1 h2
    obtain ⟨a, b, c1, d, hc, _⟩ := loopOutcome_err hr
    exact ⟨a, d, c1, b, hc⟩
  unfold lineOutcome at h
  split at h
  · simp at h
  · split at h
    · rename_i hlong
      split at h
      · cases hs : sliceRunes (runeSlice rt line) 0 p.lineSize with
        | ok pre =>
          simp only [hs] at h
          obtain ⟨a, b, c⟩ := key _ _ (by intro r; exact ⟨rfl, rfl⟩) h
          exact ⟨a, b, Or.inr (Or.inr c)⟩
        | fault => simp [hs] at h
        | outOfFuel => simp [hs] at h
      · rename_i hx
        simp at h
        obtain ⟨h1, h2, h3⟩ := h
        subst h1 h2 h3
        refine ⟨rfl, rfl, Or.inl ⟨rfl, by simpa using hx, by simpa using hlong⟩⟩
    · split at h
      · rename_i hshort
        split at h
        · obtain ⟨a, b, c⟩ := key _ _ (by intro r; exact ⟨rfl, rfl⟩) h
          exact ⟨a, b, Or.inr (Or.inr c)⟩
        · rename_i hx
          simp at h
          obtain ⟨h1, h2, h3⟩ := h
          subst h1 h2 h3
          refine ⟨rfl, rfl, Or.inr (Or.inl ⟨rfl, by simpa using hx, by simpa using hshort⟩)⟩
      · have h' : (loopOutcome (runeSlice rt line) p.trimLeadingSpace p.trimTrailingSpace
            p.ignoreEmptyCols (p.numLines + 1) record.Columns 0 []).map id
              = Exec.ok (toks, some e, ds) := by
          rw [← h]
          cases loopOutcome (runeSlice rt line) p.trimLeadingSpace p.trimTrailingSpace
            p.ignoreEmptyCols (p.numLines + 1) record.Columns 0 [] <;> rfl
        obtain ⟨a, b, c⟩ := key _ _ (by intro r; exact ⟨rfl, rfl⟩) h'
        exact ⟨a, b, Or.inr (Or.inr c)⟩

/-- Every returning call of `parseLine` is described by the outcome of its line. -/
theorem parseLine_ok_inv {line : GoString} {record : Record} {p q : Parser}
    {toks : List GoString} {e : Option ParsingError}
    (h : parseLine rt line record p = Exec.ok (toks, e, q)) :
    ∃ ds, lineOutcome rt line record p = Exec.ok (toks, e, ds) ∧
      q = p.after (p.numLines + 1) ds e.isSome := by
  rw [parseLine_eq] at h
  obtain ⟨r, hr, hreq⟩ := Exec.map_eq_ok h
  obtain ⟨r1, r2, r3⟩ := r
  simp only [Prod.mk.injEq] at hreq
  obtain ⟨h1, h2, h3⟩ := hreq
  subst h1 h2
  exact ⟨r3, hr, h3.symm⟩

theorem parseLine_ne_outOfFuel (line : GoString) (record : Record) (p : Parser) :
    parseLine rt line record p ≠ Exec.outOfFuel := by
  rw [parseLine_eq]
  intro h
  cases hl : lineOutcome rt line record p with
  | ok r => simp [hl, Exec.map] at h
  | fault => simp [hl, Exec.map] at h
  | outOfFuel => exact lineOutcome_ne_outOfFuel _ _ _ hl

theorem HasNext_of_done {p : Parser} (h : p.done = true) : p.HasNext = (false, p) := by
  simp [Parser.HasNext, h]

theorem HasNext_done_mono {p : Parser} (h : p.done = true) : p.HasNext.2.done = true := by
  rw [HasNext_of_done h]; exact h

theorem parseLine_done_mono {line : GoString} {record : Record} {p q : Parser}
    {toks : List GoString} {e : Option ParsingError}
    (h : parseLine rt line record p = Exec.ok (toks, e, q)) :
    (p.done = true → q.done = true) ∧ (e.isSome = true → q.done = true) := by
  obtain ⟨ds, _, hq⟩ := parseLine_ok_inv h
  subst hq
  constructor
  · intro hd; simp [Parser.after, hd]
  · intro he; simp [Parser.after, he]

/-- Whenever `All` returns, the parser is done. -/
theorem allLoop_done {fuel : Nat} {p : Parser} {recs : List (List GoString)} {r : AllResult}
    (h : allLoop rt fuel p recs = Exec.ok r) : r.2.2.done = true := by
  induction fuel generalizing p recs with
  | zero => simp [allLoop] at h
  | succ n ih =>
    unfold allLoop at h
    simp only at h
    split at h
    · split at h
      · exact ih h
      · rename_i hnext
        simp only [Exec.ok.injEq] at h
        subst h
        exact (parseLine_done_mono hnext).2 rfl
      · simp at h
      · simp at h
    · simp only [Exec.ok.injEq] at h
      subst h
      rfl

theorem Op.apply_done_mono {τ ε : Type}
    (bindFields : Record → List GoString → τ → Exec (τ × Option ε))
    (op : Op τ) {p q : Parser} (hd : p.done = true) (h : op.apply rt bindFields p = Exec.ok q) :
    q.done = true := by
  cases op with
  | HasNext =>
    simp only [Op.apply, Exec.ok.injEq] at h
    subst h
    exact HasNext_done_mono hd
  | Next =>
    simp only [Op.apply] at h
    split at h
    · rename_i r hr
      simp only [Exec.ok.injEq] at h
      subst h
      obtain ⟨r1, r2, r3⟩ := r
      exact (parseLine_done_mono hr).1 hd
    · simp at h
    · simp at h
  | All =>
    simp only [Op.apply] at h
    split at h
    · rename_i r hr
      simp only [Exec.ok.injEq] at h
      subst h
      exact allLoop_done hr
    · simp at h
    · simp at h
  | UnmarshallNext v =>
    simp only [Op.apply] at h
    split at h
    · rename_i r hr
      simp only [Exec.ok.injEq] at h
      subst h
      unfold Parser.UnmarshallNext at hr
      split at hr
      · rename_i hn
        simp only [Exec.ok.injEq] at hr
        subst hr
        exact (parseLine_done_mono hn).1 hd
      · rename_i hn
        split at hr
        · simp only [Exec.ok.injEq] at hr
          subst hr
          exact (parseLine_done_mono hn).1 hd
        · simp at hr
        · simp at hr
      · simp at hr
      · simp at hr
    · simp at h
    · simp at h
  | WithTrimLeadingSpace =>
    simp only [Op.apply, Exec.ok.injEq] at h
    subst h
    exact hd
  | WithTrimTrailingSpace =>
    simp only [Op.apply, Exec.ok.injEq] at h
    subst h
    exact hd
  | WithIgnoreEmptyCols =>
    simp only [Op.apply, Exec.ok.injEq] at h
    subst h
    exact hd

theorem runOps_done_mono {τ ε : Type}
    (bindFields : Record → List GoString → τ → Exec (τ × Option ε))
    (ops : List (Op τ)) {p q : Parser} (hd : p.done = true)
    (h : runOps rt bindFields ops p = Exec.ok q) : q.done = true := by
  induction ops generalizing p with
  | nil =>
    simp only [runOps, Exec.ok.injEq] at h
    subst h
    exact hd
  | cons op ops ih =>
    simp only [runOps] at h
    split at h
    · rename_i p1 hp1
      exact ih (Op.apply_done_mono bindFields op hd hp1) h
    · simp at h
    · simp at h

/-- A line decoded without error: its tokens are the spans of the columns,
none was empty when `ignoreEmptyCols` is off, and the diagnostics are the
empty-column ones. -/
theorem loopOutcome_tokens {v : List Rune} {tl tt ie : Bool} {n : Int} {cols : List Column}
    {idx : Int} {acc toks : List GoString} {ds : List ParsingError}
    (h : loopOutcome v tl tt ie n cols idx acc = Exec.ok (toks, none, ds)) :
    toks = acc ++ spansFrom v tl tt cols idx := by
  induction cols generalizing idx acc ds with
  | nil =>
    simp only [loopOutcome, Exec.ok.injEq, Prod.mk.injEq] at h
    simp [spansFrom, h.1]
  | cons c cs ih =>
    unfold loopOutcome at h
    cases hs : sliceRunes v idx (idx + c.Length) with
    | ok span =>
      have hspan : span = (v.drop idx.toNat).take c.Length.toNat := by
        unfold sliceRunes at hs
        split at hs
        · simp only [Exec.ok.injEq] at hs
          rw [show idx + c.Length - idx = c.Length by omega] at hs
          exact hs.symm
        · simp at hs
      simp only [hs] at h
      split at h
      · cases ie with
        | false => simp at h
        | true =>
          simp only [Bool.not_true, Bool.false_eq_true, if_false] at h
          obtain ⟨r, hr, hreq⟩ := Exec.map_eq_ok h
          obtain ⟨r1, r2, r3⟩ := r
          simp only [Prod.mk.injEq] at hreq
          obtain ⟨h1, h2, _⟩ := hreq
          subst h1 h2
          rw [ih hr, hspan]
          simp [spansFrom]
      · rw [ih h, hspan]
        simp [spansFrom]
    | fault => simp [hs] at h
    | outOfFuel => simp [hs] at h

theorem spansFrom_length (v : List Rune) (tl tt : Bool) (cols : List Column) (idx : Int) :
    (spansFrom v tl tt cols idx).length = cols.length := by
  induction cols generalizing idx with
  | nil => rfl
  | cons c cs ih => simp [spansFrom, ih]

theorem spansFrom_getElem? (v : List Rune) (tl tt : Bool) (cols : List Column) (idx : Int)
    (i : Nat) (hi : i < cols.length) :
    (spansFrom v tl tt cols idx)[i]? =
      some (trimToken tl tt (fromRunes
        ((v.drop (idx + totalWidth ⟨cols.take i⟩).toNat).take
          (idx + totalWidth ⟨cols.take (i + 1)⟩ - (idx + totalWidth ⟨cols.take i⟩)).toNat))) := by
  induction cols generalizing idx i with
  | nil => simp at hi
  | cons c cs ih =>
    cases i with
    | zero =>
      simp [spansFrom, totalWidth]
    | succ j =>
      have hj : j < cs.length := by simpa using hi
      simp only [spansFrom, List.getElem?_cons_succ, List.take_succ_cons, totalWidth_cons]
      rw [ih (idx + c.Length) j hj]
      simp only [Int.add_assoc]

theorem toRunesFrom_length_le (k : Nat) (s : GoString) :
    (toRunesFrom k s).length ≤ s.length := by
  induction s generalizing k with
  | nil => simp [toRunesFrom]
  | cons b rest ih =>
    cases k with
    | zero =>
      simp only [toRunesFrom, List.length_cons]
      have := ih ((DecodeRuneInString (b :: rest)).2 - 1)
      omega
    | succ k =>
      simp only [toRunesFrom, List.length_cons]
      have := ih k
      omega

/-- A string has at most as many characters as bytes. -/
theorem RuneCountInString_le (s : GoString) : RuneCountInString s ≤ s.length :=
  toRunesFrom_length_le 0 s

/-- A line that is not shorter than the line size in bytes and is decoded
without error yields the spans of its own rune slice. -/
theorem lineOutcome_tokens {line : GoString} {record : Record} {p : Parser}
    {toks : List GoString} {ds : List ParsingError}
    (hlen : ¬ (line.length : Int) < p.lineSize)
    (h : lineOutcome rt line record p = Exec.ok (toks, none, ds)) :
    toks = spansFrom (runeSlice rt line) p.trimLeadingSpace p.trimTrailingSpace
      record.Columns 0 := by
  unfold lineOutcome at h
  split at h
  · simp at h
  · split at h
    · split at h
      · cases hs : sliceRunes (runeSlice rt line) 0 p.lineSize with
        | ok pre =>
          simp only [hs] at h
          obtain ⟨r, hr, hreq⟩ := Exec.map_eq_ok h
          obtain ⟨r1, r2, r3⟩ := r
          simp only [Prod.mk.injEq] at hreq
          obtain ⟨h1, h2, _⟩ := hreq
          subst h1 h2
          simpa using loopOutcome_tokens hr
        | fault => simp [hs] at h
        | outOfFuel => simp [hs] at h
      · simp at h
    · simpa using loopOutcome_tokens h

/-- A column loop that ends without error with `ignoreEmptyCols` off met no
empty column: it appended nothing, and it ends the same way with
`ignoreEmptyCols` on. -/
theorem loopOutcome_strict_clean {v : List Rune} {tl tt : Bool} {n : Int} {cols : List Column}
    {idx : Int} {acc toks : List GoString} {ds : List ParsingError}
    (h : loopOutcome v tl tt false n cols idx acc = Exec.ok (toks, none, ds)) :
    ds = [] ∧ ∀ ie, loopOutcome v tl tt ie n cols idx acc = Exec.ok (toks, none, []) := by
  induction cols generalizing idx acc with
  | nil =>
    simp only [loopOutcome, Exec.ok.injEq, Prod.mk.injEq] at h
    obtain ⟨h1, _, h3⟩ := h
    subst h1 h3
    exact ⟨rfl, fun ie => by simp [loopOutcome]⟩
  | cons c cs ih =>
    unfold loopOutcome at h
    cases hs : sliceRunes v idx (idx + c.Length) with
    | ok span =>
      simp only [hs] at h
      split at h
      · simp at h
      · rename_i hne
        obtain ⟨h1, h2⟩ := ih h
        refine ⟨h1, fun ie => ?_⟩
        unfold loopOutcome
        simp only [hs, hne, if_false]
        exact h2 ie
    | fault => simp [hs] at h
    | outOfFuel => simp [hs] at h

/-- A line decoded without error with the three tolerances off has exactly the
line size in bytes, appends no diagnostic, and is decoded to the same tokens
under every setting of the three tolerances. -/
theorem lineOutcome_strict_clean {line : GoString} {record : Record} {p : Parser}
    {toks : List GoString} {ds : List ParsingError}
    (h : lineOutcome rt line record
      { p with handleShortLines := false, ignoreExtraSize := false, ignoreEmptyCols := false }
        = Exec.ok (toks, none, ds)) :
    ds = [] ∧ (line.length : Int) = p.lineSize ∧
    ∀ hs ie iec, lineOutcome rt line record
      { p with handleShortLines := hs, ignoreExtraSize := ie, ignoreEmptyCols := iec }
        = Exec.ok (toks, none, []) := by
  unfold lineOutcome at h
  simp only [] at h
  split at h
  · simp at h
  · rename_i hn
    split at h
    · simp at h
    · rename_i h1
      split at h
      · simp at h
      · rename_i h2
        obtain ⟨hds, hall⟩ := loopOutcome_strict_clean h
        refine ⟨hds, by omega, fun hs ie iec => ?_⟩
        unfold lineOutcome
        simp only [hn, h1, h2, if_false]
        exact hall iec

/-- The function `parseLine` neither reads nor writes the scanner. -/
theorem parseLine_withScanner (line : GoString) (record : Record) (p : Parser) (s : Scanner) :
    parseLine rt line record (p.withScanner s) =
      (parseLine rt line record p).map (fun r => (r.1, r.2.1, r.2.2.withScanner s)) := by
  rw [parseLine_eq, parseLine_eq, Exec.map_map]
  rfl

theorem Decoded.done_eq {p q : Parser} {ls : List GoString} {recs : List (List GoString)}
    (h : Decoded rt p ls recs q) : q.done = p.done := by
  induction h with
  | nil p => rfl
  | cons hp _ ih =>
    obtain ⟨ds, _, hq⟩ := parseLine_ok_inv hp
    rw [ih, hq]
    simp [Parser.after]

theorem Decoded.length_eq {p q : Parser} {ls : List GoString} {recs : List (List GoString)}
    (h : Decoded rt p ls recs q) : recs.length = ls.length := by
  induction h with
  | nil p => rfl
  | cons _ _ ih => simp [ih]

theorem allLoop_succ (fuel : Nat) (parser : Parser) (records : List (List GoString)) :
    allLoop rt (fuel + 1) parser records =
      if parser.HasNext.1 then
        match parser.HasNext.2.Next rt with
        | Exec.ok (tokens, none, parser) => allLoop rt fuel parser (records ++ [tokens])
        | Exec.ok (_, some err, parser) => Exec.ok ([], some err, parser)
        | Exec.fault => Exec.fault
        | Exec.outOfFuel => Exec.outOfFuel
      else Exec.ok (records, none, { parser.HasNext.2 with done := true }) := rfl

/-- A raw line that fits the buffer of the scanner is delivered, without its
carriage return. -/
theorem Scan_delivers (l : GoString) (ls : List GoString) (t : GoString)
    (h : l.length < MaxScanTokenSize) :
    Scanner.Scan { pending := l :: ls, text := t }
      = (true, { pending := ls, text := dropCR l }) := by
  unfold Scanner.Scan
  simp only []
  rw [if_neg (by omega)]

/-- A raw line that does not fit the buffer of the scanner ends the scan. -/
theorem Scan_gives_up (l : GoString) (ls : List GoString) (t : GoString)
    (h : MaxScanTokenSize ≤ l.length) :
    Scanner.Scan { pending := l :: ls, text := t }
      = (false, { pending := l :: ls, text := [] }) := by
  unfold Scanner.Scan
  simp only []
  rw [if_pos h]

/-- The loop of `All` over a prefix of the pending lines that the scanner
delivers and that decodes without error: it reaches the state after the
prefix with the records collected. -/
theorem allLoop_prefix {c q1 : Parser} (pre : List GoString) {recs : List (List GoString)}
    (hdec : Decoded rt c (pre.map dropCR) recs q1)
    (hfit : ∀ l ∈ pre, l.length < MaxScanTokenSize) (hd : c.done = false) (s : Scanner)
    (post : List GoString) (hs : s.pending = pre ++ post) (recs0 : List (List GoString))
    (fuel : Nat) :
    ∃ s', s'.pending = post ∧
      allLoop rt (pre.length + fuel) (c.withScanner s) recs0
        = allLoop rt fuel (q1.withScanner s') (recs0 ++ recs) := by
  induction pre generalizing c s recs recs0 with
  | nil =>
    cases hdec
    exact ⟨s, by simpa using hs, by simp⟩
  | cons l ls ih =>
    rw [List.map_cons] at hdec
    cases hdec with
    | @cons _ p1 _ _ _ tokens recs1 hp hrest =>
      have hp1 : p1.done = false := by
        obtain ⟨ds, _, hq⟩ := parseLine_ok_inv hp
        rw [hq]; simp [Parser.after, hd]
      obtain ⟨s', hs', hloop⟩ := ih hrest (fun x hx => hfit x (by simp [hx])) hp1
        { pending := ls ++ post, text := dropCR l } (by simp) (recs0 ++ [tokens])
      refine ⟨s', hs', ?_⟩
      have hfuel : (l :: ls).length + fuel = (ls.length + fuel) + 1 := by simp; omega
      rw [hfuel, allLoop_succ]
      have hsc : s = { pending := l :: (ls ++ post), text := s.text } := by
        cases s
        simp only [Scanner.mk.injEq, and_true]
        simpa using hs
      have hnext : (c.withScanner s).HasNext
          = (true, c.withScanner { pending := ls ++ post, text := dropCR l }) := by
        rw [hsc]
        simp [Parser.HasNext, Parser.withScanner, hd,
          Scan_delivers l (ls ++ post) s.text (hfit l (by simp))]
      simp only [hnext, if_true]
      have hN : (c.withScanner { pending := ls ++ post, text := dropCR l }).Next rt
          = Exec.ok (tokens, none,
              p1.withScanner { pending := ls ++ post, text := dropCR l }) := by
        unfold Parser.Next
        have : (c.withScanner { pending := ls ++ post, text := dropCR l }).scanner.Text
            = dropCR l := rfl
        rw [this]
        have hr : (c.withScanner { pending := ls ++ post, text := dropCR l }).record
            = c.record := rfl
        rw [hr, parseLine_withScanner, hp]
        rfl
      rw [hN]
      simp only []
      rw [hloop]
      simp

/-- The loop of `All` does not run out of its budget. -/
theorem allLoop_ne_outOfFuel (fuel : Nat) (p : Parser) (recs : List (List GoString))
    (h : p.scanner.pending.length < fuel) : allLoop rt fuel p recs ≠ Exec.outOfFuel := by
  induction fuel generalizing p recs with
  | zero => omega
  | succ n ih =>
    unfold allLoop
    simp only []
    split
    · rename_i hnext
      have hscan : p.HasNext.2.scanner.pending.length < n := by
        unfold Parser.HasNext at hnext ⊢
        split
        · rename_i hd; simp [hd] at hnext
        · rename_i hd
          simp only [hd, Bool.false_eq_true, if_false] at hnext
          unfold Scanner.Scan at hnext ⊢
          cases hpend : p.scanner.pending with
          | nil => simp [hpend] at hnext
          | cons l ls =>
            simp only [hpend, List.length_cons] at h
            by_cases hlong : MaxScanTokenSize ≤ l.length
            · simp [hpend, hlong] at hnext
            · simp [hlong]
              omega
      split
      · rename_i tokens q hN
        obtain ⟨ds, _, hq⟩ := parseLine_ok_inv hN
        apply ih
        rw [hq]
        exact hscan
      · simp
      · simp
      · rename_i hN
        exact absurd hN (parseLine_ne_outOfFuel _ _ _)
    · simp

/-! ## Lines whose columns are all in range -/

theorem sliceRunes_ok {v : List Rune} {lo hi : Int} (h0 : 0 ≤ lo) (h1 : lo ≤ hi)
    (h2 : hi ≤ (v.length : Int)) :
    sliceRunes v lo hi = Exec.ok ((v.drop lo.toNat).take (hi - lo).toNat) := by
  unfold sliceRunes
  rw [if_pos ⟨h0, h1, h2⟩]

theorem totalWidth_nonneg {cols : List Column} (h : ∀ c ∈ cols, 0 ≤ c.Length) :
    0 ≤ totalWidth ⟨cols⟩ := by
  induction cols with
  | nil => simp [totalWidth]
  | cons c cs ih =>
    rw [totalWidth_cons]
    have h1 := h c (by simp)
    have h2 := ih (fun c hc => h c (by simp [hc]))
    omega

/-- With `ignoreEmptyCols` on and every column inside the rune slice, the
column loop returns the spans of all columns, and one empty-column diagnostic
for each empty one. -/
theorem loopOutcome_lenient (v : List Rune) (tl tt : Bool) (n : Int) (cols : List Column)
    (idx : Int) (acc : List GoString) (hw : ∀ c ∈ cols, 0 ≤ c.Length) (h0 : 0 ≤ idx)
    (hfit : idx + totalWidth ⟨cols⟩ ≤ (v.length : Int)) :
    loopOutcome v tl tt true n cols idx acc =
      Exec.ok (acc ++ spansFrom v tl tt cols idx, none,
        emptyDiags n cols (spansFrom v tl tt cols idx)) := by
  induction cols generalizing idx acc with
  | nil => simp [loopOutcome, spansFrom, emptyDiags]
  | cons c cs ih =>
    have hc := hw c (by simp)
    have hcs : ∀ c' ∈ cs, 0 ≤ c'.Length := fun c' h => hw c' (by simp [h])
    have htot := totalWidth_nonneg hcs
    rw [totalWidth_cons] at hfit
    unfold loopOutcome
    rw [sliceRunes_ok h0 (by omega) (by omega),
      show idx + c.Length - idx = c.Length by omega]
    simp only []
    rw [ih (idx + c.Length) _ hcs (by omega) (by omega)]
    split
    · rename_i hempty
      have hnil := List.length_eq_zero.mp hempty
      simp [Exec.map, spansFrom, emptyDiags, List.filterMap_cons, hnil]
    · rename_i hne
      have hcons : trimToken tl tt (fromRunes ((v.drop idx.toNat).take c.Length.toNat)) ≠ [] :=
        fun h => hne (by rw [h]; rfl)
      simp [spansFrom, emptyDiags, List.filterMap_cons, hcons]

/-- With every column inside the rune slice and no empty token, the column
loop returns the spans of all columns and no diagnostic, whatever
`ignoreEmptyCols` is. -/
theorem loopOutcome_clean (v : List Rune) (tl tt ie : Bool) (n : Int) (cols : List Column)
    (idx : Int) (acc : List GoString) (hw : ∀ c ∈ cols, 0 ≤ c.Length) (h0 : 0 ≤ idx)
    (hfit : idx + totalWidth ⟨cols⟩ ≤ (v.length : Int))
    (hne : ∀ t ∈ spansFrom v tl tt cols idx, t.length ≠ 0) :
    loopOutcome v tl tt ie n cols idx acc =
      Exec.ok (acc ++ spansFrom v tl tt cols idx, none, []) := by
  induction cols generalizing idx acc with
  | nil => simp [loopOutcome, spansFrom]
  | cons c cs ih =>
    have hc := hw c (by simp)
    have hcs : ∀ c' ∈ cs, 0 ≤ c'.Length := fun c' h => hw c' (by simp [h])
    have htot := totalWidth_nonneg hcs
    rw [totalWidth_cons] at hfit
    have hhead := hne (trimToken tl tt (fromRunes ((v.drop idx.toNat).take c.Length.toNat)))
      (by simp [spansFrom])
    have htail : ∀ t ∈ spansFrom v tl tt cs (idx + c.Length), t.length ≠ 0 :=
      fun t ht => hne t (by simp [spansFrom, ht])
    unfold loopOutcome
    rw [sliceRunes_ok h0 (by omega) (by omega),
      show idx + c.Length - idx = c.Length by omega]
    simp only [hhead, if_false]
    rw [ih (idx + c.Length) _ hcs (by omega) (by omega) htail]
    simp [spansFrom]

/-! ## Single-byte text -/

theorem toRunesFrom_singleByte (s : GoString) (h : SingleByte s) :
    toRunesFrom 0 s = s.map (fun (b : Nat) => (b : Int)) := by
  induction s with
  | nil => rfl
  | cons b rest ih =>
    have hb : b < 0x80 := h b (by simp)
    have hrest : SingleByte rest := fun x hx => h x (by simp [hx])
    simp only [toRunesFrom, DecodeRuneInString, hb, if_true, List.map_cons]
    rw [show (1 : Nat) - 1 = 0 from rfl, ih hrest]

/-- The runes of single-byte text are its bytes. -/
theorem toRunes_singleByte (s : GoString) (h : SingleByte s) :
    toRunes s = s.map (fun (b : Nat) => (b : Int)) := toRunesFrom_singleByte s h

theorem RuneCountInString_singleByte (s : GoString) (h : SingleByte s) :
    RuneCountInString s = s.length := by
  simp [RuneCountInString, toRunes_singleByte s h]

theorem encodeRune_singleByte (b : Nat) (h : b < 0x80) : encodeRune (b : Int) = [b] := by
  unfold encodeRune
  have h1 : ¬ ((b : Int) < 0 ∨ 0x10FFFF < (b : Int) ∨ (0xD800 ≤ (b : Int) ∧ (b : Int) ≤ 0xDFFF)) := by
    omega
  rw [if_neg h1]
  simp [h]

/-- Single-byte text is the string of its runes. -/
theorem fromRunes_singleByte (s : GoString) (h : SingleByte s) :
    fromRunes (s.map (fun (b : Nat) => (b : Int))) = s := by
  induction s with
  | nil => rfl
  | cons b rest ih =>
    have hb : b < 0x80 := h b (by simp)
    have hrest : SingleByte rest := fun x hx => h x (by simp [hx])
    have := ih hrest
    simp only [fromRunes, List.map_map] at this ⊢
    simp [encodeRune_singleByte b hb, this]

/-! ## What holds of the codec in bytes and on single-byte text -/

theorem Repeat_length_single (b : Nat) (k : Nat) : (Repeat [b] k).length = k := by
  induction k with
  | zero => rfl
  | succ k ih =>
    simp only [Repeat, List.replicate_succ, List.flatten_cons, List.length_append,
      List.length_singleton] at ih ⊢
    omega

/-- Truncation in bytes: a token with more bytes than the column width is cut
to its first `Length` bytes. -/
theorem format_truncates_bytes (s : GoString) (pad : Rune) (col : Column)
    (h0 : 0 ≤ col.Length) (hlong : col.Length < (s.length : Int)) :
    format s pad col = Exec.ok (s.take col.Length.toNat) ∧
      ((s.take col.Length.toNat).length : Int) = col.Length := by
  have hmin : min (s.length : Int) col.Length = col.Length := by
    unfold min
    rw [if_neg (by omega)]
  constructor
  · unfold format
    simp only [hmin]
    rw [if_neg (by omega), if_neg (by omega)]
  · rw [List.length_take]
    omega

/-- Padding in bytes: a token with fewer bytes than the column width is
followed by one encoded pad character for each missing byte. -/
theorem format_pads_bytes (s : GoString) (pad : Rune) (col : Column)
    (hshort : (s.length : Int) < col.Length) :
    format s pad col =
      Exec.ok (s ++ Repeat (encodeRune pad) (col.Length - (s.length : Int)).toNat) := by
  have hmin : min (s.length : Int) col.Length = (s.length : Int) := by
    unfold min
    rw [if_pos hshort]
  unfold format
  simp only [hmin]
  rw [if_neg (by omega), if_pos hshort]
  simp

/-- A token with exactly as many bytes as the column width is written as is. -/
theorem format_exact_bytes (s : GoString) (pad : Rune) (col : Column)
    (h : (s.length : Int) = col.Length) : format s pad col = Exec.ok s := by
  have hmin : min (s.length : Int) col.Length = (s.length : Int) := by
    unfold min
    rw [if_neg (by omega)]
    exact h.symm
  unfold format
  simp only [hmin]
  rw [if_neg (by omega), if_neg (by omega)]
  simp

theorem loopOutcome_take (v : List Rune) (m : Nat) (tl tt ie : Bool) (n : Int)
    (cols : List Column) (idx : Int) (acc : List GoString)
    (hw : ∀ c ∈ cols, 0 ≤ c.Length) (h0 : 0 ≤ idx)
    (hfit : idx + totalWidth ⟨cols⟩ ≤ (m : Int)) (hm : m ≤ v.length) :
    loopOutcome (v.take m) tl tt ie n cols idx acc = loopOutcome v tl tt ie n cols idx acc := by
  induction cols generalizing idx acc with
  | nil => simp [loopOutcome]
  | cons c cs ih =>
    have hc := hw c (by simp)
    have hcs : ∀ c' ∈ cs, 0 ≤ c'.Length := fun c' h => hw c' (by simp [h])
    have htot := totalWidth_nonneg hcs
    rw [totalWidth_cons] at hfit
    have hlen : (v.take m).length = m := by simp [hm]
    have hslice : ((v.take m).drop idx.toNat).take (idx + c.Length - idx).toNat
        = (v.drop idx.toNat).take (idx + c.Length - idx).toNat := by
      rw [List.drop_take, List.take_take]
      congr 1
      omega
    unfold loopOutcome
    rw [sliceRunes_ok h0 (by omega) (by rw [hlen]; omega),
      sliceRunes_ok h0 (by omega) (by omega), hslice]
    simp only []
    rw [ih (idx + c.Length) _ hcs (by omega) (by omega)]

/-- The runes of a string are the front of its rune slice. -/
theorem runeSlice_take (rt : Runtime) (s : GoString) :
    (runeSlice rt s).take (toRunes s).length = toRunes s := by
  unfold runeSlice
  simp

theorem runeSlice_length (rt : Runtime) (s : GoString) :
    (runeSlice rt s).length = rt.runeCap (toRunes s).length := by
  unfold runeSlice Runtime.runeCap
  simp only [List.length_append, List.length_replicate]
  split <;> omega

/-- The capacity of a rune slice is at least its length. -/
theorem runeSlice_length_ge (rt : Runtime) (s : GoString) :
    (toRunes s).length ≤ (runeSlice rt s).length := by
  unfold runeSlice
  simp

/-- A column loop that stays inside the runes of the string does not see
the rest of the capacity. -/
theorem loopOutcome_runeSlice (rt : Runtime) (s : GoString) (tl tt ie : Bool) (n : Int)
    (cols : List Column) (idx : Int) (acc : List GoString)
    (hw : ∀ c ∈ cols, 0 ≤ c.Length) (h0 : 0 ≤ idx)
    (hfit : idx + totalWidth ⟨cols⟩ ≤ ((toRunes s).length : Int)) :
    loopOutcome (runeSlice rt s) tl tt ie n cols idx acc
      = loopOutcome (toRunes s) tl tt ie n cols idx acc := by
  have h := loopOutcome_take (runeSlice rt s) (toRunes s).length tl tt ie n cols idx acc hw h0
    hfit (runeSlice_length_ge rt s)
  rw [runeSlice_take] at h
  exact h.symm

/-- A slice that ends inside the front part of an array does not see the
rest. -/
theorem slice_append (v z : List Rune) (a w : Nat) (h : a + w ≤ v.length) :
    ((v ++ z).drop a).take w = (v.drop a).take w := by
  rw [List.drop_append_of_le_length (by omega), List.take_append_of_le_length]
  rw [List.length_drop]
  omega

theorem spansFrom_append (v z : List Rune) (tl tt : Bool) (cols : List Column) (idx : Int)
    (hw : ∀ c ∈ cols, 0 ≤ c.Length) (h0 : 0 ≤ idx)
    (hfit : idx + totalWidth ⟨cols⟩ ≤ (v.length : Int)) :
    spansFrom (v ++ z) tl tt cols idx = spansFrom v tl tt cols idx := by
  induction cols generalizing idx with
  | nil => rfl
  | cons c cs ih =>
    have hc := hw c (by simp)
    have hcs : ∀ c' ∈ cs, 0 ≤ c'.Length := fun c' h => hw c' (by simp [h])
    have htot := totalWidth_nonneg hcs
    rw [totalWidth_cons] at hfit
    simp only [spansFrom]
    rw [slice_append v z idx.toNat c.Length.toNat (by omega),
      ih (idx + c.Length) hcs (by omega) (by omega)]

theorem lineOutcome_exact (line : GoString) (record : Record) (p : Parser)
    (hn : ¬ p.numCols < 0) (hlen : (line.length : Int) = p.lineSize) :
    lineOutcome rt line record p =
      loopOutcome (runeSlice rt line) p.trimLeadingSpace p.trimTrailingSpace p.ignoreEmptyCols
        (p.numLines + 1) record.Columns 0 [] := by
  unfold lineOutcome
  rw [if_neg hn, if_neg (by omega), if_neg (by omega)]

theorem lineOutcome_short_on (line : GoString) (record : Record) (p : Parser)
    (hn : ¬ p.numCols < 0) (hshort : (line.length : Int) < p.lineSize)
    (hon : p.handleShortLines = true) :
    lineOutcome rt line record p =
      (loopOutcome (runeSlice rt (line ++ Repeat [0x20] (p.lineSize - (line.length : Int)).toNat))
        p.trimLeadingSpace p.trimTrailingSpace p.ignoreEmptyCols
        (p.numLines + 1) record.Columns 0 []).map
        (fun r => (r.1, r.2.1,
          ({ line := p.numLines + 1, err := ErrLineTooShort } : ParsingError) :: r.2.2)) := by
  unfold lineOutcome
  rw [if_neg hn, if_neg (by omega), if_pos hshort, if_pos hon]

theorem lineOutcome_long_on (line : GoString) (record : Record) (p : Parser)
    (hn : ¬ p.numCols < 0) (hlong : p.lineSize < (line.length : Int))
    (hon : p.ignoreExtraSize = true) (h0 : 0 ≤ p.lineSize)
    (hfit : p.lineSize ≤ ((toRunes line).length : Int)) :
    lineOutcome rt line record p =
      (loopOutcome (runeSlice rt line) p.trimLeadingSpace p.trimTrailingSpace p.ignoreEmptyCols
        (p.numLines + 1) record.Columns 0 []).map
        (fun r => (r.1, r.2.1,
          ({ line := p.numLines + 1, err := ErrLineTooLong } : ParsingError) :: r.2.2)) := by
  have hcap := runeSlice_length_ge rt line
  unfold lineOutcome
  rw [if_neg hn, if_pos (by omega), if_pos hon, sliceRunes_ok (le_refl 0) h0 (by omega)]

theorem lineOutcome_faults (line : GoString) (record : Record) (p : Parser)
    (hn : p.numCols < 0) : lineOutcome rt line record p = Exec.fault := by
  unfold lineOutcome
  rw [if_pos hn]

/-- The outcome of a line does not depend on the diagnostics recorded so far. -/
theorem lineOutcome_withErrors (line : GoString) (record : Record) (p : Parser)
    (errors : List ParsingError) :
    lineOutcome rt line record { p with Errors := errors } = lineOutcome rt line record p := rfl

/-- Short-line repair in bytes: with `handleShortLines` on, a line with fewer
bytes than the line size is parsed as the line padded with spaces to the line
size is, after the too-short diagnostic has been appended. -/
theorem short_line_repair_bytes (line : GoString) (record : Record) (p : Parser)
    (hshort : (line.length : Int) < p.lineSize) (hon : p.handleShortLines = true) :
    parseLine rt line record p =
      parseLine rt (line ++ Repeat [0x20] (p.lineSize - (line.length : Int)).toNat) record
        { p with Errors := p.Errors ++ [{ line := p.numLines + 1, err := ErrLineTooShort }] } := by
  have hpad : ((line ++ Repeat [0x20] (p.lineSize - (line.length : Int)).toNat).length : Int)
      = p.lineSize := by
    rw [List.length_append, Repeat_length_single]
    omega
  rw [parseLine_eq, parseLine_eq]
  change Exec.map _ (lineOutcome rt line record p) = Exec.map _ (lineOutcome rt _ record p)
  by_cases hn : p.numCols < 0
  · rw [lineOutcome_faults _ _ _ hn, lineOutcome_faults _ _ _ hn]
    rfl
  · rw [lineOutcome_short_on _ _ _ hn hshort hon, lineOutcome_exact _ _ _ hn hpad, Exec.map_map]
    congr 1
    funext r
    simp [Parser.after]

/-- An exact-width line of one-byte characters under `ignoreEmptyCols`: the
call returns, without error, one token per column (the trimmed spans), leaves
`done` as it is, and appends one empty-column diagnostic for each column
whose token is empty, in schema order, with the column name. -/
theorem exact_width_tolerant_decode (line : GoString) (record : Record) (p : Parser)
    (hn : 0 ≤ p.numCols) (hsize : p.lineSize = totalWidth record)
    (hw : ∀ c ∈ record.Columns, 0 ≤ c.Length)
    (hbytes : (line.length : Int) = p.lineSize)
    (hrunes : RuneCountInString line = line.length)
    (hon : p.ignoreEmptyCols = true) :
    parseLine rt line record p =
      Exec.ok (spansFrom (toRunes line) p.trimLeadingSpace p.trimTrailingSpace record.Columns 0,
        none,
        p.after (p.numLines + 1)
          (emptyDiags (p.numLines + 1) record.Columns
            (spansFrom (toRunes line) p.trimLeadingSpace p.trimTrailingSpace record.Columns 0))
          false) := by
  have hfit : (0 : Int) + totalWidth ⟨record.Columns⟩ ≤ ((toRunes line).length : Int) := by
    have e : totalWidth ⟨record.Columns⟩ = totalWidth record := rfl
    unfold RuneCountInString at hrunes
    rw [e, hrunes]
    omega
  rw [parseLine_eq, lineOutcome_exact _ _ _ (by omega) hbytes, hon,
    loopOutcome_runeSlice _ _ _ _ _ _ _ _ _ hw (le_refl 0) hfit,
    loopOutcome_lenient _ _ _ _ _ _ _ hw (le_refl 0) hfit]
  simp [Exec.map]

/-- Extra-size repair on single-byte text: with `ignoreExtraSize` on, a line
with more bytes than the line size is parsed as its first `lineSize` bytes
are, after the too-long diagnostic has been appended. -/
theorem extra_size_repair_single_byte (line : GoString) (record : Record) (p : Parser)
    (hascii : SingleByte line) (hsize : p.lineSize = totalWidth record)
    (hw : ∀ c ∈ record.Columns, 0 ≤ c.Length)
    (hlong : p.lineSize < (line.length : Int)) (hon : p.ignoreExtraSize = true) :
    parseLine rt line record p =
      parseLine rt (line.take p.lineSize.toNat) record
        { p with Errors := p.Errors ++ [{ line := p.numLines + 1, err := ErrLineTooLong }] } := by
  have hnonneg : 0 ≤ p.lineSize := by
    rw [hsize]; exact totalWidth_nonneg hw
  have hlen : ((line.take p.lineSize.toNat).length : Int) = p.lineSize := by
    rw [List.length_take]
    omega
  have hascii2 : SingleByte (line.take p.lineSize.toNat) :=
    fun b hb => hascii b (List.mem_of_mem_take hb)
  have hv : toRunes (line.take p.lineSize.toNat) = (toRunes line).take p.lineSize.toNat := by
    rw [toRunes_singleByte _ hascii2, toRunes_singleByte _ hascii, List.map_take]
  have hvlen : (toRunes line).length = line.length := RuneCountInString_singleByte line hascii
  have htot : (0 : Int) + totalWidth ⟨record.Columns⟩ ≤ (p.lineSize.toNat : Int) := by
    have e : totalWidth ⟨record.Columns⟩ = totalWidth record := rfl
    rw [e]
    omega
  rw [parseLine_eq, parseLine_eq]
  change Exec.map _ (lineOutcome rt line record p) = Exec.map _ (lineOutcome rt _ record p)
  by_cases hn : p.numCols < 0
  · rw [lineOutcome_faults _ _ _ hn, lineOutcome_faults _ _ _ hn]
    rfl
  · rw [lineOutcome_long_on _ _ _ hn hlong hon hnonneg (by rw [hvlen]; omega),
      lineOutcome_exact _ _ _ hn hlen, Exec.map_map,
      loopOutcome_runeSlice _ line _ _ _ _ _ _ _ hw (le_refl 0) (by rw [hvlen]; omega),
      loopOutcome_runeSlice _ (line.take p.lineSize.toNat) _ _ _ _ _ _ _ hw (le_refl 0)
        (by rw [hv, List.length_take, hvlen]; omega)]
    simp only [hv]
    rw [loopOutcome_take _ _ _ _ _ _ _ _ _ hw (le_refl 0) htot (by rw [hvlen]; omega)]
    congr 1
    funext r
    simp [Parser.after]

theorem trimToken_off (t : GoString) : trimToken false false t = t := rfl

theorem spansFrom_flatten (pre : List Rune) (tokens : List GoString) (cols : List Column)
    (h : List.Forall₂ (fun t c => SingleByte t ∧ (t.length : Int) = c.Length) tokens cols) :
    spansFrom (pre ++ tokens.flatten.map (fun (b : Nat) => (b : Int))) false false cols
      (pre.length : Int) = tokens := by
  induction h generalizing pre with
  | nil => rfl
  | @cons t c ts cs htc _ ih =>
    obtain ⟨hsb, hlen⟩ := htc
    have hc : c.Length.toNat = t.length := by omega
    have hidx : ((pre.length : Int) + c.Length) = ((pre ++ t.map (fun (b : Nat) => (b : Int))).length : Int) := by
      rw [List.length_append, List.length_map]
      omega
    have hv : pre ++ (t :: ts).flatten.map (fun (b : Nat) => (b : Int))
        = (pre ++ t.map (fun (b : Nat) => (b : Int))) ++ ts.flatten.map (fun (b : Nat) => (b : Int)) := by
      simp
    have hhead : ((pre ++ (t :: ts).flatten.map (fun (b : Nat) => (b : Int))).drop
        (pre.length : Int).toNat).take c.Length.toNat = t.map (fun (b : Nat) => (b : Int)) := by
      rw [hc]
      simp
    unfold spansFrom
    rw [hhead, trimToken_off, fromRunes_singleByte t hsb, hidx, hv, ih]

theorem flatten_length_eq_totalWidth (tokens : List GoString) (cols : List Column)
    (h : List.Forall₂ (fun t c => SingleByte t ∧ (t.length : Int) = c.Length) tokens cols) :
    (tokens.flatten.length : Int) = totalWidth ⟨cols⟩ ∧ SingleByte tokens.flatten := by
  induction h with
  | nil => exact ⟨by simp [totalWidth], fun b hb => by simp at hb⟩
  | @cons t c ts cs htc _ ih =>
    obtain ⟨hsb, hlen⟩ := htc
    obtain ⟨ih1, ih2⟩ := ih
    constructor
    · rw [totalWidth_cons, List.flatten_cons, List.length_append]
      omega
    · intro b hb
      rw [List.flatten_cons, List.mem_append] at hb
      cases hb with
      | inl h1 => exact hsb b h1
      | inr h2 => exact ih2 b h2

/-- Round trip on single-byte text: tokens of one-byte characters, each as
long as its column (of positive width), are written unchanged by `format`,
and the line made of them is decoded, with both trims off and under any
setting of the tolerances, to the same tokens with no error and no
diagnostic. -/
theorem round_trip_single_byte (tokens : List GoString) (pad : Rune) (record : Record)
    (p : Parser) (hn : 0 ≤ p.numCols) (hsize : p.lineSize = totalWidth record)
    (hT : List.Forall₂
      (fun t c => SingleByte t ∧ (t.length : Int) = c.Length ∧ 0 < c.Length)
      tokens record.Columns)
    (hl : p.trimLeadingSpace = false) (ht : p.trimTrailingSpace = false) :
    List.Forall₂ (fun t c => format t pad c = Exec.ok t) tokens record.Columns ∧
    parseLine rt tokens.flatten record p =
      Exec.ok (tokens, none, p.after (p.numLines + 1) [] false) := by
  have hT2 : List.Forall₂ (fun t c => SingleByte t ∧ (t.length : Int) = c.Length)
      tokens record.Columns := List.Forall₂.imp (fun _ _ h => ⟨h.1, h.2.1⟩) hT
  obtain ⟨hlen, hsb⟩ := flatten_length_eq_totalWidth tokens record.Columns hT2
  have e : totalWidth ⟨record.Columns⟩ = totalWidth record := rfl
  have hw : ∀ c ∈ record.Columns, 0 ≤ c.Length := by
    intro c hc
    have : ∀ (ts : List GoString) (cs : List Column),
        List.Forall₂ (fun t c => SingleByte t ∧ (t.length : Int) = c.Length ∧ 0 < c.Length)
          ts cs → ∀ c ∈ cs, 0 ≤ c.Length := by
      intro ts cs h
      induction h with
      | nil => intro c hc; simp at hc
      | cons h1 _ ih =>
        intro c hc
        rw [List.mem_cons] at hc
        cases hc with
        | inl h2 => rw [h2]; omega
        | inr h2 => exact ih c h2
    exact this tokens record.Columns hT c hc
  have hspans : spansFrom (toRunes tokens.flatten) false false record.Columns 0 = tokens := by
    rw [toRunes_singleByte _ hsb]
    exact spansFrom_flatten [] tokens record.Columns hT2
  have hne : ∀ t ∈ spansFrom (toRunes tokens.flatten) false false record.Columns 0,
      t.length ≠ 0 := by
    rw [hspans]
    have : ∀ (ts : List GoString) (cs : List Column),
        List.Forall₂ (fun t c => SingleByte t ∧ (t.length : Int) = c.Length ∧ 0 < c.Length)
          ts cs → ∀ t ∈ ts, t.length ≠ 0 := by
      intro ts cs h
      induction h with
      | nil => intro t ht; simp at ht
      | cons h1 _ ih =>
        intro t ht
        rw [List.mem_cons] at ht
        cases ht with
        | inl h2 => rw [h2]; omega
        | inr h2 => exact ih t h2
    exact this tokens record.Columns hT
  constructor
  · exact List.Forall₂.imp (fun _ _ h => format_exact_bytes _ pad _ h.2.1) hT
  · have hfit : (0 : Int) + totalWidth ⟨record.Columns⟩
        ≤ ((toRunes tokens.flatten).length : Int) := by
      have := RuneCountInString_singleByte _ hsb
      unfold RuneCountInString at this
      rw [this]
      omega
    rw [parseLine_eq, lineOutcome_exact _ _ _ (by omega) (by rw [hsize, ← e]; exact hlen),
      hl, ht, loopOutcome_runeSlice _ _ _ _ _ _ _ _ _ hw (le_refl 0) hfit,
      loopOutcome_clean _ _ _ _ _ _ _ _ hw (le_refl 0) hfit hne, hspans]
    simp [Exec.map]

/-- The three ways a run over the pending lines can go: every line decodes;
or a first line is rejected after a prefix that decodes; or a first line
panics after a prefix that decodes. -/
theorem lines_trichotomy (p : Parser) (ls : List GoString) :
    (∃ recs q, Decoded rt p ls recs q) ∨
    (∃ pre l post recs q1 toks e q2, ls = pre ++ l :: post ∧ Decoded rt p pre recs q1 ∧
      parseLine rt l q1.record q1 = Exec.ok (toks, some e, q2)) ∨
    (∃ pre l post recs q1, ls = pre ++ l :: post ∧ Decoded rt p pre recs q1 ∧
      parseLine rt l q1.record q1 = Exec.fault) := by
  induction ls generalizing p with
  | nil => exact Or.inl ⟨[], p, Decoded.nil p⟩
  | cons l ls ih =>
    cases hp : parseLine rt l p.record p with
    | ok r =>
      obtain ⟨toks, e, p1⟩ := r
      cases e with
      | none =>
        rcases ih p1 with ⟨recs, q, hd⟩ | ⟨pre, l2, post, recs, q1, toks2, e, q2, hls, hd, hf⟩ |
          ⟨pre, l2, post, recs, q1, hls, hd, hf⟩
        · exact Or.inl ⟨toks :: recs, q, Decoded.cons hp hd⟩
        · exact Or.inr (Or.inl ⟨l :: pre, l2, post, toks :: recs, q1, toks2, e, q2,
            by simp [hls], Decoded.cons hp hd, hf⟩)
        · exact Or.inr (Or.inr ⟨l :: pre, l2, post, toks :: recs, q1,
            by simp [hls], Decoded.cons hp hd, hf⟩)
      | some e =>
        exact Or.inr (Or.inl ⟨[], l, ls, [], p, toks, e, p1, rfl, Decoded.nil p, hp⟩)
    | fault => exact Or.inr (Or.inr ⟨[], l, ls, [], p, rfl, Decoded.nil p, hp⟩)
    | outOfFuel => exact absurd hp (parseLine_ne_outOfFuel _ _ _)

/-- When a line panics after a prefix that decodes, `All` panics. -/
theorem All_fault_of_line_fault {parser : Parser} (hd : parser.done = false)
    {pre : List GoString} {l : GoString} {post : List GoString}
    {recs : List (List GoString)} {q1 : Parser}
    (hpend : parser.scanner.pending = pre ++ l :: post)
    (hfit : ∀ x ∈ pre, x.length < MaxScanTokenSize) (hl : l.length < MaxScanTokenSize)
    (hdec : Decoded rt parser (pre.map dropCR) recs q1)
    (hfail : parseLine rt (dropCR l) q1.record q1 = Exec.fault) :
    parser.All rt = Exec.fault := by
  obtain ⟨s', hs', hloop⟩ :=
    allLoop_prefix pre hdec hfit hd parser.scanner (l :: post) hpend [] (post.length + 2)
  have hq1 : q1.done = false := by rw [hdec.done_eq, hd]
  have hstart : parser.withScanner parser.scanner = parser := rfl
  have hlen : parser.scanner.pending.length + 1 = pre.length + (post.length + 2) := by
    rw [hpend]; simp; omega
  unfold Parser.All
  rw [hstart] at hloop
  rw [hlen, hloop, allLoop_succ]
  have hsc : s' = { pending := l :: post, text := s'.text } := by
    cases s'
    simp only [Scanner.mk.injEq, and_true]
    simpa using hs'
  have hnext : (q1.withScanner s').HasNext
      = (true, q1.withScanner { pending := post, text := dropCR l }) := by
    rw [hsc]
    simp [Parser.HasNext, Parser.withScanner, hq1, Scan_delivers l post s'.text hl]
  have hN : (q1.withScanner { pending := post, text := dropCR l }).Next rt = Exec.fault := by
    unfold Parser.Next
    have : (q1.withScanner { pending := post, text := dropCR l }).scanner.Text = dropCR l := rfl
    rw [this]
    have hr : (q1.withScanner { pending := post, text := dropCR l }).record = q1.record := rfl
    rw [hr, parseLine_withScanner, hfail]
    rfl
  rw [hnext]
  simp only [if_true, hN]

/-! ## Diagnostics: what a call appends -/

/-- Every diagnostic of the column loop is an empty-column one of the current
line. -/
theorem loopOutcome_diags {v : List Rune} {tl tt ie : Bool} {n : Int} {cols : List Column}
    {idx : Int} {acc toks : List GoString} {e : Option ParsingError} {ds : List ParsingError}
    (h : loopOutcome v tl tt ie n cols idx acc = Exec.ok (toks, e, ds)) :
    ∀ d ∈ ds, d.line = n ∧ d.err = ErrNumCols := by
  induction cols generalizing idx acc ds with
  | nil =>
    simp only [loopOutcome, Exec.ok.injEq, Prod.mk.injEq] at h
    intro d hd
    rw [← h.2.2] at hd
    simp at hd
  | cons c cs ih =>
    unfold loopOutcome at h
    cases hs : sliceRunes v idx (idx + c.Length) with
    | ok span =>
      simp only [hs] at h
      split at h
      · cases ie with
        | false =>
          simp only [Bool.not_false, if_true, Exec.ok.injEq, Prod.mk.injEq] at h
          intro d hd
          rw [← h.2.2] at hd
          simp only [List.mem_singleton] at hd
          rw [hd]
          exact ⟨rfl, rfl⟩
        | true =>
          simp only [Bool.not_true, Bool.false_eq_true, if_false] at h
          obtain ⟨r, hr, hreq⟩ := Exec.map_eq_ok h
          obtain ⟨r1, r2, r3⟩ := r
          simp only [Prod.mk.injEq] at hreq
          obtain ⟨hq1, hq2, hq3⟩ := hreq
          subst hq1 hq2
          intro d hd
          rw [← hq3] at hd
          simp only [List.mem_cons] at hd
          cases hd with
          | inl h1 => rw [h1]; exact ⟨rfl, rfl⟩
          | inr h2 => exact ih hr d h2
      · exact ih h
    | fault => simp [hs] at h
    | outOfFuel => simp [hs] at h

/-- Every diagnostic of a line carries the number of that line. -/
theorem lineOutcome_diags {line : GoString} {record : Record} {p : Parser}
    {toks : List GoString} {e : Option ParsingError} {ds : List ParsingError}
    (h : lineOutcome rt line record p = Exec.ok (toks, e, ds)) :
    ∀ d ∈ ds, d.line = p.numLines + 1 := by
  have key : ∀ (v : List Rune) (err : ParsingError), err.line = p.numLines + 1 →
      (loopOutcome v p.trimLeadingSpace p.trimTrailingSpace p.ignoreEmptyCols
        (p.numLines + 1) record.Columns 0 []).map (fun r => (r.1, r.2.1, err :: r.2.2))
        = Exec.ok (toks, e, ds) → ∀ d ∈ ds, d.line = p.numLines + 1 := by
    intro v err herr hm d hd
    obtain ⟨r, hr, hreq⟩ := Exec.map_eq_ok hm
    obtain ⟨r1, r2, r3⟩ := r
    simp only [Prod.mk.injEq] at hreq
    rw [← hreq.2.2] at hd
    simp only [List.mem_cons] at hd
    cases hd with
    | inl h1 => rw [h1]; exact herr
    | inr h2 => exact (loopOutcome_diags hr d h2).1
  unfold lineOutcome at h
  split at h
  · simp at h
  · split at h
    · split at h
      · cases hs : sliceRunes (runeSlice rt line) 0 p.lineSize with
        | ok pre =>
          simp only [hs] at h
          exact key _ _ rfl h
        | fault => simp [hs] at h
        | outOfFuel => simp [hs] at h
      · simp only [Exec.ok.injEq, Prod.mk.injEq] at h
        intro d hd
        rw [← h.2.2] at hd
        simp only [List.mem_singleton] at hd
        rw [hd]
    · split at h
      · split at h
        · exact key _ _ rfl h
        · simp only [Exec.ok.injEq, Prod.mk.injEq] at h
          intro d hd
          rw [← h.2.2] at hd
          simp only [List.mem_singleton] at hd
          rw [hd]
      · exact fun d hd => (loopOutcome_diags h d hd).1

theorem parseLine_errors_prefix {line : GoString} {record : Record} {p q : Parser}
    {toks : List GoString} {e : Option ParsingError}
    (h : parseLine rt line record p = Exec.ok (toks, e, q)) : p.Errors <+: q.Errors := by
  obtain ⟨ds, _, hq⟩ := parseLine_ok_inv h
  rw [hq]
  exact ⟨ds, rfl⟩

theorem HasNext_errors (p : Parser) : p.HasNext.2.Errors = p.Errors := by
  unfold Parser.HasNext
  by_cases hd : p.done = true
  · simp [hd]
  · cases hsc : p.scanner.Scan.1 <;> simp [hd, hsc]

theorem allLoop_errors_prefix {fuel : Nat} {p : Parser} {recs : List (List GoString)}
    {r : AllResult} (h : allLoop rt fuel p recs = Exec.ok r) : p.Errors <+: r.2.2.Errors := by
  induction fuel generalizing p recs with
  | zero => simp [allLoop] at h
  | succ n ih =>
    rw [allLoop_succ] at h
    split at h
    · split at h
      · rename_i hN
        have h1 := parseLine_errors_prefix hN
        rw [HasNext_errors] at h1
        exact h1.trans (ih h)
      · rename_i hN
        simp only [Exec.ok.injEq] at h
        subst h
        have h1 := parseLine_errors_prefix hN
        rw [HasNext_errors] at h1
        exact h1
      · simp at h
      · simp at h
    · simp only [Exec.ok.injEq] at h
      subst h
      show p.Errors <+: p.HasNext.2.Errors
      rw [HasNext_errors]

theorem Op.apply_errors_prefix {τ ε : Type}
    (bindFields : Record → List GoString → τ → Exec (τ × Option ε))
    (op : Op τ) {p q : Parser} (h : op.apply rt bindFields p = Exec.ok q) :
    p.Errors <+: q.Errors := by
  cases op with
  | HasNext =>
    simp only [Op.apply, Exec.ok.injEq] at h
    subst h
    rw [HasNext_errors]
  | Next =>
    simp only [Op.apply] at h
    split at h
    · rename_i r hr
      simp only [Exec.ok.injEq] at h
      subst h
      obtain ⟨r1, r2, r3⟩ := r
      exact parseLine_errors_prefix hr
    · simp at h
    · simp at h
  | All =>
    simp only [Op.apply] at h
    split at h
    · rename_i r hr
      simp only [Exec.ok.injEq] at h
      subst h
      exact allLoop_errors_prefix hr
    · simp at h
    · simp at h
  | UnmarshallNext v =>
    simp only [Op.apply] at h
    split at h
    · rename_i r hr
      simp only [Exec.ok.injEq] at h
      subst h
      unfold Parser.UnmarshallNext at hr
      split at hr
      · rename_i hn
        simp only [Exec.ok.injEq] at hr
        subst hr
        exact parseLine_errors_prefix hn
      · rename_i hn
        split at hr
        · simp only [Exec.ok.injEq] at hr
          subst hr
          exact parseLine_errors_prefix hn
        · simp at hr
        · simp at hr
      · simp at hr
      · simp at hr
    · simp at h
    · simp at h
  | WithTrimLeadingSpace =>
    simp only [Op.apply, Exec.ok.injEq] at h
    subst h
    exact List.prefix_refl _
  | WithTrimTrailingSpace =>
    simp only [Op.apply, Exec.ok.injEq] at h
    subst h
    exact List.prefix_refl _
  | WithIgnoreEmptyCols =>
    simp only [Op.apply, Exec.ok.injEq] at h
    subst h
    exact List.prefix_refl _

theorem feedLines_numLines {ls : List GoString} {p q : Parser}
    (h : feedLines rt ls p = Exec.ok q) : q.numLines = p.numLines + ls.length := by
  induction ls generalizing p with
  | nil =>
    simp only [feedLines, Exec.ok.injEq] at h
    subst h
    simp
  | cons l ls ih =>
    simp only [feedLines] at h
    split at h
    · rename_i r hr
      obtain ⟨r1, r2, r3⟩ := r
      obtain ⟨ds, _, hq⟩ := parseLine_ok_inv hr
      rw [ih h]
      simp only [hq, Parser.after, List.length_cons]
      push_cast
      omega
    · simp at h
    · simp at h

/-! ## The map from field names to field indices -/

theorem fieldToIdxFrom_absent (i : Nat) (s : Struct) (m : GoString → Option Nat)
    (k : GoString) (h : ∀ f ∈ s, f.Name ≠ k) : fieldToIdxFrom i s m k = m k := by
  induction s generalizing i m with
  | nil => rfl
  | cons f fs ih =>
    simp only [fieldToIdxFrom]
    rw [ih (i + 1) _ (fun g hg => h g (by simp [hg]))]
    have : k ≠ f.Name := fun e => h f (by simp) e.symm
    simp [this]

theorem fieldToIdxFrom_last (i : Nat) (pre : Struct) (f : Field) (post : Struct)
    (m : GoString → Option Nat) (h : ∀ g ∈ post, g.Name ≠ f.Name) :
    fieldToIdxFrom i (pre ++ f :: post) m f.Name = some (i + pre.length) := by
  induction pre generalizing i m with
  | nil =>
    simp only [List.nil_append, fieldToIdxFrom, List.length_nil, Nat.add_zero]
    rw [fieldToIdxFrom_absent _ _ _ _ h]
    simp
  | cons g gs ih =>
    show fieldToIdxFrom (i + 1) (gs ++ f :: post) _ f.Name = some (i + (gs.length + 1))
    rw [ih (i + 1)]
    congr 1
    omega

theorem fieldToIdxFrom_some (i : Nat) (s : Struct) (m : GoString → Option Nat)
    (k : GoString) (j : Nat) (h : fieldToIdxFrom i s m k = some j) :
    m k = some j ∨ ∃ f, i ≤ j ∧ s[j - i]? = some f ∧ f.Name = k := by
  induction s generalizing i m with
  | nil => exact Or.inl h
  | cons f fs ih =>
    simp only [fieldToIdxFrom] at h
    rcases ih (i + 1) _ h with h1 | ⟨g, hle, hg, hname⟩
    · by_cases hk : k = f.Name
      · simp only [hk, if_true, Option.some.injEq] at h1
        subst h1
        exact Or.inr ⟨f, le_refl _, by simp, hk.symm⟩
      · simp only [hk, if_false] at h1
        exact Or.inl h1
    · refine Or.inr ⟨g, by omega, ?_, hname⟩
      have : j - i = (j - (i + 1)) + 1 := by omega
      rw [this, List.getElem?_cons_succ]
      exact hg

/-- An entry of the map is the index of a field of that name. -/
theorem fieldToIdx_some {s : Struct} {k : GoString} {j : Nat} (h : fieldToIdx s k = some j) :
    ∃ f, s[j]? = some f ∧ f.Name = k := by
  rcases fieldToIdxFrom_some 0 s _ k j h with h1 | ⟨f, _, hf, hname⟩
  · simp at h1
  · exact ⟨f, by simpa using hf, hname⟩

/-- A name that no field has is not in the map. -/
theorem fieldToIdx_none {s : Struct} {k : GoString} (h : ∀ f ∈ s, f.Name ≠ k) :
    fieldToIdx s k = none := by
  unfold fieldToIdx
  rw [fieldToIdxFrom_absent _ _ _ _ h]

/-- When the field names are distinct, the map sends the name of a field to
its index. -/
theorem fieldToIdx_of_nodup {s : Struct} (hnames : (s.map Field.Name).Nodup) {j : Nat}
    {f : Field} (hf : s[j]? = some f) : fieldToIdx s f.Name = some j := by
  have hj : j < s.length := by
    rcases List.getElem?_eq_some_iff.mp hf with ⟨hj, _⟩
    exact hj
  have hget : s[j] = f := by
    rcases List.getElem?_eq_some_iff.mp hf with ⟨_, h⟩
    exact h
  have hsplit : s = s.take j ++ f :: s.drop (j + 1) := by
    rw [← hget]
    simp
  have hpost : ∀ g ∈ s.drop (j + 1), g.Name ≠ f.Name := by
    intro g hg heq
    rw [hsplit, List.map_append, List.map_cons] at hnames
    have h2 := (List.nodup_append.mp hnames).2.1
    rw [List.nodup_cons] at h2
    exact h2.1 (by rw [← heq]; exact List.mem_map_of_mem _ hg)
  unfold fieldToIdx
  have := fieldToIdxFrom_last 0 (s.take j) f (s.drop (j + 1)) (fun _ => none) hpost
  rw [← hsplit] at this
  rw [this]
  simp
  omega

/-! ## Writing and binding records -/

/-- A field that `UnmarshallNext` has assigned keeps its name and kind and
holds the coercion of the token. -/
theorem setField_ok {lib : Stdlib} {f f1 : Field} {value : GoString}
    (h : setField lib f value = Exec.ok (f1, none)) :
    f1.Name = f.Name ∧ coerceTo lib f.value value = some f1.value ∧
      ∀ t, coerceTo lib f1.value t = coerceTo lib f.value t := by
  unfold setField at h
  cases hv : f.value with
  | int bits v =>
    simp only [hv] at h
    cases hp : ParseInt value with
    | error e => simp [hp] at h
    | ok n =>
      simp only [hp] at h
      split at h
      · simp only [Exec.ok.injEq, Prod.mk.injEq, and_true] at h
        subst h
        simp [coerceTo, hp]
      · simp at h
  | uint bits v =>
    simp only [hv] at h
    cases hp : ParseUint value with
    | error e => simp [hp] at h
    | ok n =>
      simp only [hp] at h
      split at h
      · simp only [Exec.ok.injEq, Prod.mk.injEq, and_true] at h
        subst h
        simp [coerceTo, hp]
      · simp at h
  | float bits v =>
    simp only [hv] at h
    cases hp : lib.ParseFloat value with
    | error e => simp [hp] at h
    | ok n =>
      simp only [hp] at h
      split at h
      · simp only [Exec.ok.injEq, Prod.mk.injEq, and_true] at h
        subst h
        simp [coerceTo, hp]
      · simp at h
  | string v =>
    simp only [hv] at h
    split at h
    · simp only [Exec.ok.injEq, Prod.mk.injEq, and_true] at h
      subst h
      simp [coerceTo]
    · simp at h
  | bool v =>
    simp only [hv] at h
    cases hp : ParseBool value with
    | error e => simp [hp] at h
    | ok n =>
      simp only [hp] at h
      split at h
      · simp only [Exec.ok.injEq, Prod.mk.injEq, and_true] at h
        subst h
        simp [coerceTo, hp]
      · simp at h
  | other => simp [hv] at h

theorem bindLoop_cons (lib : Stdlib) (m : GoString → Option Nat) (col : Column)
    (cols : List Column) (idx : Nat) (tokens : List GoString) (s : Struct) :
    bindLoop lib m (col :: cols) idx tokens s =
      match tokens[idx]? with
      | none => Exec.fault
      | some value =>
        match m col.Name with
        | none => bindLoop lib m cols (idx + 1) tokens s
        | some fieldIdx =>
          match s[fieldIdx]? with
          | none => Exec.fault
          | some f =>
            match setField lib f value with
            | Exec.ok (f, none) => bindLoop lib m cols (idx + 1) tokens (s.set fieldIdx f)
            | Exec.ok (_, some err) => Exec.ok (s, some err)
            | Exec.fault => Exec.fault
            | Exec.outOfFuel => Exec.outOfFuel := rfl

/-- The binding loop when it ends without error: the fields keep their names;
a field that no remaining column maps to is as before; a field that a column
maps to, with no later column mapping to it, holds the coercion of the token
of that column. -/
theorem bindLoop_ok {lib : Stdlib} {m : GoString → Option Nat} {cols : List Column}
    {idx : Nat} {tokens : List GoString} {s s' : Struct}
    (h : bindLoop lib m cols idx tokens s = Exec.ok (s', none)) :
    s'.map Field.Name = s.map Field.Name ∧
    (∀ j, (∀ c ∈ cols, m c.Name ≠ some j) → s'[j]? = s[j]?) ∧
    (∀ i c j, cols[i]? = some c → m c.Name = some j →
      (∀ i' c', i < i' → cols[i']? = some c' → m c'.Name ≠ some j) →
      ∃ t f f', tokens[idx + i]? = some t ∧ s[j]? = some f ∧ s'[j]? = some f' ∧
        coerceTo lib f.value t = some f'.value) := by
  induction cols generalizing idx s with
  | nil =>
    simp only [bindLoop, Exec.ok.injEq, Prod.mk.injEq, and_true] at h
    subst h
    exact ⟨rfl, fun _ _ => rfl, fun i c j hc => by simp at hc⟩
  | cons col cols ih =>
    rw [bindLoop_cons] at h
    cases ht : tokens[idx]? with
    | none => simp [ht] at h
    | some value =>
      simp only [ht] at h
      cases hm : m col.Name with
      | none =>
        simp only [hm] at h
        obtain ⟨h1, h2, h3⟩ := ih h
        refine ⟨h1, fun j hj => h2 j (fun c hc => hj c (by simp [hc])), ?_⟩
        intro i c j hc hmj hlater
        cases i with
        | zero =>
          simp only [List.getElem?_cons_zero, Option.some.injEq] at hc
          subst hc
          rw [hm] at hmj
          simp at hmj
        | succ i0 =>
          simp only [List.getElem?_cons_succ] at hc
          obtain ⟨t, f, f', e1, e2, e3, e4⟩ := h3 i0 c j hc hmj
            (fun i' c' hlt hc' => hlater (i' + 1) c' (by omega) (by simpa using hc'))
          exact ⟨t, f, f', by rw [← e1]; congr 1; omega, e2, e3, e4⟩
      | some fj =>
        simp only [hm] at h
        cases hf : s[fj]? with
        | none => simp [hf] at h
        | some f =>
          simp only [hf] at h
          cases hset : setField lib f value with
          | fault => simp [hset] at h
          | outOfFuel => simp [hset] at h
          | ok r =>
            obtain ⟨f1, e⟩ := r
            cases e with
            | some err => simp [hset] at h
            | none =>
              simp only [hset] at h
              obtain ⟨hname, hco, hkind⟩ := setField_ok hset
              obtain ⟨h1, h2, h3⟩ := ih h
              have hfj : fj < s.length := by
                rcases List.getElem?_eq_some_iff.mp hf with ⟨hlt, _⟩
                exact hlt
              have hnames : (s.set fj f1).map Field.Name = s.map Field.Name := by
                apply List.ext_getElem?
                intro k
                simp only [List.getElem?_map, List.getElem?_set]
                by_cases hk : fj = k
                · subst hk
                  simp [hfj, hf, hname]
                · simp [hk]
              refine ⟨h1.trans hnames, ?_, ?_⟩
              · intro j hj
                have hne : fj ≠ j := fun e => hj col (by simp) (by rw [hm, e])
                rw [h2 j (fun c hc => hj c (by simp [hc]))]
                simp [List.getElem?_set, hne]
              · intro i c j hc hmj hlater
                cases i with
                | zero =>
                  simp only [List.getElem?_cons_zero, Option.some.injEq] at hc
                  subst hc
                  rw [hm] at hmj
                  simp only [Option.some.injEq] at hmj
                  subst hmj
                  have hkeep := h2 fj (fun c' hc' => by
                    obtain ⟨k, hk⟩ := List.mem_iff_getElem?.mp hc'
                    exact hlater (k + 1) c' (by omega) (by simpa using hk))
                  refine ⟨value, f, f1, by simpa using ht, hf, ?_, hco⟩
                  rw [hkeep]
                  simp [List.getElem?_set, hfj]
                | succ i0 =>
                  simp only [List.getElem?_cons_succ] at hc
                  obtain ⟨t, g, g', e1, e2, e3, e4⟩ := h3 i0 c j hc hmj
                    (fun i' c' hlt hc' => hlater (i' + 1) c' (by omega) (by simpa using hc'))
                  have e1' : tokens[idx + (i0 + 1)]? = some t := by
                    rw [← e1]; congr 1; omega
                  by_cases hj : fj = j
                  · subst hj
                    have hg : g = f1 := by
                      simp [List.getElem?_set, hfj] at e2
                      exact e2.symm
                    subst hg
                    exact ⟨t, f, g', e1', hf, e3, by rw [← hkind]; exact e4⟩
                  · have e2' : s[j]? = some g := by
                      simpa [List.getElem?_set, hj] using e2
                    exact ⟨t, g, g', e1', e2', e3, e4⟩

/-- The binding loop reads only the tokens of the columns that the map sends
to a field. -/
theorem bindLoop_skips (lib : Stdlib) (m : GoString → Option Nat) (cols : List Column)
    (idx : Nat) (tokens tokens2 : List GoString) (s : Struct)
    (hlen : tokens2.length = tokens.length)
    (hagree : ∀ i c, cols[i]? = some c → m c.Name ≠ none →
      tokens2[idx + i]? = tokens[idx + i]?) :
    bindLoop lib m cols idx tokens2 s = bindLoop lib m cols idx tokens s := by
  induction cols generalizing idx s with
  | nil => rfl
  | cons col cols ih =>
    have hrest : ∀ i c, cols[i]? = some c → m c.Name ≠ none →
        tokens2[idx + 1 + i]? = tokens[idx + 1 + i]? := by
      intro i c hc hm
      have := hagree (i + 1) c (by simpa using hc) hm
      rw [show idx + (i + 1) = idx + 1 + i by omega] at this
      exact this
    rw [bindLoop_cons, bindLoop_cons]
    by_cases hidx : idx < tokens.length
    · have h1 : ∃ a, tokens[idx]? = some a := ⟨tokens[idx], by simp [hidx]⟩
      have hidx2 : idx < tokens2.length := by omega
      have h2 : ∃ b, tokens2[idx]? = some b := ⟨tokens2[idx], by simp [hidx2]⟩
      obtain ⟨a, ha⟩ := h1
      obtain ⟨b, hb⟩ := h2
      simp only [ha, hb]
      cases hm : m col.Name with
      | none => exact ih (idx + 1) s hrest
      | some fj =>
        have hab : b = a := by
          have := hagree 0 col (by simp) (by rw [hm]; simp)
          simp only [Nat.add_zero, ha, hb, Option.some.injEq] at this
          exact this
        subst hab
        simp only []
        cases s[fj]? with
        | none => rfl
        | some f =>
          simp only []
          cases setField lib f b with
          | fault => rfl
          | outOfFuel => rfl
          | ok r =>
            obtain ⟨f1, e⟩ := r
            cases e with
            | some err => rfl
            | none => exact ih (idx + 1) _ hrest
    · have h1 : tokens[idx]? = none := by simp; omega
      have h2 : tokens2[idx]? = none := by simp; omega
      simp [h1, h2]

/-- A 64-bit field holds the integer that `ParseInt` returned as it is. -/
theorem ParseInt_wrap64 (t : GoString) (n : Int) (h : ParseInt t = Except.ok n) :
    wrapInt 64 n = n := by
  have hrange : -(2 ^ 63 : Int) ≤ n ∧ n < 2 ^ 63 := by
    unfold ParseInt at h
    cases t with
    | nil => simp at h
    | cons c cs =>
      simp only [] at h
      split at h
      · simp at h
      · simp at h
      · rename_i un hun
        split at h
        · simp at h
        · split at h
          · simp at h
          · rename_i h1 h2
            simp only [Except.ok.injEq] at h
            by_cases hneg : c = 0x2D
            · simp only [hneg, if_true] at h
              simp only [hneg, true_and, not_true_eq_false, false_and, not_false_eq_true] at h1 h2
              subst h
              constructor <;> push_cast <;> omega
            · simp only [hneg, if_false] at h
              simp only [hneg, not_false_eq_true, true_and, false_and] at h1 h2
              subst h
              constructor <;> push_cast <;> omega
  unfold wrapInt
  obtain ⟨h1, h2⟩ := hrange
  have e : (n + 2 ^ (64 - 1)) % 2 ^ 64 = n + 2 ^ 63 := by
    apply Int.emod_eq_of_lt <;> norm_num <;> omega
  rw [e]
  norm_num

/-- An integer that fits the field is stored as it is. -/
theorem wrapInt_of_fits (bits : Nat) (n : Int) (hb : 0 < bits)
    (hlo : -(2 ^ (bits - 1) : Int) ≤ n) (hhi : n < 2 ^ (bits - 1)) : wrapInt bits n = n := by
  unfold wrapInt
  have hpow : (2 : Int) ^ bits = 2 * 2 ^ (bits - 1) := by
    obtain ⟨k, rfl⟩ : ∃ k, bits = k + 1 := ⟨bits - 1, by omega⟩
    simp [pow_succ, mul_comm]
  rw [Int.emod_eq_of_lt (by omega) (by omega)]
  omega

/-- An unsigned integer that fits the field is stored as it is. -/
theorem wrapUint_of_fits (bits n : Nat) (h : n < 2 ^ bits) : wrapUint bits n = n :=
  Nat.mod_eq_of_lt h

/-- A field narrower than 64 bits keeps the low bits of the parsed integer:
the token `300` leaves 44 in an 8-bit field, where a 64-bit field holds 300. -/
theorem narrow_integer_field_wraps (rt : Runtime) :
    (parserOn ⟨[⟨lit "N", 3⟩]⟩ [lit "300"] false false false false false).HasNext.2.UnmarshallNext rt
        (bindFields exampleLib) (Iface.ptr [⟨lit "N", FieldValue.int 8 0⟩])
      = Exec.ok ((Iface.ptr [⟨lit "N", FieldValue.int 8 44⟩], none),
          (parserOn ⟨[⟨lit "N", 3⟩]⟩ [lit "300"]
            false false false false false).HasNext.2.after 1 [] false) ∧
    coerceTo exampleLib (FieldValue.int 64 0) (lit "300") = some (FieldValue.int 64 300) :=
  ⟨of_decide_eq_true (Eq.refl true), of_decide_eq_true (Eq.refl true)⟩

/-! ## Short lines and the runtime -/

/-- The rune slice of a string of at most 32 runes is the conversion buffer,
whatever the allocator does with longer strings. -/
theorem runeSlice_small (rt rt' : Runtime) (s : GoString) (h : (toRunes s).length ≤ 32) :
    runeSlice rt s = runeSlice rt' s := by
  unfold runeSlice Runtime.runeCap
  rw [if_pos h, if_pos h]

/-- On a line of at most 32 bytes, with a line size of at most 32, `parseLine`
does not depend on the runtime: every conversion fits the buffer of 32
runes. -/
theorem parseLine_small (rt rt' : Runtime) (line : GoString) (record : Record) (p : Parser)
    (h1 : line.length ≤ 32) (h2 : p.lineSize ≤ 32) :
    parseLine rt line record p = parseLine rt' line record p := by
  have hline : runeSlice rt line = runeSlice rt' line :=
    runeSlice_small rt rt' line (le_trans (RuneCountInString_le line) h1)
  have hpad : (line.length : Int) < p.lineSize →
      runeSlice rt (line ++ Repeat [0x20] (p.lineSize - (line.length : Int)).toNat)
        = runeSlice rt' (line ++ Repeat [0x20] (p.lineSize - (line.length : Int)).toNat) := by
    intro hlt
    apply runeSlice_small
    refine le_trans (RuneCountInString_le _) ?_
    rw [List.length_append, Repeat_length_single]
    omega
  unfold parseLine
  simp only [hline]
  by_cases hlt : (line.length : Int) < p.lineSize
  · simp only [hpad hlt]
  · simp only [hlt, if_false]

/-! ## Lines in range -/

/-- With every column inside the rune slice, the column loop returns. -/
theorem loopOutcome_in_bounds (v : List Rune) (tl tt ie : Bool) (n : Int) (cols : List Column)
    (idx : Int) (acc : List GoString) (hw : ∀ c ∈ cols, 0 ≤ c.Length) (h0 : 0 ≤ idx)
    (hfit : idx + totalWidth ⟨cols⟩ ≤ (v.length : Int)) :
    ∃ r, loopOutcome v tl tt ie n cols idx acc = Exec.ok r := by
  induction cols generalizing idx acc with
  | nil => exact ⟨_, rfl⟩
  | cons c cs ih =>
    have hc := hw c (by simp)
    have hcs : ∀ c' ∈ cs, 0 ≤ c'.Length := fun c' h => hw c' (by simp [h])
    have htot := totalWidth_nonneg hcs
    rw [totalWidth_cons] at hfit
    unfold loopOutcome
    rw [sliceRunes_ok h0 (by omega) (by omega)]
    simp only []
    obtain ⟨r, hr⟩ := ih (idx + c.Length)
      (acc ++ [trimToken tl tt (fromRunes ((v.drop idx.toNat).take (idx + c.Length - idx).toNat))])
      hcs (by omega) (by omega)
    split
    · cases ie with
      | false => exact ⟨_, rfl⟩
      | true =>
        simp only [Bool.not_true, Bool.false_eq_true, if_false]
        rw [hr]
        exact ⟨_, rfl⟩
    · exact ⟨r, hr⟩

/-- With `ignoreEmptyCols` off, the column loop stops at the first column
whose token is empty: no tokens, the error of that column, one diagnostic. -/
theorem loopOutcome_first_empty (v : List Rune) (tl tt : Bool) (n : Int)
    (pre : List Column) (c : Column) (post : List Column) (idx : Int) (acc : List GoString)
    (hw : ∀ d ∈ pre, 0 ≤ d.Length) (hc : 0 ≤ c.Length) (h0 : 0 ≤ idx)
    (hfit : idx + totalWidth ⟨pre⟩ + c.Length ≤ (v.length : Int))
    (hpre : ∀ t ∈ spansFrom v tl tt pre idx, t.length ≠ 0)
    (hempty : (trimToken tl tt (fromRunes
      ((v.drop (idx + totalWidth ⟨pre⟩).toNat).take c.Length.toNat))).length = 0) :
    loopOutcome v tl tt false n (pre ++ c :: post) idx acc =
      Exec.ok ([], some { line := n, colName := c.Name, err := ErrNumCols },
        [{ line := n, colName := c.Name, err := ErrNumCols }]) := by
  induction pre generalizing idx acc with
  | nil =>
    have e : totalWidth ⟨[]⟩ = 0 := rfl
    rw [e] at hfit hempty
    rw [Int.add_zero] at hempty
    simp only [List.nil_append]
    unfold loopOutcome
    rw [sliceRunes_ok h0 (by omega) (by omega),
      show idx + c.Length - idx = c.Length by omega]
    simp [hempty]
  | cons d ds ih =>
    have hd := hw d (by simp)
    have hds : ∀ d' ∈ ds, 0 ≤ d'.Length := fun d' h => hw d' (by simp [h])
    have htot := totalWidth_nonneg hds
    rw [totalWidth_cons] at hfit hempty
    have hhead := hpre (trimToken tl tt (fromRunes ((v.drop idx.toNat).take d.Length.toNat)))
      (by simp [spansFrom])
    have htail : ∀ t ∈ spansFrom v tl tt ds (idx + d.Length), t.length ≠ 0 :=
      fun t ht => hpre t (by simp [spansFrom, ht])
    simp only [List.cons_append]
    unfold loopOutcome
    rw [sliceRunes_ok h0 (by omega) (by omega),
      show idx + d.Length - idx = d.Length by omega]
    simp only [hhead, if_false]
    exact ih (idx + d.Length) _ hds (by omega) (by omega) htail
      (by rw [show idx + d.Length + totalWidth ⟨ds⟩ = idx + (d.Length + totalWidth ⟨ds⟩) by omega]
          exact hempty)

/-- Untolerated empty column, on a line whose bytes are the line size and
whose columns up to the first empty one lie inside its characters: with
`ignoreEmptyCols` off, `parseLine` returns no tokens and the error that names
the first column with an empty token and carries the new line number, sets
`done`, and appends that one diagnostic.  (A line repaired by a length
tolerance is parsed as the repaired line is, see `short_line_repair_bytes`
and `extra_size_repair_single_byte`.) -/
theorem untolerated_empty_column (line : GoString) (record : Record) (p : Parser)
    (pre : List Column) (c : Column) (post : List Column)
    (hn : 0 ≤ p.numCols) (hie : p.ignoreEmptyCols = false)
    (hlen : (line.length : Int) = p.lineSize)
    (hcols : record.Columns = pre ++ c :: post)
    (hw : ∀ d ∈ pre, 0 ≤ d.Length) (hc : 0 ≤ c.Length)
    (hfit : totalWidth ⟨pre⟩ + c.Length ≤ ((toRunes line).length : Int))
    (hpre : ∀ t ∈ spansFrom (toRunes line) p.trimLeadingSpace p.trimTrailingSpace pre 0,
      t.length ≠ 0)
    (hempty : (trimToken p.trimLeadingSpace p.trimTrailingSpace
      (spanOf line (totalWidth ⟨pre⟩) (totalWidth ⟨pre⟩ + c.Length))).length = 0) :
    parseLine rt line record p =
      Exec.ok ([], some { line := p.numLines + 1, colName := c.Name, err := ErrNumCols },
        p.after (p.numLines + 1)
          [{ line := p.numLines + 1, colName := c.Name, err := ErrNumCols }] true) := by
  have hempty2 : (trimToken p.trimLeadingSpace p.trimTrailingSpace (fromRunes
      (((toRunes line).drop (0 + totalWidth ⟨pre⟩).toNat).take c.Length.toNat))).length = 0 := by
    unfold spanOf at hempty
    rw [show totalWidth ⟨pre⟩ + c.Length - totalWidth ⟨pre⟩ = c.Length by omega] at hempty
    rw [Int.zero_add]
    exact hempty
  have htot := totalWidth_nonneg hw
  rw [parseLine_eq, lineOutcome_exact _ _ _ (by omega) hlen, hie, hcols,
    show runeSlice rt line = toRunes line ++ _ from rfl,
    loopOutcome_first_empty _ _ _ _ pre c post 0 [] hw hc (le_refl 0)
      (by rw [List.length_append]; omega)
      (by rw [spansFrom_append _ _ _ _ _ _ hw (le_refl 0) (by omega)]; exact hpre)
      (by rw [slice_append _ _ _ _ (by omega)]; exact hempty2)]
  rfl

/-- Slicing in bounds on single-byte text: with no negative column width
and the line size of `NewParser`, `parseLine` on a line of one-byte
characters never fails with an out-of-range slice, whatever the toggles. -/
theorem parseLine_in_bounds_single_byte (line : GoString) (record : Record) (p : Parser)
    (hn : 0 ≤ p.numCols) (hsize : p.lineSize = totalWidth record)
    (hw : ∀ c ∈ record.Columns, 0 ≤ c.Length) (hascii : SingleByte line) :
    ∃ r, parseLine rt line record p = Exec.ok r := by
  have e : totalWidth ⟨record.Columns⟩ = totalWidth record := rfl
  have hnonneg : 0 ≤ p.lineSize := by
    rw [hsize]; exact totalWidth_nonneg hw
  have hvlen : (toRunes line).length = line.length := RuneCountInString_singleByte line hascii
  have hnn : ¬ p.numCols < 0 := by omega
  have hcap0 := runeSlice_length_ge rt line
  rw [parseLine_eq]
  rcases lt_trichotomy (line.length : Int) p.lineSize with hlt | heq | hgt
  · cases hon : p.handleShortLines with
    | false =>
      unfold lineOutcome
      rw [if_neg hnn, if_neg (by omega), if_pos hlt]
      simp only [hon, Bool.false_eq_true, if_false]
      exact ⟨_, rfl⟩
    | true =>
      have hpad : SingleByte (line ++ Repeat [0x20] (p.lineSize - (line.length : Int)).toNat) := by
        intro b hb
        rw [List.mem_append] at hb
        cases hb with
        | inl h => exact hascii b h
        | inr h =>
          have : b = 0x20 := by
            simp only [Repeat, List.mem_flatten, List.mem_replicate] at h
            obtain ⟨l, ⟨_, hl⟩, hbl⟩ := h
            rw [hl] at hbl
            simpa using hbl
          omega
      have hplen : ((toRunes (line ++ Repeat [0x20] (p.lineSize - (line.length : Int)).toNat)).length
          : Int) = p.lineSize := by
        have := RuneCountInString_singleByte _ hpad
        unfold RuneCountInString at this
        rw [this, List.length_append, Repeat_length_single]
        omega
      rw [lineOutcome_short_on _ _ _ hnn hlt hon]
      have hcap := runeSlice_length_ge rt
        (line ++ Repeat [0x20] (p.lineSize - (line.length : Int)).toNat)
      obtain ⟨r, hr⟩ := loopOutcome_in_bounds
        (runeSlice rt (line ++ Repeat [0x20] (p.lineSize - (line.length : Int)).toNat))
        p.trimLeadingSpace p.trimTrailingSpace p.ignoreEmptyCols (p.numLines + 1)
        record.Columns 0 [] hw (le_refl 0) (by rw [e]; omega)
      rw [hr]
      exact ⟨_, rfl⟩
  · rw [lineOutcome_exact _ _ _ hnn heq]
    obtain ⟨r, hr⟩ := loopOutcome_in_bounds (runeSlice rt line)
      p.trimLeadingSpace p.trimTrailingSpace p.ignoreEmptyCols (p.numLines + 1)
      record.Columns 0 [] hw (le_refl 0) (by rw [e]; omega)
    rw [hr]
    exact ⟨_, rfl⟩
  · cases hon : p.ignoreExtraSize with
    | false =>
      unfold lineOutcome
      rw [if_neg hnn, if_pos (by omega)]
      simp only [hon, Bool.false_eq_true, if_false]
      exact ⟨_, rfl⟩
    | true =>
      rw [lineOutcome_long_on _ _ _ hnn hgt hon hnonneg (by rw [hvlen]; omega)]
      obtain ⟨r, hr⟩ := loopOutcome_in_bounds (runeSlice rt line)
        p.trimLeadingSpace p.trimTrailingSpace p.ignoreEmptyCols (p.numLines + 1)
        record.Columns 0 [] hw (le_refl 0) (by rw [e]; omega)
      rw [hr]
      exact ⟨_, rfl⟩

/-- The length check is in bytes: whenever `parseLine` returns, the
diagnostics it appends are empty-column diagnostics only when the line has
exactly `lineSize` bytes, start with a too-long diagnostic when it has more
bytes, and with a too-short diagnostic when it has fewer. -/
theorem length_check_in_bytes (line : GoString) (record : Record) (p q : Parser)
    (toks : List GoString) (e : Option ParsingError)
    (h : parseLine rt line record p = Exec.ok (toks, e, q)) :
    ∃ ds, q.Errors = p.Errors ++ ds ∧
      ((line.length : Int) = p.lineSize → ∀ d ∈ ds, d.err = ErrNumCols) ∧
      (p.lineSize < (line.length : Int) →
        ∃ ds1, ds = { line := p.numLines + 1, err := ErrLineTooLong } :: ds1 ∧
          ∀ d ∈ ds1, d.err = ErrNumCols) ∧
      ((line.length : Int) < p.lineSize →
        ∃ ds1, ds = { line := p.numLines + 1, err := ErrLineTooShort } :: ds1 ∧
          ∀ d ∈ ds1, d.err = ErrNumCols) := by
  rw [parseLine_eq] at h
  obtain ⟨r, hr, hreq⟩ := Exec.map_eq_ok h
  obtain ⟨r1, r2, r3⟩ := r
  simp only [Prod.mk.injEq] at hreq
  obtain ⟨_, _, hq⟩ := hreq
  refine ⟨r3, by rw [← hq]; rfl, ?_, ?_, ?_⟩
  · intro hlen
    by_cases hn : p.numCols < 0
    · rw [lineOutcome_faults _ _ _ hn] at hr
      cases hr
    · rw [lineOutcome_exact _ _ _ hn hlen] at hr
      exact fun d hd => (loopOutcome_diags hr d hd).2
  · intro hlong
    unfold lineOutcome at hr
    by_cases hn : p.numCols < 0
    · simp [hn] at hr
    · rw [if_neg hn, if_pos (by omega)] at hr
      cases hon : p.ignoreExtraSize with
      | false =>
        simp only [hon, Bool.false_eq_true, if_false, Exec.ok.injEq, Prod.mk.injEq] at hr
        exact ⟨[], hr.2.2.symm, by simp⟩
      | true =>
        simp only [hon, if_true] at hr
        cases hs : sliceRunes (runeSlice rt line) 0 p.lineSize with
        | ok w =>
          simp only [hs] at hr
          obtain ⟨r', hr', hreq'⟩ := Exec.map_eq_ok hr
          obtain ⟨s1, s2, s3⟩ := r'
          simp only [Prod.mk.injEq] at hreq'
          exact ⟨s3, hreq'.2.2.symm, fun d hd => (loopOutcome_diags hr' d hd).2⟩
        | fault => simp [hs] at hr
        | outOfFuel => simp [hs] at hr
  · intro hshort
    unfold lineOutcome at hr
    by_cases hn : p.numCols < 0
    · simp [hn] at hr
    · rw [if_neg hn, if_neg (by omega), if_pos hshort] at hr
      cases hon : p.handleShortLines with
      | false =>
        simp only [hon, Bool.false_eq_true, if_false, Exec.ok.injEq, Prod.mk.injEq] at hr
        exact ⟨[], hr.2.2.symm, by simp⟩
      | true =>
        simp only [hon, if_true] at hr
        obtain ⟨r', hr', hreq'⟩ := Exec.map_eq_ok hr
        obtain ⟨s1, s2, s3⟩ := r'
        simp only [Prod.mk.injEq] at hreq'
        exact ⟨s3, hreq'.2.2.symm, fun d hd => (loopOutcome_diags hr' d hd).2⟩

/-- The line `city6    5   T` of the tests, with both trims on and
`ignoreEmptyCols` off: the column `Street` is the first empty one. -/
theorem untolerated_empty_column_on_test_line :
    parseLine rt (lit "city6    5   T") addressSchema
        (addressParser [] false false false true true) =
      Exec.ok ([], some { line := 1, colName := lit "Street", err := ErrNumCols },
        (addressParser [] false false false true true).after 1
          [{ line := 1, colName := lit "Street", err := ErrNumCols }] true) :=
  untolerated_empty_column (lit "city6    5   T") addressSchema
    (addressParser [] false false false true true)
    [⟨lit "City", 5⟩] ⟨lit "Street", 4⟩ [⟨lit "Number", 4⟩, ⟨lit "Main", 1⟩]
    (by decide) (by decide) (by decide) (by decide) (by decide) (by decide) (by decide)
    (by decide) (by decide)

/-! ## Columns that name no field -/

/-- A column that names no field is written as a column of the same width
that names the first field is, whatever the outcome. -/
theorem writeColumns_unnamed_as_first (lib : Stdlib) (s : Struct) (pad : Rune)
    (hnames : (s.map Field.Name).Nodup) (col : Column) (cols : List Column) (f0 : Field)
    (hmiss : ∀ g ∈ s, g.Name ≠ col.Name) (hfirst : s[0]? = some f0) (buffer : BufWriter) :
    writeColumns lib s pad (col :: cols) buffer =
      writeColumns lib s pad ({ col with Name := f0.Name } :: cols) buffer := by
  have hidx : fieldToIdx s f0.Name = some 0 := fieldToIdx_of_nodup hnames hfirst
  rw [writeColumns, writeColumns]
  simp only [fieldToIdx_none hmiss, Option.getD_none, hidx, Option.getD_some, hfirst]
  rfl

/-- Decoding the encoding of a character gives the character and the number of
its bytes. -/
theorem DecodeRuneInString_encodeRune (r : Int) (hv : ValidRune r) (rest : GoString) :
    DecodeRuneInString (encodeRune r ++ rest) = (r, (encodeRune r).length) := by
  unfold ValidRune at hv
  obtain ⟨h0, h1, h2⟩ := hv
  obtain ⟨n, rfl⟩ : ∃ n : Nat, r = (n : Int) := ⟨r.toNat, by omega⟩
  have hn1 : n ≤ 0x10FFFF := by omega
  have hn2 : ¬ (0xD800 ≤ n ∧ n ≤ 0xDFFF) := by omega
  unfold encodeRune
  have hc : ¬ ((n : Int) < 0 ∨ 0x10FFFF < (n : Int) ∨ (0xD800 ≤ (n : Int) ∧ (n : Int) ≤ 0xDFFF)) := by
    omega
  rw [if_neg hc]
  simp only [Int.toNat_ofNat]
  by_cases c1 : n < 0x80
  · simp [c1, DecodeRuneInString]
  · by_cases c2 : n < 0x800
    · simp only [c1, c2, if_true, if_false, List.cons_append, List.nil_append,
        DecodeRuneInString, isCont, List.length_cons, List.length_nil]
      rw [if_neg (by omega)]
      have e1 : (decide (0xC2 ≤ 0xC0 + n / 0x40) && decide (0xC0 + n / 0x40 < 0xE0)) = true := by
        simp only [Bool.and_eq_true, decide_eq_true_eq]; omega
      have e2 : (decide (0x80 ≤ 0x80 + n % 0x40) && decide (0x80 + n % 0x40 < 0xC0)) = true := by
        simp only [Bool.and_eq_true, decide_eq_true_eq]; omega
      rw [if_pos e1, if_pos e2]
      simp only [Prod.mk.injEq, and_true]
      congr 1
      omega
    · by_cases c3 : n < 0x10000
      · simp only [c1, c2, c3, if_true, if_false, List.cons_append, List.nil_append,
          DecodeRuneInString, isCont, List.length_cons, List.length_nil]
        rw [if_neg (by omega)]
        have e0 : ¬ ((decide (0xC2 ≤ 0xE0 + n / 0x1000) && decide (0xE0 + n / 0x1000 < 0xE0)) = true) := by
          simp only [Bool.and_eq_true, decide_eq_true_eq]; omega
        have e1 : (decide (0xE0 ≤ 0xE0 + n / 0x1000) && decide (0xE0 + n / 0x1000 < 0xF0)) = true := by
          simp only [Bool.and_eq_true, decide_eq_true_eq]; omega
        rw [if_neg e0, if_pos e1]
        have e2 : (decide ((if 0xE0 + n / 0x1000 = 0xE0 then 0xA0 else 0x80) ≤ 0x80 + n / 0x40 % 0x40) &&
            decide (0x80 + n / 0x40 % 0x40 ≤ (if 0xE0 + n / 0x1000 = 0xED then 0x9F else 0xBF)) &&
            (decide (0x80 ≤ 0x80 + n % 0x40) && decide (0x80 + n % 0x40 < 0xC0))) = true := by
          simp only [Bool.and_eq_true, decide_eq_true_eq]
          refine ⟨⟨?_, ?_⟩, ?_, ?_⟩
          · split <;> omega
          · split <;> omega
          · omega
          · omega
        rw [if_pos e2]
        simp only [Prod.mk.injEq, and_true]
        congr 1
        omega
      · simp only [c1, c2, c3, if_true, if_false, List.cons_append, List.nil_append,
          DecodeRuneInString, isCont, List.length_cons, List.length_nil]
        rw [if_neg (by omega)]
        have e0 : ¬ ((decide (0xC2 ≤ 0xF0 + n / 0x40000) && decide (0xF0 + n / 0x40000 < 0xE0)) = true) := by
          simp only [Bool.and_eq_true, decide_eq_true_eq]; omega
        have e00 : ¬ ((decide (0xE0 ≤ 0xF0 + n / 0x40000) && decide (0xF0 + n / 0x40000 < 0xF0)) = true) := by
          simp only [Bool.and_eq_true, decide_eq_true_eq]; omega
        have e1 : (decide (0xF0 ≤ 0xF0 + n / 0x40000) && decide (0xF0 + n / 0x40000 < 0xF5)) = true := by
          simp only [Bool.and_eq_true, decide_eq_true_eq]; omega
        rw [if_neg e0, if_neg e00, if_pos e1]
        have e2 : (decide ((if 0xF0 + n / 0x40000 = 0xF0 then 0x90 else 0x80) ≤ 0x80 + n / 0x1000 % 0x40) &&
            decide (0x80 + n / 0x1000 % 0x40 ≤ (if 0xF0 + n / 0x40000 = 0xF4 then 0x8F else 0xBF)) &&
            (decide (0x80 ≤ 0x80 + n / 0x40 % 0x40) && decide (0x80 + n / 0x40 % 0x40 < 0xC0)) &&
            (decide (0x80 ≤ 0x80 + n % 0x40) && decide (0x80 + n % 0x40 < 0xC0))) = true := by
          simp only [Bool.and_eq_true, decide_eq_true_eq]
          refine ⟨⟨⟨?_, ?_⟩, ?_, ?_⟩, ?_, ?_⟩
          · split <;> omega
          · split <;> omega
          · omega
          · omega
          · omega
          · omega
        rw [if_pos e2]
        simp only [Prod.mk.injEq, and_true]
        congr 1
        omega

theorem encodeRune_shape (r : Int) (hv : ValidRune r) :
    (∃ a, encodeRune r = [a] ∧ a < 0x80) ∨
    (∃ a b, encodeRune r = [a, b] ∧ 0x80 ≤ a ∧ RuneStart a = true ∧ isCont b = true) ∨
    (∃ a b c, encodeRune r = [a, b, c] ∧ 0x80 ≤ a ∧ RuneStart a = true ∧ isCont b = true ∧
      isCont c = true) ∨
    (∃ a b c d, encodeRune r = [a, b, c, d] ∧ 0x80 ≤ a ∧ RuneStart a = true ∧
      isCont b = true ∧ isCont c = true ∧ isCont d = true) := by
  unfold ValidRune at hv
  obtain ⟨h0, h1, h2⟩ := hv
  obtain ⟨n, rfl⟩ : ∃ n : Nat, r = (n : Int) := ⟨r.toNat, by omega⟩
  unfold encodeRune
  have hc : ¬ ((n : Int) < 0 ∨ 0x10FFFF < (n : Int) ∨ (0xD800 ≤ (n : Int) ∧ (n : Int) ≤ 0xDFFF)) := by
    omega
  rw [if_neg hc]
  simp only [Int.toNat_ofNat]
  by_cases c1 : n < 0x80
  · left
    exact ⟨n, by simp [c1], c1⟩
  · right
    by_cases c2 : n < 0x800
    · left
      refine ⟨_, _, by simp only [c1, c2, if_true, if_false]; rfl, ?_, ?_, ?_⟩
      · omega
      · simp only [RuneStart, isCont, Bool.not_eq_true', Bool.and_eq_false_iff, decide_eq_false_iff_not]
        omega
      · simp only [isCont, Bool.and_eq_true, decide_eq_true_eq]
        omega
    · right
      by_cases c3 : n < 0x10000
      · left
        refine ⟨_, _, _, by simp only [c1, c2, c3, if_true, if_false]; rfl, ?_, ?_, ?_, ?_⟩
        · omega
        · simp only [RuneStart, isCont, Bool.not_eq_true', Bool.and_eq_false_iff, decide_eq_false_iff_not]
          omega
        · simp only [isCont, Bool.and_eq_true, decide_eq_true_eq]
          omega
        · simp only [isCont, Bool.and_eq_true, decide_eq_true_eq]
          omega
      · right
        refine ⟨_, _, _, _, by simp only [c1, c2, c3, if_true, if_false]; rfl, ?_, ?_, ?_, ?_, ?_⟩
        · omega
        · simp only [RuneStart, isCont, Bool.not_eq_true', Bool.and_eq_false_iff, decide_eq_false_iff_not]
          omega
        · simp only [isCont, Bool.and_eq_true, decide_eq_true_eq]
          omega
        · simp only [isCont, Bool.and_eq_true, decide_eq_true_eq]
          omega
        · simp only [isCont, Bool.and_eq_true, decide_eq_true_eq]
          omega

theorem encodeRune_ne_nil (r : Int) (hv : ValidRune r) : encodeRune r ≠ [] := by
  rcases encodeRune_shape r hv with ⟨a, h, _⟩ | ⟨a, b, h, _⟩ | ⟨a, b, c, h, _⟩ | ⟨a, b, c, d, h, _⟩ <;>
    simp [h]

theorem toRunesFrom_skip (pre rest : GoString) :
    toRunesFrom pre.length (pre ++ rest) = toRunesFrom 0 rest := by
  induction pre with
  | nil => rfl
  | cons b bs ih => simpa [toRunesFrom] using ih

theorem toRunes_encodeRune_append (r : Int) (hv : ValidRune r) (rest : GoString) :
    toRunes (encodeRune r ++ rest) = r :: toRunes rest := by
  have hd := DecodeRuneInString_encodeRune r hv rest
  unfold toRunes
  cases he : encodeRune r with
  | nil => exact absurd he (encodeRune_ne_nil r hv)
  | cons b tl =>
    rw [he] at hd
    simp only [List.cons_append] at hd ⊢
    rw [toRunesFrom, hd]
    simp only [List.length_cons, Nat.add_sub_cancel]
    rw [toRunesFrom_skip]

theorem fromRunes_cons (r : Rune) (rs : List Rune) :
    fromRunes (r :: rs) = encodeRune r ++ fromRunes rs := by
  simp [fromRunes]

theorem fromRunes_append (xs ys : List Rune) :
    fromRunes (xs ++ ys) = fromRunes xs ++ fromRunes ys := by
  simp [fromRunes]

/-- Decoding the UTF-8 encoding of a sequence of characters gives the
sequence back. -/
theorem toRunes_fromRunes (chars : List Rune) (hv : ∀ r ∈ chars, ValidRune r) :
    toRunes (fromRunes chars) = chars := by
  induction chars with
  | nil => rfl
  | cons r rs ih =>
    rw [fromRunes_cons, toRunes_encodeRune_append r (hv r (by simp)),
      ih (fun x hx => hv x (by simp [hx]))]

theorem trimLeftFrom_skip (f : Rune → Bool) (pre rest : GoString) :
    trimLeftFrom f pre.length (pre ++ rest) = trimLeftFrom f 0 rest := by
  induction pre with
  | nil => rfl
  | cons b bs ih => simpa [trimLeftFrom] using ih

/-- On the encoding of a sequence of characters, `TrimLeftFunc` drops the
longest prefix of characters that satisfy `f`. -/
theorem TrimLeftFunc_fromRunes (f : Rune → Bool) (chars : List Rune)
    (hv : ∀ r ∈ chars, ValidRune r) :
    TrimLeftFunc (fromRunes chars) f = fromRunes (chars.dropWhile f) := by
  unfold TrimLeftFunc
  induction chars with
  | nil => rfl
  | cons r rs ih =>
    have hr := hv r (by simp)
    have hd := DecodeRuneInString_encodeRune r hr (fromRunes rs)
    rw [fromRunes_cons]
    cases he : encodeRune r with
    | nil => exact absurd he (encodeRune_ne_nil r hr)
    | cons b tl =>
      rw [he] at hd
      simp only [List.cons_append] at hd ⊢
      rw [trimLeftFrom, hd]
      simp only [List.length_cons, Nat.add_sub_cancel]
      by_cases hf : f r = true
      · rw [if_pos hf, trimLeftFrom_skip, ih (fun x hx => hv x (by simp [hx])),
          List.dropWhile_cons_of_pos hf]
      · rw [if_neg hf, List.dropWhile_cons_of_neg hf, fromRunes_cons, he]
        rfl

theorem getD_append_add (pre s : GoString) (j : Nat) :
    (pre ++ s).getD (pre.length + j) 0 = s.getD j 0 := by
  induction pre with
  | nil => simp
  | cons b bs ih =>
    rw [List.cons_append, List.length_cons, show bs.length + 1 + j = (bs.length + j) + 1 by omega,
      List.getD_cons_succ]
    exact ih

theorem DecodeLastRuneInString_encodeRune (pre : GoString) (r : Int) (hv : ValidRune r) :
    DecodeLastRuneInString (pre ++ encodeRune r) = (r, (encodeRune r).length) := by
  have hd := DecodeRuneInString_encodeRune r hv []
  rw [List.append_nil] at hd
  rcases encodeRune_shape r hv with ⟨a, he, ha⟩ | ⟨a, b, he, ha, hs, hb⟩ |
      ⟨a, b, c, he, ha, hs, hb, hc⟩ | ⟨a, b, c, d, he, ha, hs, hb, hc, hdd⟩
  · rw [he] at hd ⊢
    have hr : (a : Int) = r := by
      simp only [DecodeRuneInString, ha, if_true, Prod.mk.injEq] at hd
      exact hd.1
    unfold DecodeLastRuneInString
    simp only [List.length_append, List.length_cons, List.length_nil]
    rw [if_neg (by omega), show pre.length + (0 + 1) - 1 = pre.length + 0 by omega,
      getD_append_add]
    simp only [List.getD_cons_zero]
    rw [if_pos ha, hr]
  · rw [he] at hd ⊢
    have hb' : ¬ b < 0x80 := by
      simp only [isCont, Bool.and_eq_true, decide_eq_true_eq] at hb
      omega
    unfold DecodeLastRuneInString
    simp only [List.length_append, List.length_cons, List.length_nil]
    have e1 : pre.length + (0 + 1 + 1) - 1 = pre.length + 1 := by omega
    have e2 : pre.length + (0 + 1 + 1) - 2 = pre.length + 0 := by omega
    simp only [e1, e2, getD_append_add, List.getD_cons_succ, List.getD_cons_zero]
    have c2 : 2 ≤ pre.length + (0 + 1 + 1) ∧ RuneStart a = true := ⟨by omega, hs⟩
    rw [if_neg (by omega), if_neg hb']
    simp only [if_pos c2, Nat.add_zero, List.drop_left, hd]
    rw [if_neg (by simp)]
    rfl
  · rw [he] at hd ⊢
    have hc' : ¬ c < 0x80 := by
      simp only [isCont, Bool.and_eq_true, decide_eq_true_eq] at hc
      omega
    have hsb : ¬ (RuneStart b = true) := by simp [RuneStart, hb]
    unfold DecodeLastRuneInString
    simp only [List.length_append, List.length_cons, List.length_nil]
    have e1 : pre.length + (0 + 1 + 1 + 1) - 1 = pre.length + 2 := by omega
    have e2 : pre.length + (0 + 1 + 1 + 1) - 2 = pre.length + 1 := by omega
    have e3 : pre.length + (0 + 1 + 1 + 1) - 3 = pre.length + 0 := by omega
    simp only [e1, e2, e3, getD_append_add, List.getD_cons_succ, List.getD_cons_zero]
    have c2 : ¬ (2 ≤ pre.length + (0 + 1 + 1 + 1) ∧ RuneStart b = true) := fun h => hsb h.2
    have c3 : 3 ≤ pre.length + (0 + 1 + 1 + 1) ∧ RuneStart a = true := ⟨by omega, hs⟩
    rw [if_neg (by omega), if_neg hc']
    simp only [if_neg c2, if_pos c3, Nat.add_zero, List.drop_left, hd]
    rw [if_neg (by simp)]
    rfl
  · rw [he] at hd ⊢
    have hd' : ¬ d < 0x80 := by
      simp only [isCont, Bool.and_eq_true, decide_eq_true_eq] at hdd
      omega
    have hsb : ¬ (RuneStart b = true) := by simp [RuneStart, hb]
    have hsc : ¬ (RuneStart c = true) := by simp [RuneStart, hc]
    unfold DecodeLastRuneInString
    simp only [List.length_append, List.length_cons, List.length_nil]
    have e1 : pre.length + (0 + 1 + 1 + 1 + 1) - 1 = pre.length + 3 := by omega
    have e2 : pre.length + (0 + 1 + 1 + 1 + 1) - 2 = pre.length + 2 := by omega
    have e3 : pre.length + (0 + 1 + 1 + 1 + 1) - 3 = pre.length + 1 := by omega
    have e4 : pre.length + (0 + 1 + 1 + 1 + 1) - 4 = pre.length + 0 := by omega
    simp only [e1, e2, e3, e4, getD_append_add, List.getD_cons_succ, List.getD_cons_zero]
    have c2 : ¬ (2 ≤ pre.length + (0 + 1 + 1 + 1 + 1) ∧ RuneStart c = true) := fun h => hsc h.2
    have c3 : ¬ (3 ≤ pre.length + (0 + 1 + 1 + 1 + 1) ∧ RuneStart b = true) := fun h => hsb h.2
    have c4 : 4 ≤ pre.length + (0 + 1 + 1 + 1 + 1) ∧ RuneStart a = true := ⟨by omega, hs⟩
    rw [if_neg (by omega), if_neg hd']
    simp only [if_neg c2, if_neg c3, if_pos c4, Nat.add_zero, List.drop_left, hd]
    rw [if_neg (by simp)]
    rfl

theorem fromRunes_singleton (r : Rune) : fromRunes [r] = encodeRune r := by
  simp [fromRunes]

theorem lastIndexFrom_fromRunes (f : Rune → Bool) (pre : List Rune)
    (hv : ∀ r ∈ pre, ValidRune r) (tail : GoString) (n : Nat)
    (hn : (fromRunes pre).length ≤ n) :
    (pre.rdropWhile f = [] ∧
      lastIndexFrom (fromRunes pre ++ tail) f false n (fromRunes pre).length = none) ∨
    (∃ q r, pre.rdropWhile f = q ++ [r] ∧
      lastIndexFrom (fromRunes pre ++ tail) f false n (fromRunes pre).length
        = some (fromRunes q).length) := by
  induction pre using List.reverseRecOn generalizing tail n with
  | nil =>
    left
    refine ⟨rfl, ?_⟩
    cases n with
    | zero => rfl
    | succ m => simp [lastIndexFrom, fromRunes]
  | append_singleton xs r ih =>
    have hr : ValidRune r := hv r (by simp)
    have hxs : ∀ x ∈ xs, ValidRune x := fun x hx => hv x (by simp [hx])
    have hk : 1 ≤ (encodeRune r).length := by
      have := encodeRune_ne_nil r hr
      cases he : encodeRune r with
      | nil => exact absurd he this
      | cons b tl => simp
    rw [fromRunes_append, fromRunes_singleton] at hn ⊢
    rw [List.length_append] at hn ⊢
    cases n with
    | zero => omega
    | succ m =>
      unfold lastIndexFrom
      rw [if_neg (by omega)]
      have htake : ((fromRunes xs ++ encodeRune r) ++ tail).take
          ((fromRunes xs).length + (encodeRune r).length) = fromRunes xs ++ encodeRune r := by
        rw [← List.length_append]
        exact List.take_left' rfl
      simp only [htake, DecodeLastRuneInString_encodeRune _ r hr, Nat.add_sub_cancel]
      by_cases hf : f r = false
      · right
        refine ⟨xs, r, ?_, ?_⟩
        · exact List.rdropWhile_concat_neg f xs r (by simp [hf])
        · rw [if_pos hf]
      · rw [if_neg hf]
        have hpos : f r = true := by simpa using hf
        rw [List.rdropWhile_concat_pos f xs r hpos, List.append_assoc]
        exact ih hxs (encodeRune r ++ tail) m (by omega)

/-- On the encoding of a sequence of characters, `TrimRightFunc` drops the
longest suffix of characters that satisfy `f`. -/
theorem TrimRightFunc_fromRunes (f : Rune → Bool) (chars : List Rune)
    (hv : ∀ r ∈ chars, ValidRune r) :
    TrimRightFunc (fromRunes chars) f = fromRunes (chars.rdropWhile f) := by
  have h := lastIndexFrom_fromRunes f chars hv [] (fromRunes chars).length (Nat.le_refl _)
  rw [List.append_nil] at h
  unfold TrimRightFunc
  rcases h with ⟨h1, h2⟩ | ⟨q, r, h1, h2⟩
  · rw [h2, h1]
    rfl
  · rw [h2, h1]
    obtain ⟨t, ht⟩ := List.rdropWhile_prefix f (l := chars)
    rw [h1] at ht
    have hr : ValidRune r := hv r (by rw [← ht]; simp)
    have hs : fromRunes chars = fromRunes q ++ (encodeRune r ++ fromRunes t) := by
      rw [← ht, fromRunes_append, fromRunes_append, fromRunes_singleton, List.append_assoc]
    have hd := DecodeRuneInString_encodeRune r hr (fromRunes t)
    simp only [hs, List.drop_left]
    rw [show (fromRunes q).length = (fromRunes q).length + 0 by omega, getD_append_add,
      Nat.add_zero, hd, fromRunes_append, fromRunes_singleton]
    have htk : (fromRunes q ++ (encodeRune r ++ fromRunes t)).take
        ((fromRunes q).length + (encodeRune r).length) = fromRunes q ++ encodeRune r := by
      rw [← List.append_assoc, ← List.length_append]
      exact List.take_left' rfl
    rcases encodeRune_shape r hr with ⟨a, he, ha⟩ | ⟨a, b, he, ha, _⟩ |
        ⟨a, b, c, he, ha, _⟩ | ⟨a, b, c, d, he, ha, _⟩
    · rw [he] at htk ⊢
      simp only [List.cons_append, List.getD_cons_zero] at htk ⊢
      rw [if_neg (by omega)]
      exact htk
    · rw [he] at htk ⊢
      simp only [List.cons_append, List.getD_cons_zero] at htk ⊢
      rw [if_pos ha]
      exact htk
    · rw [he] at htk ⊢
      simp only [List.cons_append, List.getD_cons_zero] at htk ⊢
      rw [if_pos ha]
      exact htk
    · rw [he] at htk ⊢
      simp only [List.cons_append, List.getD_cons_zero] at htk ⊢
      rw [if_pos ha]
      exact htk

/-- A column loop that visits every column sliced a span for each: no column
has a negative width. -/
theorem loopOutcome_widths {v : List Rune} {tl tt ie : Bool} {n : Int} {cols : List Column}
    {idx : Int} {acc toks : List GoString} {ds : List ParsingError}
    (h : loopOutcome v tl tt ie n cols idx acc = Exec.ok (toks, none, ds)) :
    ∀ c ∈ cols, 0 ≤ c.Length := by
  induction cols generalizing idx acc ds with
  | nil => simp
  | cons c cs ih =>
    unfold loopOutcome at h
    cases hs : sliceRunes v idx (idx + c.Length) with
    | ok span =>
      have hc : 0 ≤ c.Length := by
        unfold sliceRunes at hs
        split at hs
        · omega
        · simp at hs
      simp only [hs] at h
      have hrest : ∀ c' ∈ cs, 0 ≤ c'.Length := by
        split at h
        · cases ie with
          | false => simp at h
          | true =>
            simp only [Bool.not_true, Bool.false_eq_true, if_false] at h
            obtain ⟨r, hr, hreq⟩ := Exec.map_eq_ok h
            obtain ⟨r1, r2, r3⟩ := r
            simp only [Prod.mk.injEq] at hreq
            obtain ⟨h1, h2, _⟩ := hreq
            subst h1 h2
            exact ih hr
        · exact ih h
      intro c' hc'
      rcases List.mem_cons.mp hc' with rfl | hm
      · exact hc
      · exact hrest c' hm
    | fault => simp [hs] at h
    | outOfFuel => simp [hs] at h

/-- A line decoded without error and without padding has no column of
negative width. -/
theorem lineOutcome_widths {line : GoString} {record : Record} {p : Parser}
    {toks : List GoString} {ds : List ParsingError}
    (hlen : ¬ (line.length : Int) < p.lineSize)
    (h : lineOutcome rt line record p = Exec.ok (toks, none, ds)) :
    ∀ c ∈ record.Columns, 0 ≤ c.Length := by
  unfold lineOutcome at h
  split at h
  · simp at h
  · split at h
    · split at h
      · cases hs : sliceRunes (runeSlice rt line) 0 p.lineSize with
        | ok pre =>
          simp only [hs] at h
          obtain ⟨r, hr, hreq⟩ := Exec.map_eq_ok h
          obtain ⟨r1, r2, r3⟩ := r
          simp only [Prod.mk.injEq] at hreq
          obtain ⟨h1, h2, _⟩ := hreq
          subst h1 h2
          exact loopOutcome_widths hr
        | fault => simp [hs] at h
        | outOfFuel => simp [hs] at h
      · simp at h
    · exact loopOutcome_widths h

/-- Trimming the encoding of a sequence of characters is trimming the
sequence. -/
theorem trimToken_fromRunes (tl tt : Bool) (chars : List Rune)
    (hv : ∀ r ∈ chars, ValidRune r) :
    trimToken tl tt (fromRunes chars) = fromRunes (trimSpan tl tt chars) := by
  have hdw : ∀ r ∈ chars.dropWhile IsSpace, ValidRune r := fun r hr =>
    hv r ((List.dropWhile_suffix IsSpace).subset hr)
  unfold trimToken trimSpan
  cases tl <;> cases tt
  · rfl
  · simp only [Bool.false_eq_true, if_false, if_true]
    exact TrimRightFunc_fromRunes IsSpace chars hv
  · simp only [Bool.false_eq_true, if_false, if_true]
    exact TrimLeftFunc_fromRunes IsSpace chars hv
  · simp only [if_true]
    rw [TrimLeftFunc_fromRunes IsSpace chars hv]
    exact TrimRightFunc_fromRunes IsSpace _ hdw

/-- A span of characters consists of characters. -/
theorem charSpan_valid (chars : List Rune) (hv : ∀ r ∈ chars, ValidRune r) (lo hi : Int) :
    ∀ r ∈ charSpan chars lo hi, ValidRune r := fun r hr =>
  hv r (List.mem_of_mem_drop (List.mem_of_mem_take hr))

/-! ## `All` over the lines that the scanner delivers -/

/-- The raw lines split at the first one that does not fit the buffer of the
scanner. -/
theorem pending_split (pending : List GoString) :
    ∃ raw rest, pending = raw ++ rest ∧ delivered pending = raw.map dropCR ∧
      (∀ l ∈ raw, l.length < MaxScanTokenSize) ∧
      (rest = [] ∨ ∃ l ls, rest = l :: ls ∧ MaxScanTokenSize ≤ l.length) := by
  refine ⟨pending.takeWhile fun l => decide (l.length < MaxScanTokenSize),
    pending.dropWhile fun l => decide (l.length < MaxScanTokenSize),
    (List.takeWhile_append_dropWhile _ _).symm, rfl, ?_, ?_⟩
  · intro l hl
    simpa using List.mem_takeWhile_imp hl
  · cases h : pending.dropWhile fun l => decide (l.length < MaxScanTokenSize) with
    | nil => exact Or.inl rfl
    | cons l ls =>
      refine Or.inr ⟨l, ls, rfl, ?_⟩
      have := List.head_dropWhile_not (fun l => decide (l.length < MaxScanTokenSize)) pending
        (by rw [h]; simp)
      simpa [h] using this

/-- `HasNext` at the end of the delivered lines: the input is at its end, or
the scanner gives up on the next raw line. -/
theorem HasNext_at_end (q : Parser) (hq : q.done = false)
    (h : q.scanner.pending = [] ∨
      ∃ l ls, q.scanner.pending = l :: ls ∧ MaxScanTokenSize ≤ l.length) :
    q.HasNext = (false, { q with scanner := { pending := q.scanner.pending, text := [] },
                                 done := true }) := by
  unfold Parser.HasNext
  rw [if_neg (by simp [hq])]
  rcases h with h | ⟨l, ls, h, hl⟩
  · simp [Scanner.Scan, h]
  · simp [Scanner.Scan, h, hl]

/-- A delivered line inside the delivered lines comes from a raw line that
fits the buffer, after raw lines that fit it. -/
theorem delivered_split {pending pre post : List GoString} {l : GoString}
    (h : delivered pending = pre ++ l :: post) :
    ∃ rpre rl rrest, pending = rpre ++ rl :: rrest ∧ rpre.map dropCR = pre ∧ dropCR rl = l ∧
      (∀ x ∈ rpre, x.length < MaxScanTokenSize) ∧ rl.length < MaxScanTokenSize := by
  obtain ⟨raw, rest, hpend, hdel, hfit, _⟩ := pending_split pending
  rw [hdel] at h
  obtain ⟨rpre, r2, hraw, h1, h2⟩ := List.map_eq_append_iff.mp h
  obtain ⟨rl, rpost, hr2, h3, _⟩ := List.map_eq_cons_iff.mp h2
  refine ⟨rpre, rl, rpost ++ rest, ?_, h1, h3, ?_, ?_⟩
  · rw [hpend, hraw, hr2]; simp
  · intro x hx
    exact hfit x (by rw [hraw]; simp [hx])
  · exact hfit rl (by rw [hraw, hr2]; simp)

/-- `All` is all-or-nothing over the lines that the scanner delivers.  For a
parser that is not done: if the delivered lines all decode without error,
`All` returns their token records, one per line in stream order, with a nil
error; if a line is rejected after a prefix of lines that decode without
error, `All` returns no records together with the error of that line, and
`Errors` is what it was right after that line was parsed (nothing of the
later lines).  In both cases the parser is done when `All` returns, and the
loop of `All` terminates.  These are the only ways for `All` to return:
otherwise a line made `parseLine` panic, and so does `All`. -/
theorem All_over_delivered_lines (rt : Runtime) (parser : Parser)
    (hd : parser.done = false) :
    parser.All rt ≠ Exec.outOfFuel ∧
    (∀ (recs : List (List GoString)) (q1 : Parser),
      Decoded rt parser (delivered parser.scanner.pending) recs q1 →
      ∃ q, parser.All rt = Exec.ok (recs, none, q) ∧
        recs.length = (delivered parser.scanner.pending).length ∧ q.done = true ∧
        q.Errors = q1.Errors) ∧
    (∀ (pre : List GoString) (l : GoString) (post : List GoString)
        (recs : List (List GoString)) (q1 : Parser) (toks : List GoString)
        (e : ParsingError) (q2 : Parser),
      delivered parser.scanner.pending = pre ++ l :: post →
      Decoded rt parser pre recs q1 →
      parseLine rt l q1.record q1 = Exec.ok (toks, some e, q2) →
      ∃ q, parser.All rt = Exec.ok ([], some e, q) ∧ q.done = true ∧ q.Errors = q2.Errors) ∧
    (∀ r : AllResult, parser.All rt = Exec.ok r → r.2.2.done = true) ∧
    ((∃ recs q1, Decoded rt parser (delivered parser.scanner.pending) recs q1) ∨
     (∃ pre l post recs q1 toks e q2, delivered parser.scanner.pending = pre ++ l :: post ∧
        Decoded rt parser pre recs q1 ∧ parseLine rt l q1.record q1 = Exec.ok (toks, some e, q2)) ∨
     parser.All rt = Exec.fault) := by
  refine ⟨allLoop_ne_outOfFuel _ _ _ (Nat.lt_succ_self _), ?_, ?_, fun r hr => allLoop_done hr,
    ?_⟩
  rotate_left 2
  · rcases @lines_trichotomy rt parser (delivered parser.scanner.pending) with h | h | h
    · exact Or.inl h
    · exact Or.inr (Or.inl h)
    · obtain ⟨pre, l, post, recs, q1, hls, hdec, hf⟩ := h
      obtain ⟨rpre, rl, rrest, hpend, h1, h2, hfit, hl⟩ := delivered_split hls
      rw [← h1] at hdec
      rw [← h2] at hf
      exact Or.inr (Or.inr (All_fault_of_line_fault hd hpend hfit hl hdec hf))
  · intro recs q1 hdec
    obtain ⟨raw, rest, hpend, hdel, hfit, hrest⟩ := pending_split parser.scanner.pending
    rw [hdel] at hdec
    obtain ⟨s', hs', hloop⟩ :=
      allLoop_prefix raw hdec hfit hd parser.scanner rest hpend [] (rest.length + 1)
    have hq1 : q1.done = false := by rw [hdec.done_eq, hd]
    have hlen : recs.length = (delivered parser.scanner.pending).length := by
      rw [hdel]
      exact hdec.length_eq
    refine ⟨{ q1.withScanner s' with scanner := { pending := s'.pending, text := [] },
                                     done := true }, ?_, hlen, rfl, rfl⟩
    have hstart : parser.withScanner parser.scanner = parser := rfl
    have hfuel : parser.scanner.pending.length + 1 = raw.length + (rest.length + 1) := by
      rw [hpend]; simp; omega
    unfold Parser.All
    rw [hstart] at hloop
    rw [hfuel, hloop, allLoop_succ,
      HasNext_at_end (q1.withScanner s') hq1 (by rw [show (q1.withScanner s').scanner = s' from rfl, hs']; exact hrest)]
    simp
    rfl
  · intro pre l post recs q1 toks e q2 hdel hdec hfail
    obtain ⟨rpre, rl, rrest, hpend, h1, h2, hfit, hl⟩ := delivered_split hdel
    rw [← h1] at hdec
    rw [← h2] at hfail
    obtain ⟨s', hs', hloop⟩ :=
      allLoop_prefix rpre hdec hfit hd parser.scanner (rl :: rrest) hpend [] (rrest.length + 2)
    have hq1 : q1.done = false := by rw [hdec.done_eq, hd]
    refine ⟨q2.withScanner { pending := rrest, text := dropCR rl }, ?_,
      (parseLine_done_mono hfail).2 rfl, rfl⟩
    have hstart : parser.withScanner parser.scanner = parser := rfl
    have hlen : parser.scanner.pending.length + 1 = rpre.length + (rrest.length + 2) := by
      rw [hpend]; simp; omega
    unfold Parser.All
    rw [hstart] at hloop
    rw [hlen, hloop, allLoop_succ]
    have hsc : s' = { pending := rl :: rrest, text := s'.text } := by
      cases s'
      simp only [Scanner.mk.injEq, and_true]
      simpa using hs'
    have hnext : (q1.withScanner s').HasNext
        = (true, q1.withScanner { pending := rrest, text := dropCR rl }) := by
      rw [hsc]
      simp [Parser.HasNext, Parser.withScanner, hq1, Scan_delivers rl rrest s'.text hl]
    have hN : (q1.withScanner { pending := rrest, text := dropCR rl }).Next rt
        = Exec.ok (toks, some e, q2.withScanner { pending := rrest, text := dropCR rl }) := by
      unfold Parser.Next
      have : (q1.withScanner { pending := rrest, text := dropCR rl }).scanner.Text
          = dropCR rl := rfl
      rw [this]
      have hr : (q1.withScanner { pending := rrest, text := dropCR rl }).record
          = q1.record := rfl
      rw [hr, parseLine_withScanner, hfail]
      rfl
    rw [hnext]
    simp only [if_true, hN]

/-- The single over-long line of the tests with `ignoreExtraSize` off: `All`
returns no records, the too-long error of line 1, and exactly that one
diagnostic is recorded. -/
theorem All_on_over_long_test_line :
    ∃ q, (addressParser [lit "city1str15   Tabc"] false false true true true).All exampleRuntime
        = Exec.ok ([], some { line := 1, err := ErrLineTooLong }, q) ∧
      q.done = true ∧ q.Errors = [{ line := 1, err := ErrLineTooLong }] := by
  obtain ⟨q, h1, h2, h3⟩ :=
    (All_over_delivered_lines exampleRuntime
      (addressParser [lit "city1str15   Tabc"] false false true true true)
      (by decide)).2.2.1 [] (lit "city1str15   Tabc") [] []
      (addressParser [lit "city1str15   Tabc"] false false true true true) []
      { line := 1, err := ErrLineTooLong }
      ((addressParser [lit "city1str15   Tabc"] false false true true true).after 1
        [{ line := 1, err := ErrLineTooLong }] true)
      (by decide) (Decoded.nil _) (by decide)
  exact ⟨q, h1, h2, by rw [h3]; decide⟩

/-! ## The line size in Go `int` arithmetic -/

theorem lineSizeOf_foldl (cols : List Column) (a : Int)
    (hw : ∀ c ∈ cols, 0 ≤ c.Length) (ha : 0 ≤ a)
    (hfit : a + totalWidth ⟨cols⟩ < 2 ^ 63) :
    cols.foldl (fun lineSize col => wrapInt 64 (lineSize + col.Length)) a
      = a + totalWidth ⟨cols⟩ := by
  induction cols generalizing a with
  | nil => simp [totalWidth]
  | cons c cs ih =>
    have hc := hw c (by simp)
    have hcs : ∀ c' ∈ cs, 0 ≤ c'.Length := fun c' h => hw c' (by simp [h])
    have htot := totalWidth_nonneg hcs
    rw [totalWidth_cons] at hfit ⊢
    simp only [List.foldl_cons]
    rw [wrapInt_of_fits 64 (a + c.Length) (by decide) (by norm_num; omega) (by norm_num; omega),
      ih (a + c.Length) hcs (by omega) (by omega)]
    omega

/-- The line size that `NewParser` and `NewWriter` compute is the total width
of the schema when no width is negative and the total fits in a Go `int`. -/
theorem lineSizeOf_eq_totalWidth (record : Record)
    (hw : ∀ c ∈ record.Columns, 0 ≤ c.Length) (hfit : totalWidth record < 2 ^ 63) :
    lineSizeOf record = totalWidth record := by
  have h := lineSizeOf_foldl record.Columns 0 hw (le_refl _) (by simpa using hfit)
  simpa [lineSizeOf] using h

/-! ## The claims -/

/-- C1, failing inputs: the one-token record `é`.  Against a column of width 1
(its length in characters) `format` writes the lone byte `0xC3`, which is
decoded to U+FFFD; against a column of width 2 (its length in bytes) the line
is written unchanged, but its decoding slices `v[0:2]` on the one rune of the
line and reads one zero of the conversion buffer after it: the token is `é`
followed by a NUL character. -/
theorem round_trip_breaks_on_multibyte (rt : Runtime) :
    format (lit "é") 0x20 ⟨lit "A", 1⟩ = Exec.ok [0xC3] ∧
    parseLine rt [0xC3] (oneColumn 1) (oneColumnParser 1 false false false)
      = Exec.ok ([[0xEF, 0xBF, 0xBD]], none,
          (oneColumnParser 1 false false false).after 1 [] false) ∧
    [[0xEF, 0xBF, 0xBD]] ≠ [lit "é"] ∧
    format (lit "é") 0x20 ⟨lit "A", 2⟩ = Exec.ok (lit "é") ∧
    parseLine rt (lit "é") (oneColumn 2) (oneColumnParser 2 false false false)
      = Exec.ok ([lit "é" ++ [0x00]], none,
          (oneColumnParser 2 false false false).after 1 [] false) ∧
    [lit "é" ++ [0x00]] ≠ [lit "é"] :=
  of_decide_eq_true (Eq.refl true)

/-- C2: for a line with as many characters as the total width of the schema,
whenever `parseLine` succeeds it returns one token per schema column, in
schema order.  Token `i` is the span of the line at
`[w_0 + ... + w_(i-1), w_0 + ... + w_i)`, with leading whitespace removed iff
`trimLeadingSpace` is set and trailing whitespace removed iff
`trimTrailingSpace` is set.  For a line that is the text of the characters
`chars`, this is the text of the characters of `chars` at these positions,
without the whitespace characters at its start and at its end as the toggles
say; for any line, well-formed or not, it is the span of the runes that Go
reads in the line, trimmed by the two library functions. -/
theorem parseLine_tokens_are_spans (rt : Runtime) (line : GoString) (parser : Parser)
    (tokens : List GoString) (parser' : Parser)
    (hsize : parser.lineSize = totalWidth parser.record)
    (hlen : (RuneCountInString line : Int) = totalWidth parser.record)
    (h : parseLine rt line parser.record parser = Exec.ok (tokens, none, parser')) :
    tokens.length = parser.record.Columns.length ∧
    (∀ chars : List Rune, (∀ r ∈ chars, ValidRune r) → line = fromRunes chars →
      (chars.length : Int) = totalWidth parser.record ∧
      ∀ i : Nat, i < parser.record.Columns.length →
        tokens[i]? = some
          (fromRunes (trimSpan parser.trimLeadingSpace parser.trimTrailingSpace
            (charSpan chars (offsetOf parser.record i) (offsetOf parser.record (i + 1)))))) ∧
    ∀ i : Nat, i < parser.record.Columns.length →
      tokens[i]? = some
        ((if parser.trimTrailingSpace then fun t => TrimRightFunc t IsSpace else id)
          ((if parser.trimLeadingSpace then fun t => TrimLeftFunc t IsSpace else id)
            (spanOf line (offsetOf parser.record i) (offsetOf parser.record (i + 1))))) := by
  obtain ⟨ds, hl, _⟩ := parseLine_ok_inv h
  have hnot : ¬ (line.length : Int) < parser.lineSize := by
    have := RuneCountInString_le line
    omega
  have htoks := lineOutcome_tokens hnot hl
  have hw := lineOutcome_widths hnot hl
  have hfit : (0 : Int) + totalWidth ⟨parser.record.Columns⟩ ≤ ((toRunes line).length : Int) := by
    unfold RuneCountInString at hlen
    rw [hlen]
    simp
  unfold runeSlice at htoks
  rw [spansFrom_append _ _ _ _ _ _ hw (le_refl _) hfit] at htoks
  subst htoks
  have hspan : ∀ i : Nat, i < parser.record.Columns.length →
      (spansFrom (toRunes line) parser.trimLeadingSpace parser.trimTrailingSpace
          parser.record.Columns 0)[i]? = some
        (trimToken parser.trimLeadingSpace parser.trimTrailingSpace
          (fromRunes (charSpan (toRunes line) (offsetOf parser.record i)
            (offsetOf parser.record (i + 1))))) := by
    intro i hi
    rw [spansFrom_getElem? _ _ _ _ _ i hi]
    simp only [Int.zero_add, charSpan, offsetOf]
  refine ⟨spansFrom_length _ _ _ _ _, ?_, ?_⟩
  · intro chars hv hline
    have hchars : toRunes line = chars := by rw [hline, toRunes_fromRunes chars hv]
    refine ⟨by rw [← hchars]; exact hlen, ?_⟩
    intro i hi
    rw [hspan i hi, hchars, trimToken_fromRunes _ _ _ (charSpan_valid chars hv _ _)]
  · intro i hi
    rw [hspan i hi]
    simp only [spanOf, charSpan, trimToken]
    cases parser.trimLeadingSpace <;> cases parser.trimTrailingSpace <;> rfl

/-- Witness for C2: the first line of the tests with both trims on; the third
line of the tests with both trims on, whose third token loses a space on
either side; and the line ` é 1` of four characters and five bytes on the
schema `A:3, B:1`, decoded with `ignoreExtraSize` on. -/
theorem parseLine_tokens_are_spans_witness :
    ((addressParser [] false false true true true).lineSize = totalWidth addressSchema ∧
      (RuneCountInString (lit "city1str15   T") : Int) = totalWidth addressSchema ∧
      parseLine exampleRuntime (lit "city1str15   T") addressSchema
          (addressParser [] false false true true true)
        = Exec.ok ([lit "city1", lit "str1", lit "5", lit "T"], none,
            (addressParser [] false false true true true).after 1 [] false) ∧
      (∀ i : Nat, i < addressSchema.Columns.length →
        [lit "city1", lit "str1", lit "5", lit "T"][i]? = some
          (fromRunes (trimSpan true true (charSpan (charsOf "city1str15   T")
            (offsetOf addressSchema i) (offsetOf addressSchema (i + 1)))))) ∧
      charSpan (charsOf "city1str15   T") (offsetOf addressSchema 2) (offsetOf addressSchema 3)
        = charsOf "5   " ∧
      trimSpan true true (charsOf "5   ") = charsOf "5") ∧
    ((addressParser [] false false true true true).lineSize = totalWidth addressSchema ∧
      (RuneCountInString (lit "city3str3 24 F") : Int) = totalWidth addressSchema ∧
      parseLine exampleRuntime (lit "city3str3 24 F") addressSchema
          (addressParser [] false false true true true)
        = Exec.ok ([lit "city3", lit "str3", lit "24", lit "F"], none,
            (addressParser [] false false true true true).after 1 [] false) ∧
      (∀ i : Nat, i < addressSchema.Columns.length →
        [lit "city3", lit "str3", lit "24", lit "F"][i]? = some
          (fromRunes (trimSpan true true (charSpan (charsOf "city3str3 24 F")
            (offsetOf addressSchema i) (offsetOf addressSchema (i + 1)))))) ∧
      charSpan (charsOf "city3str3 24 F") (offsetOf addressSchema 2) (offsetOf addressSchema 3)
        = charsOf " 24 " ∧
      trimSpan true true (charsOf " 24 ") = charsOf "24") ∧
    ((parserOn ⟨[⟨lit "A", 3⟩, ⟨lit "B", 1⟩]⟩ [] false true false true true).lineSize
        = totalWidth ⟨[⟨lit "A", 3⟩, ⟨lit "B", 1⟩]⟩ ∧
      (RuneCountInString (lit " é 1") : Int) = totalWidth ⟨[⟨lit "A", 3⟩, ⟨lit "B", 1⟩]⟩ ∧
      (lit " é 1").length = 5 ∧
      parseLine exampleRuntime (lit " é 1") ⟨[⟨lit "A", 3⟩, ⟨lit "B", 1⟩]⟩
          (parserOn ⟨[⟨lit "A", 3⟩, ⟨lit "B", 1⟩]⟩ [] false true false true true)
        = Exec.ok ([lit "é", lit "1"], none,
            (parserOn ⟨[⟨lit "A", 3⟩, ⟨lit "B", 1⟩]⟩ [] false true false true true).after 1
              [{ line := 1, err := ErrLineTooLong }] false) ∧
      (∀ i : Nat, i < 2 →
        [lit "é", lit "1"][i]? = some
          (fromRunes (trimSpan true true (charSpan (charsOf " é 1")
            (offsetOf ⟨[⟨lit "A", 3⟩, ⟨lit "B", 1⟩]⟩ i)
            (offsetOf ⟨[⟨lit "A", 3⟩, ⟨lit "B", 1⟩]⟩ (i + 1)))))) ∧
      trimSpan true true (charSpan (charsOf " é 1") 0 3) = charsOf "é") :=
  ⟨⟨by decide, by decide, by decide,
      ((parseLine_tokens_are_spans exampleRuntime (lit "city1str15   T")
        (addressParser [] false false true true true)
        [lit "city1", lit "str1", lit "5", lit "T"]
        ((addressParser [] false false true true true).after 1 [] false)
        (by decide) (by decide) (by decide)).2.1
          (charsOf "city1str15   T") (by decide) rfl).2,
      by decide, by decide⟩,
    ⟨by decide, by decide, by decide,
      ((parseLine_tokens_are_spans exampleRuntime (lit "city3str3 24 F")
        (addressParser [] false false true true true)
        [lit "city3", lit "str3", lit "24", lit "F"]
        ((addressParser [] false false true true true).after 1 [] false)
        (by decide) (by decide) (by decide)).2.1
          (charsOf "city3str3 24 F") (by decide) rfl).2,
      by decide, by decide⟩,
    ⟨by decide, by decide, by decide, by decide,
      ((parseLine_tokens_are_spans exampleRuntime (lit " é 1")
        (parserOn ⟨[⟨lit "A", 3⟩, ⟨lit "B", 1⟩]⟩ [] false true false true true)
        [lit "é", lit "1"]
        ((parserOn ⟨[⟨lit "A", 3⟩, ⟨lit "B", 1⟩]⟩ [] false true false true true).after 1
          [{ line := 1, err := ErrLineTooLong }] false)
        (by decide) (by decide) (by decide)).2.1
          (charsOf " é 1") (by decide) rfl).2,
      by decide⟩⟩

/-- C3, counterexample: on the exact-width line `city6    5   T` with both
trims on, decoding with the three tolerances enabled yields four tokens (the
second one empty), decoding with the three disabled yields no tokens and an
empty-column error. -/
theorem tolerances_change_exact_width_decode :
    (RuneCountInString (lit "city6    5   T") : Int) = totalWidth addressSchema ∧
    ((lit "city6    5   T").length : Int) = totalWidth addressSchema ∧
    parseLine exampleRuntime (lit "city6    5   T") addressSchema
        (addressParser [] true true true true true)
      = Exec.ok ([lit "city6", [], lit "5", lit "T"], none,
          (addressParser [] true true true true true).after 1
            [{ line := 1, colName := lit "Street", err := ErrNumCols }] false) ∧
    parseLine exampleRuntime (lit "city6    5   T") addressSchema
        (addressParser [] false false false true true)
      = Exec.ok ([], some { line := 1, colName := lit "Street", err := ErrNumCols },
          (addressParser [] false false false true true).after 1
            [{ line := 1, colName := lit "Street", err := ErrNumCols }] true) ∧
    [lit "city6", [], lit "5", lit "T"] ≠ ([] : List GoString) :=
  ⟨by decide, by decide, by decide, by decide, by decide⟩

/-- C3, amended: for every schema, every line and every fixed setting of the
two trim toggles, if decoding the line with the three tolerances disabled
succeeds, then decoding it with the three tolerances enabled succeeds as well
and yields the same token sequence. -/
theorem tolerances_preserve_clean_decode (rt : Runtime) (line : GoString) (parser : Parser)
    (tokens : List GoString) (q : Parser)
    (h : parseLine rt line parser.record
      { parser with handleShortLines := false, ignoreExtraSize := false,
                    ignoreEmptyCols := false } = Exec.ok (tokens, none, q)) :
    ∃ q', parseLine rt line parser.record
      { parser with handleShortLines := true, ignoreExtraSize := true,
                    ignoreEmptyCols := true } = Exec.ok (tokens, none, q') := by
  obtain ⟨ds, hl, _⟩ := parseLine_ok_inv h
  obtain ⟨_, _, hall⟩ := lineOutcome_strict_clean hl
  rw [parseLine_eq, hall true true true]
  exact ⟨_, rfl⟩

/-- Witness for C3 (amended): the first line of the tests, both trims on, and
the line `é` of one character and two bytes on a column of width 2, which the
strict decode accepts (its token is `é` followed by the first zero of the
conversion buffer). -/
theorem tolerances_preserve_clean_decode_witness :
    (parseLine exampleRuntime (lit "city1str15   T") addressSchema
        (addressParser [] false false false true true)
      = Exec.ok ([lit "city1", lit "str1", lit "5", lit "T"], none,
          (addressParser [] false false false true true).after 1 [] false) ∧
    ∃ q', parseLine exampleRuntime (lit "city1str15   T") addressSchema
        (addressParser [] true true true true true)
      = Exec.ok ([lit "city1", lit "str1", lit "5", lit "T"], none, q')) ∧
    (parseLine exampleRuntime (lit "é") (oneColumn 2) (oneColumnParser 2 false false false)
      = Exec.ok ([lit "é" ++ [0x00]], none,
          (oneColumnParser 2 false false false).after 1 [] false) ∧
    ∃ q', parseLine exampleRuntime (lit "é") (oneColumn 2) (oneColumnParser 2 true true true)
      = Exec.ok ([lit "é" ++ [0x00]], none, q')) :=
  ⟨⟨by decide,
    tolerances_preserve_clean_decode exampleRuntime (lit "city1str15   T")
      (addressParser [] false false true true true)
      [lit "city1", lit "str1", lit "5", lit "T"]
      ((addressParser [] false false false true true).after 1 [] false) (by decide)⟩,
   ⟨by decide,
    tolerances_preserve_clean_decode exampleRuntime (lit "é")
      (oneColumnParser 2 false false false)
      [lit "é" ++ [0x00]]
      ((oneColumnParser 2 false false false).after 1 [] false) (by decide)⟩⟩

/-- C4, failing input: the token `éé` (two characters, four bytes) in a
column of width 1.  The function `format` cuts after one byte: the result is
the lone byte `0xC3`, not the first character `é` of the token. -/
theorem format_truncation_splits_character :
    RuneCountInString (lit "éé") = 2 ∧
    format (lit "éé") 0x20 ⟨lit "A", 1⟩ = Exec.ok [0xC3] ∧
    spanOf (lit "éé") 0 1 = lit "é" ∧
    [0xC3] ≠ lit "é" := by
  decide

/-- C5, failing inputs: the token `é` (one character, two bytes) in a column
of width 2 with the space as pad is returned unpadded, one character long;
in a column of width 3 with `é` as pad it gets one pad character and is two
characters and four bytes long. -/
theorem format_padding_counts_bytes :
    RuneCountInString (lit "é") = 1 ∧
    format (lit "é") 0x20 ⟨lit "A", 2⟩ = Exec.ok (lit "é") ∧
    format (lit "é") 0xE9 ⟨lit "A", 3⟩ = Exec.ok (lit "éé") ∧
    RuneCountInString (lit "éé") = 2 ∧ (lit "éé").length = 4 := by
  decide

/-- C6: a fatal halt is permanent.  When `parseLine` returns an error it
returns no tokens and sets `done`; the error is a too-long line with
`ignoreExtraSize` off, a too-short line with `handleShortLines` off, or an
empty column with `ignoreEmptyCols` off.  After any further sequence of calls
that return, `done` is still set and `HasNext` answers `false` leaving the
parser, its scanner included, untouched.  No call takes `done` from `true`
back to `false`. -/
theorem fatal_halt_is_permanent {τ ε : Type} (rt : Runtime)
    (bindFields : Record → List GoString → τ → Exec (τ × Option ε))
    (line : GoString) (record : Record) (parser : Parser) (tokens : List GoString)
    (err : ParsingError) (parser' : Parser)
    (h : parseLine rt line record parser = Exec.ok (tokens, some err, parser')) :
    tokens = [] ∧ parser'.done = true ∧
    ((err.err = ErrLineTooLong ∧ parser.ignoreExtraSize = false ∧
        parser.lineSize < (line.length : Int)) ∨
     (err.err = ErrLineTooShort ∧ parser.handleShortLines = false ∧
        (line.length : Int) < parser.lineSize) ∨
     (err.err = ErrNumCols ∧ parser.ignoreEmptyCols = false ∧
        ∃ c ∈ record.Columns, err.colName = c.Name)) ∧
    (∀ (ops : List (Op τ)) (q : Parser), runOps rt bindFields ops parser' = Exec.ok q →
      q.done = true ∧ q.HasNext = (false, q)) ∧
    (∀ (op : Op τ) (p q : Parser), p.done = true → op.apply rt bindFields p = Exec.ok q →
      q.done = true) := by
  obtain ⟨ds, hl, hq⟩ := parseLine_ok_inv h
  obtain ⟨ht, _, hcause⟩ := lineOutcome_err hl
  have hdone : parser'.done = true := (parseLine_done_mono h).2 rfl
  refine ⟨ht, hdone, hcause, ?_, ?_⟩
  · intro ops q hq
    have hqd := runOps_done_mono bindFields ops hdone hq
    exact ⟨hqd, HasNext_of_done hqd⟩
  · intro op p q hp hop
    exact Op.apply_done_mono bindFields op hp hop

/-- Witness for C6: the over-long line of the tests, `ignoreExtraSize` off,
with a further line still pending in the scanner. -/
theorem fatal_halt_is_permanent_witness :
    parseLine exampleRuntime (lit "city1str15   Tabc") addressSchema
        (addressParser [lit "city2str24537T"] false false true true true)
      = Exec.ok ([], some { line := 1, err := ErrLineTooLong },
          (addressParser [lit "city2str24537T"] false false true true true).after 1
            [{ line := 1, err := ErrLineTooLong }] true) ∧
    ∀ (ops : List (Op Unit)) (q : Parser),
      runOps exampleRuntime (fun _ _ v => Exec.ok (v, (none : Option Unit))) ops
        ((addressParser [lit "city2str24537T"] false false true true true).after 1
            [{ line := 1, err := ErrLineTooLong }] true) = Exec.ok q →
      q.done = true ∧ q.HasNext = (false, q) :=
  ⟨by decide,
    (fatal_halt_is_permanent exampleRuntime (fun _ _ v => Exec.ok (v, (none : Option Unit)))
      (lit "city1str15   Tabc") addressSchema
      (addressParser [lit "city2str24537T"] false false true true true) []
      { line := 1, err := ErrLineTooLong } _ (by decide)).2.2.2.1⟩

/-- C7, failing input: a stream whose second raw line does not fit the buffer
of the scanner (64 KiB or more), on the schema `A:1` with all toggles off.
Handed to `parseLine`, that line is rejected as too long: it has an
untolerated defect.  But `Scan` gives up on it and `HasNext` takes that for
the end of the input: `All` returns the record of the first line alone, with
a nil error and no diagnostic, whatever follows in the stream. -/
theorem All_returns_partial_records (rt : Runtime) (long : GoString) (rest : List GoString)
    (hlong : MaxScanTokenSize ≤ long.length) :
    (∃ q', parseLine rt long (oneColumn 1)
        ((oneColumnParser 1 false false false).after 1 [] false)
      = Exec.ok ([], some { line := 2, err := ErrLineTooLong }, q')) ∧
    ∃ q, (parserOn (oneColumn 1) (lit "a" :: long :: rest) false false false false false).All rt
        = Exec.ok ([[lit "a"]], none, q) ∧
      q.done = true ∧ q.Errors = [] := by
  have hmax : MaxScanTokenSize = 65536 := by decide
  constructor
  · rw [parseLine_eq]
    have hl : lineOutcome rt long (oneColumn 1)
        ((oneColumnParser 1 false false false).after 1 [] false)
        = Exec.ok ([], some { line := 2, err := ErrLineTooLong },
            [{ line := 2, err := ErrLineTooLong }]) := by
      unfold lineOutcome
      have h1 : ((oneColumnParser 1 false false false).after 1 [] false).lineSize = 1 := by
        decide
      rw [if_neg (by decide), if_pos (by rw [h1]; omega)]
      rfl
    rw [hl]
    exact ⟨_, rfl⟩
  · have hdel : delivered (lit "a" :: long :: rest) = [lit "a"] := by
      unfold delivered
      have h1 : decide ((lit "a").length < MaxScanTokenSize) = true := by decide
      have h2 : decide (long.length < MaxScanTokenSize) = false := by
        simp only [decide_eq_false_iff_not]
        omega
      rw [List.takeWhile_cons, h1]
      simp only [if_true]
      rw [List.takeWhile_cons, h2]
      simp only [Bool.false_eq_true, if_false, List.map_cons, List.map_nil]
      have h3 : dropCR (lit "a") = lit "a" := by decide
      rw [h3]
    have hp : parseLine rt (lit "a") (oneColumn 1)
        (parserOn (oneColumn 1) (lit "a" :: long :: rest) false false false false false)
        = Exec.ok ([lit "a"], none,
            (parserOn (oneColumn 1) (lit "a" :: long :: rest)
              false false false false false).after 1 [] false) := by
      have hw : parserOn (oneColumn 1) (lit "a" :: long :: rest) false false false false false
          = (parserOn (oneColumn 1) [] false false false false false).withScanner
              { pending := lit "a" :: long :: rest } := rfl
      rw [hw, parseLine_withScanner,
        parseLine_small rt exampleRuntime (lit "a") (oneColumn 1)
          (parserOn (oneColumn 1) [] false false false false false) (by decide) (by decide)]
      have : parseLine exampleRuntime (lit "a") (oneColumn 1)
          (parserOn (oneColumn 1) [] false false false false false)
          = Exec.ok ([lit "a"], none,
              (parserOn (oneColumn 1) [] false false false false false).after 1 [] false) := by
        decide
      rw [this]
      rfl
    obtain ⟨q, hq, _, hdone, herr⟩ :=
      (All_over_delivered_lines rt
        (parserOn (oneColumn 1) (lit "a" :: long :: rest) false false false false false)
        rfl).2.1 [[lit "a"]]
        ((parserOn (oneColumn 1) (lit "a" :: long :: rest)
          false false false false false).after 1 [] false)
        (by
          rw [show (parserOn (oneColumn 1) (lit "a" :: long :: rest)
              false false false false false).scanner.pending = lit "a" :: long :: rest from rfl,
            hdel]
          exact Decoded.cons hp (Decoded.nil _))
    exact ⟨q, hq, hdone, by rw [herr]; rfl⟩

/-- Witness for C7: a first line `a`, a second line of 70000 times `a`, and a
third line `b`. -/
theorem All_returns_partial_records_witness :
    MaxScanTokenSize ≤ (Repeat [0x61] 70000).length ∧
    (∃ q', parseLine exampleRuntime (Repeat [0x61] 70000) (oneColumn 1)
        ((oneColumnParser 1 false false false).after 1 [] false)
      = Exec.ok ([], some { line := 2, err := ErrLineTooLong }, q')) ∧
    ∃ q, (parserOn (oneColumn 1) [lit "a", Repeat [0x61] 70000, lit "b"]
          false false false false false).All exampleRuntime
        = Exec.ok ([[lit "a"]], none, q) ∧
      q.done = true ∧ q.Errors = [] :=
  ⟨by rw [Repeat_length_single]; decide,
    All_returns_partial_records exampleRuntime (Repeat [0x61] 70000) [lit "b"]
      (by rw [Repeat_length_single]; decide)⟩

/-- C8, failing input: the line `é`, of exactly the total width 1 in
characters, with `ignoreEmptyCols` on.  The byte length 2 exceeds the line
size: `parseLine` returns the too-long error, no token, and sets `done`. -/
theorem exact_width_multibyte_line_rejected (rt : Runtime) :
    (RuneCountInString (lit "é") : Int) = totalWidth (oneColumn 1) ∧
    parseLine rt (lit "é") (oneColumn 1) (oneColumnParser 1 false false true)
      = Exec.ok ([], some { line := 1, err := ErrLineTooLong },
          (oneColumnParser 1 false false true).after 1
            [{ line := 1, err := ErrLineTooLong }] true) ∧
    ((oneColumnParser 1 false false true).after 1
      [{ line := 1, err := ErrLineTooLong }] true).done = true :=
  of_decide_eq_true (Eq.refl true)

/-- C9, failing input: the line `éé`, two characters against a total width of
3, with `handleShortLines` on.  Its byte length 4 exceeds the line size: the
diagnostic appended is the too-long one, none is a too-short one, and the
line is rejected. -/
theorem short_multibyte_line_taken_as_long (rt : Runtime) :
    (RuneCountInString (lit "éé") : Int) < totalWidth (oneColumn 3) ∧
    parseLine rt (lit "éé") (oneColumn 3) (oneColumnParser 3 true false false)
      = Exec.ok ([], some { line := 1, err := ErrLineTooLong },
          (oneColumnParser 3 true false false).after 1
            [{ line := 1, err := ErrLineTooLong }] true) ∧
    ((oneColumnParser 3 true false false).after 1
      [{ line := 1, err := ErrLineTooLong }] true).Errors
        = [{ line := 1, err := ErrLineTooLong }] :=
  of_decide_eq_true (Eq.refl true)

/-- C10, failing input: the line `éab`, three characters against a total
width of 2, with `ignoreExtraSize` on.  It is decoded to `éa` with the one
too-long diagnostic; its first two characters `éa`, parsed on their own, get
a too-long diagnostic too, so the diagnostics of `éab` are not one too-long
diagnostic followed by those of `éa`. -/
theorem extra_size_reference_line_flagged (rt : Runtime) :
    totalWidth (oneColumn 2) < (RuneCountInString (lit "éab") : Int) ∧
    spanOf (lit "éab") 0 (totalWidth (oneColumn 2)) = lit "éa" ∧
    parseLine rt (lit "éab") (oneColumn 2) (oneColumnParser 2 false true false)
      = Exec.ok ([lit "éa"], none,
          (oneColumnParser 2 false true false).after 1
            [{ line := 1, err := ErrLineTooLong }] false) ∧
    parseLine rt (lit "éa") (oneColumn 2) (oneColumnParser 2 false true false)
      = Exec.ok ([lit "éa"], none,
          (oneColumnParser 2 false true false).after 1
            [{ line := 1, err := ErrLineTooLong }] false) ∧
    ((oneColumnParser 2 false true false).after 1
        [{ line := 1, err := ErrLineTooLong }] false).Errors
      ≠ (oneColumnParser 2 false true false).Errors
          ++ [{ line := 1, err := ErrLineTooLong }]
          ++ ((oneColumnParser 2 false true false).after 1
                [{ line := 1, err := ErrLineTooLong }] false).Errors :=
  of_decide_eq_true (Eq.refl true)

/-- C12, failing input: `WriteAll` on any list with at least one record.  The
loop hands the index `i` to `Write`, not the record `v[i]`, and `Write`
panics on it; only the empty list is flushed.  Writing the record with `Write`
and then flushing gives the encoded line. -/
theorem WriteAll_writes_the_index (lib : Stdlib) (writer : Writer) (r : Iface)
    (rs : List Iface) :
    writer.WriteAll lib (r :: rs) = Exec.fault ∧
    writer.WriteAll lib [] = Exec.ok writer.Flush ∧
    addressWriter.WriteAll exampleLib [Iface.ptr (address (lit "city3") (lit "str3") 24 false)]
      = Exec.fault ∧
    (addressWriter.Write exampleLib (Iface.ptr (address (lit "city3") (lit "str3") 24 false))).map
        (fun w => w.Flush.buffer)
      = Exec.ok { flushed := lit "city3str324  f" ++ [0x0A], buffered := [] } := by
  refine ⟨rfl, rfl, rfl, by decide⟩

/-- C13 (counterexample): two columns of the same name.  On the schema
`A:1, A:1` the line `12` is cut into the tokens `1` and `2`, and
`UnmarshallNext` succeeds; the field `A` of the target has the name of the
first column and does not hold the coercion of its token `1`: it holds `2`,
the token of the second column. -/
theorem binding_with_repeated_column_name :
    (parserOn ⟨[⟨lit "A", 1⟩, ⟨lit "A", 1⟩]⟩ [lit "12"] false false false false false).HasNext.2.Next exampleRuntime
      = Exec.ok ([lit "1", lit "2"], none,
          (parserOn ⟨[⟨lit "A", 1⟩, ⟨lit "A", 1⟩]⟩ [lit "12"]
            false false false false false).HasNext.2.after 1 [] false) ∧
    (parserOn ⟨[⟨lit "A", 1⟩, ⟨lit "A", 1⟩]⟩ [lit "12"]
        false false false false false).HasNext.2.UnmarshallNext exampleRuntime
        (bindFields exampleLib) (Iface.ptr [⟨lit "A", FieldValue.string []⟩])
      = Exec.ok ((Iface.ptr [⟨lit "A", FieldValue.string (lit "2")⟩], none),
          (parserOn ⟨[⟨lit "A", 1⟩, ⟨lit "A", 1⟩]⟩ [lit "12"]
            false false false false false).HasNext.2.after 1 [] false) ∧
    coerceTo exampleLib (FieldValue.string []) (lit "1") = some (FieldValue.string (lit "1")) ∧
    FieldValue.string (lit "1") ≠ FieldValue.string (lit "2") :=
  ⟨by decide, by decide, by decide, by decide⟩

/-- C13: field binding.  When `UnmarshallNext` succeeds on a target whose
field names are distinct, the target keeps its fields and: every field whose
name is the name of a schema column holds the coercion of that column's token
to the type of the field (for a name that several columns carry, the token of
the last of them); every field that no column names is unchanged; and the
columns with no field of their name are skipped: the outcome does not depend
on their tokens. -/
theorem UnmarshallNext_binds_fields (rt : Runtime) (lib : Stdlib) (parser parser' : Parser)
    (s : Struct)
    (v' : Iface) (hnames : (s.map Field.Name).Nodup)
    (h : parser.UnmarshallNext rt (bindFields lib) (Iface.ptr s)
      = Exec.ok ((v', none), parser')) :
    ∃ (tokens : List GoString) (s' : Struct),
      parser.Next rt = Exec.ok (tokens, none, parser') ∧ v' = Iface.ptr s' ∧
      s'.map Field.Name = s.map Field.Name ∧
      (∀ (i j : Nat) (c : Column) (f : Field),
        parser.record.Columns[i]? = some c → s[j]? = some f → f.Name = c.Name →
        (∀ (k : Nat) (d : Column), i < k → parser.record.Columns[k]? = some d →
          d.Name ≠ c.Name) →
        ∃ t f', tokens[i]? = some t ∧ s'[j]? = some f' ∧
          coerceTo lib f.value t = some f'.value) ∧
      (∀ (j : Nat) (f : Field), s[j]? = some f →
        (∀ c ∈ parser.record.Columns, c.Name ≠ f.Name) → s'[j]? = some f) ∧
      (∀ tokens2 : List GoString, tokens2.length = tokens.length →
        (∀ (i : Nat) (c : Column), parser.record.Columns[i]? = some c →
          (∃ f ∈ s, f.Name = c.Name) → tokens2[i]? = tokens[i]?) →
        bindFields lib parser.record tokens2 (Iface.ptr s)
          = bindFields lib parser.record tokens (Iface.ptr s)) := by
  unfold Parser.UnmarshallNext at h
  cases hN : parser.Next rt with
  | fault => simp [hN] at h
  | outOfFuel => simp [hN] at h
  | ok r =>
    obtain ⟨tokens, e, p1⟩ := r
    cases e with
    | some err => simp [hN] at h
    | none =>
      simp only [hN] at h
      have hrec : p1.record = parser.record := by
        obtain ⟨ds, _, hq⟩ := parseLine_ok_inv hN
        rw [hq]; rfl
      rw [hrec] at h
      unfold bindFields at h
      simp only [] at h
      cases hb : bindLoop lib (fieldToIdx s) parser.record.Columns 0 tokens s with
      | fault => simp [hb] at h
      | outOfFuel => simp [hb] at h
      | ok r2 =>
        obtain ⟨s', e2⟩ := r2
        cases e2 with
        | some err => simp [hb] at h
        | none =>
          simp only [hb, Option.map_none', Exec.ok.injEq, Prod.mk.injEq, and_true] at h
          obtain ⟨hv, hp⟩ := h
          subst hv hp
          obtain ⟨h1, h2, h3⟩ := bindLoop_ok hb
          refine ⟨tokens, s', rfl, rfl, h1, ?_, ?_, ?_⟩
          · intro i j c f hc hf hname hlater
            have hmj : fieldToIdx s c.Name = some j := by
              rw [← hname]; exact fieldToIdx_of_nodup hnames hf
            obtain ⟨t, g, g', e1, e2, e3, e4⟩ := h3 i c j hc hmj (by
              intro k d hlt hd hmd
              obtain ⟨g, hg, hgname⟩ := fieldToIdx_some hmd
              rw [hf] at hg
              simp only [Option.some.injEq] at hg
              subst hg
              exact hlater k d hlt hd (by rw [← hgname, hname]))
            rw [hf] at e2
            simp only [Option.some.injEq] at e2
            subst e2
            exact ⟨t, g', by simpa using e1, e3, e4⟩
          · intro j f hf hnone
            rw [h2 j (by
              intro c hc hmc
              obtain ⟨g, hg, hgname⟩ := fieldToIdx_some hmc
              rw [hf] at hg
              simp only [Option.some.injEq] at hg
              subst hg
              exact hnone c hc hgname.symm)]
            exact hf
          · intro tokens2 hlen hagree
            unfold bindFields
            simp only []
            rw [bindLoop_skips lib _ _ 0 tokens tokens2 s hlen (by
              intro i c hc hm
              simp only [Nat.zero_add]
              apply hagree i c hc
              cases hmc : fieldToIdx s c.Name with
              | none => exact absurd hmc hm
              | some j =>
                obtain ⟨g, hg, hgname⟩ := fieldToIdx_some hmc
                exact ⟨g, List.mem_iff_getElem?.mpr ⟨j, hg⟩, hgname⟩)]

/-- Witness for C13: the first line of the tests, decoded with both trims
and `ignoreEmptyCols`, is bound to `{city1, str1, 5, true}` in an `Address`
and to `{city1, str1}` in a target with the fields `City` and `Street` only. -/
theorem UnmarshallNext_binds_fields_witness :
    ((address [] [] 0 false).map Field.Name).Nodup ∧
    (addressParser [lit "city1str15   T"] false false true true true).HasNext.2.UnmarshallNext exampleRuntime
        (bindFields exampleLib) (Iface.ptr (address [] [] 0 false))
      = Exec.ok ((Iface.ptr (address (lit "city1") (lit "str1") 5 true), none),
          (addressParser [lit "city1str15   T"] false false true true true).HasNext.2.after
            1 [] false) ∧
    (addressParser [lit "city1str15   T"] false false true true true).HasNext.2.UnmarshallNext exampleRuntime
        (bindFields exampleLib)
        (Iface.ptr [⟨lit "City", FieldValue.string []⟩, ⟨lit "Street", FieldValue.string []⟩])
      = Exec.ok ((Iface.ptr [⟨lit "City", FieldValue.string (lit "city1")⟩,
                             ⟨lit "Street", FieldValue.string (lit "str1")⟩], none),
          (addressParser [lit "city1str15   T"] false false true true true).HasNext.2.after
            1 [] false) ∧
    ∃ (tokens : List GoString) (s' : Struct),
      (addressParser [lit "city1str15   T"] false false true true true).HasNext.2.Next exampleRuntime
        = Exec.ok (tokens, none,
          (addressParser [lit "city1str15   T"] false false true true true).HasNext.2.after
            1 [] false) ∧
      Iface.ptr (address (lit "city1") (lit "str1") 5 true) = Iface.ptr s' := by
  refine ⟨by decide, by decide, by decide, ?_⟩
  obtain ⟨tokens, s', h1, h2, _⟩ :=
    UnmarshallNext_binds_fields exampleRuntime exampleLib
      (addressParser [lit "city1str15   T"] false false true true true).HasNext.2
      ((addressParser [lit "city1str15   T"] false false true true true).HasNext.2.after
        1 [] false)
      (address [] [] 0 false) (Iface.ptr (address (lit "city1") (lit "str1") 5 true))
      (by decide) (by decide)
  exact ⟨tokens, s', h1, h2⟩

/-- C14, counterexample: a column list with a width of 0, a negative width
and a name used twice is loaded as it is, and `NewParser` and `NewWriter`
build a parser and a writer on it. -/
theorem malformed_schema_is_loaded :
    readSchema (SchemaReader.json ⟨[⟨lit "A", 0⟩, ⟨lit "A", -2⟩]⟩)
      = Exec.ok ⟨[⟨lit "A", 0⟩, ⟨lit "A", -2⟩]⟩ ∧
    NewParser.ofReader [] (SchemaReader.json ⟨[⟨lit "A", 0⟩, ⟨lit "A", -2⟩]⟩)
      = Exec.ok { scanner := { pending := [] }, record := ⟨[⟨lit "A", 0⟩, ⟨lit "A", -2⟩]⟩,
                  numCols := 2, lineSize := -2 } ∧
    NewWriter (SchemaReader.json ⟨[⟨lit "A", 0⟩, ⟨lit "A", -2⟩]⟩)
      = Exec.ok { record := ⟨[⟨lit "A", 0⟩, ⟨lit "A", -2⟩]⟩, numCols := 2, lineSize := -2,
                  padChar := 0x20 } := by
  decide

/-- C14, amended: loading a schema checks nothing about the columns.  Every
column list that the reader delivers as JSON, whatever its widths and names,
is returned unchanged by `readSchema`, and `NewParser` and `NewWriter` build
a parser and a writer on it; only a reader that cannot be read or does not
hold JSON of the schema shape ends the program. -/
theorem readSchema_accepts_every_record (input : List GoString) (record : Record) :
    readSchema (SchemaReader.json record) = Exec.ok record ∧
    NewParser.ofReader input (SchemaReader.json record) = Exec.ok (NewParser input record) ∧
    (∃ writer, NewWriter (SchemaReader.json record) = Exec.ok writer ∧
      writer.record = record) ∧
    readSchema SchemaReader.unreadable = Exec.fault ∧
    readSchema SchemaReader.malformed = Exec.fault :=
  ⟨rfl, rfl, ⟨_, rfl, rfl⟩, rfl, rfl⟩

/-- C15: diagnostics are append-only.  For every parser state and every call
that returns (`parseLine`, `Next`, `HasNext`, `All`, `UnmarshallNext`, and the
option setters), the `Errors` before the call are a prefix of the `Errors`
after it. -/
theorem diagnostics_append_only {τ ε : Type} (rt : Runtime)
    (bindFields : Record → List GoString → τ → Exec (τ × Option ε)) :
    (∀ (line : GoString) (record : Record) (p q : Parser) (toks : List GoString)
        (e : Option ParsingError),
      parseLine rt line record p = Exec.ok (toks, e, q) → p.Errors <+: q.Errors) ∧
    (∀ (op : Op τ) (p q : Parser), op.apply rt bindFields p = Exec.ok q →
      p.Errors <+: q.Errors) ∧
    (∀ (ops : List (Op τ)) (p q : Parser), runOps rt bindFields ops p = Exec.ok q →
      p.Errors <+: q.Errors) := by
  refine ⟨fun _ _ _ _ _ _ h => parseLine_errors_prefix h,
    fun op _ _ h => Op.apply_errors_prefix bindFields op h, ?_⟩
  intro ops
  induction ops with
  | nil =>
    intro p q h
    simp only [runOps, Exec.ok.injEq] at h
    subst h
    exact List.prefix_refl _
  | cons op ops ih =>
    intro p q h
    simp only [runOps] at h
    split at h
    · rename_i p1 hp1
      exact (Op.apply_errors_prefix bindFields op hp1).trans (ih p1 q h)
    · simp at h
    · simp at h

/-- Witness for C15: `All` on the six lines of the tests, started with one
diagnostic already recorded, keeps it in front of the one it appends. -/
theorem diagnostics_append_only_witness :
    Op.apply exampleRuntime (bindFields exampleLib) (Op.All : Op Iface)
        { addressParser testLines false false true true true with
          Errors := [{ line := 0, err := ErrLineTooShort }] }
      = Exec.ok
        { addressParser [] false false true true true with
          numLines := 6, done := true,
          Errors := [{ line := 0, err := ErrLineTooShort },
                     { line := 6, colName := lit "Street", err := ErrNumCols }] } ∧
    [{ line := 0, err := ErrLineTooShort }] <+:
      [({ line := 0, err := ErrLineTooShort } : ParsingError),
       { line := 6, colName := lit "Street", err := ErrNumCols }] :=
  ⟨by decide,
    (diagnostics_append_only exampleRuntime (bindFields exampleLib)).2.1 Op.All
      { addressParser testLines false false true true true with
        Errors := [{ line := 0, err := ErrLineTooShort }] }
      { addressParser [] false false true true true with
        numLines := 6, done := true,
        Errors := [{ line := 0, err := ErrLineTooShort },
                   { line := 6, colName := lit "Street", err := ErrNumCols }] }
      (by decide)⟩

/-- C16, failing inputs: a schema of one column of width 40.  The line of
twenty `é` has 40 bytes and passes the length check, so the column loop is
reached with 20 characters, in a rune slice of capacity 32, and the slice
`v[0:40]` is out of range.  With `ignoreExtraSize` on, the line of twenty-one
`é` (42 bytes) is truncated by `v[:40]` on its 21 runes, out of range as
well. -/
theorem slicing_out_of_range_on_multibyte (rt : Runtime) :
    ((Repeat (lit "é") 20).length : Int) = totalWidth (oneColumn 40) ∧
    RuneCountInString (Repeat (lit "é") 20) = 20 ∧
    parseLine rt (Repeat (lit "é") 20) (oneColumn 40) (oneColumnParser 40 false false false)
      = Exec.fault ∧
    (runeSlice rt (Repeat (lit "é") 20)).length = 32 ∧
    sliceRunes (runeSlice rt (Repeat (lit "é") 20)) 0 40 = Exec.fault ∧
    RuneCountInString (Repeat (lit "é") 21) = 21 ∧
    parseLine rt (Repeat (lit "é") 21) (oneColumn 40) (oneColumnParser 40 false true false)
      = Exec.fault ∧
    sliceRunes (runeSlice rt (Repeat (lit "é") 21)) 0 40 = Exec.fault :=
  of_decide_eq_true (Eq.refl true)

/-- C17, failing inputs: the length check counts bytes.  The line `aé` has
exactly the 2 characters of the total width, and a too-long diagnostic is
recorded for it (with `ignoreExtraSize` on it is still decoded to `aé`).  The
line `éé` has 2 characters against a total width of 4 and no length
diagnostic is recorded: its 4 bytes pass the check, and the column loop then
slices `v[0:4]` on its two runes and returns them followed by two NUL
characters of the conversion buffer, with a nil error. -/
theorem length_check_counts_bytes (rt : Runtime) :
    (RuneCountInString (lit "aé") : Int) = totalWidth (oneColumn 2) ∧
    parseLine rt (lit "aé") (oneColumn 2) (oneColumnParser 2 false true false)
      = Exec.ok ([lit "aé"], none,
          (oneColumnParser 2 false true false).after 1
            [{ line := 1, err := ErrLineTooLong }] false) ∧
    (RuneCountInString (lit "éé") : Int) < totalWidth (oneColumn 4) ∧
    lineOutcome rt (lit "éé") (oneColumn 4) (oneColumnParser 4 true false false)
      = loopOutcome (runeSlice rt (lit "éé")) false false false 1 (oneColumn 4).Columns 0 [] ∧
    parseLine rt (lit "éé") (oneColumn 4) (oneColumnParser 4 true false false)
      = Exec.ok ([lit "éé" ++ [0x00, 0x00]], none,
          (oneColumnParser 4 true false false).after 1 [] false) :=
  of_decide_eq_true (Eq.refl true)

/-- C18, failing inputs: on the schema `A:1, B:1` with both trims on and
`ignoreEmptyCols` off, the line of a space and `é` has the 2 characters of
the total width and its column `A` is empty after trimming; `parseLine`
returns the too-long error, which names no column, and appends the too-long
diagnostic and no empty-column diagnostic: the 3 bytes of the line fail the
length check.  On the schema `A:40, B:1` the line of twenty `é` and a space
has the 41 bytes of the total width and passes the length check, and no
character is left for the column `B`; `parseLine` returns no error: the slice
`v[0:40]` of its 21 runes is beyond the capacity 32 of the rune slice. -/
theorem empty_column_missed_on_multibyte (rt : Runtime) :
    (RuneCountInString ([0x20] ++ lit "é") : Int)
      = totalWidth ⟨[⟨lit "A", 1⟩, ⟨lit "B", 1⟩]⟩ ∧
    trimToken true true (spanOf ([0x20] ++ lit "é") 0 1) = [] ∧
    parseLine rt ([0x20] ++ lit "é") ⟨[⟨lit "A", 1⟩, ⟨lit "B", 1⟩]⟩
        (parserOn ⟨[⟨lit "A", 1⟩, ⟨lit "B", 1⟩]⟩ [] false false false true true)
      = Exec.ok ([], some { line := 1, err := ErrLineTooLong },
          (parserOn ⟨[⟨lit "A", 1⟩, ⟨lit "B", 1⟩]⟩ [] false false false true true).after 1
            [{ line := 1, err := ErrLineTooLong }] true) ∧
    ((Repeat (lit "é") 20 ++ [0x20]).length : Int)
      = totalWidth ⟨[⟨lit "A", 40⟩, ⟨lit "B", 1⟩]⟩ ∧
    parseLine rt (Repeat (lit "é") 20 ++ [0x20]) ⟨[⟨lit "A", 40⟩, ⟨lit "B", 1⟩]⟩
        (parserOn ⟨[⟨lit "A", 40⟩, ⟨lit "B", 1⟩]⟩ [] false false false true true)
      = Exec.fault :=
  of_decide_eq_true (Eq.refl true)

/-- C19: line numbering.  A new parser has `numLines = 0`.  Every call of
`parseLine` that returns, with or without error, raises `numLines` by one and
appends only diagnostics that carry the new value.  So the diagnostics
appended by the call on the `k`-th line handed to a parser since its
construction carry the line number `k`. -/
theorem line_numbering (rt : Runtime) (input : List GoString) (schema : Record) :
    (NewParser input schema).numLines = 0 ∧
    (∀ (line : GoString) (record : Record) (p q : Parser) (toks : List GoString)
        (e : Option ParsingError),
      parseLine rt line record p = Exec.ok (toks, e, q) →
      q.numLines = p.numLines + 1 ∧
      ∃ ds, q.Errors = p.Errors ++ ds ∧ ∀ d ∈ ds, d.line = p.numLines + 1) ∧
    (∀ (p0 : Parser), p0.numLines = 0 →
      ∀ (pre : List GoString) (l : GoString) (q1 q2 : Parser) (toks : List GoString)
        (e : Option ParsingError),
      feedLines rt pre p0 = Exec.ok q1 → parseLine rt l q1.record q1 = Exec.ok (toks, e, q2) →
      q2.numLines = (pre.length : Int) + 1 ∧
      ∃ ds, q2.Errors = q1.Errors ++ ds ∧ ∀ d ∈ ds, d.line = (pre.length : Int) + 1) := by
  have step : ∀ (line : GoString) (record : Record) (p q : Parser) (toks : List GoString)
      (e : Option ParsingError),
      parseLine rt line record p = Exec.ok (toks, e, q) →
      q.numLines = p.numLines + 1 ∧
      ∃ ds, q.Errors = p.Errors ++ ds ∧ ∀ d ∈ ds, d.line = p.numLines + 1 := by
    intro line record p q toks e h
    obtain ⟨ds, hl, hq⟩ := parseLine_ok_inv h
    subst hq
    exact ⟨rfl, ds, rfl, lineOutcome_diags hl⟩
  refine ⟨rfl, step, ?_⟩
  intro p0 h0 pre l q1 q2 toks e hfeed hparse
  have hn := feedLines_numLines hfeed
  rw [h0, Int.zero_add] at hn
  obtain ⟨h1, ds, h2, h3⟩ := step _ _ _ _ _ _ hparse
  rw [hn] at h1 h3
  exact ⟨h1, ds, h2, h3⟩

/-- Witness for C19: the six lines of the tests; the empty `Street` column of
the sixth line is recorded with line 6. -/
theorem line_numbering_witness :
    (addressParser [] false false true true true).numLines = 0 ∧
    feedLines exampleRuntime (testLines.take 5) (addressParser [] false false true true true)
      = Exec.ok ((addressParser [] false false true true true).after 5 [] false) ∧
    parseLine exampleRuntime (lit "city6    5   T") addressSchema
        ((addressParser [] false false true true true).after 5 [] false)
      = Exec.ok ([lit "city6", [], lit "5", lit "T"], none,
          (addressParser [] false false true true true).after 6
            [{ line := 6, colName := lit "Street", err := ErrNumCols }] false) ∧
    ((addressParser [] false false true true true).after 6
        [{ line := 6, colName := lit "Street", err := ErrNumCols }] false).numLines
      = ((testLines.take 5).length : Int) + 1 :=
  ⟨by decide, by decide, by decide,
    ((line_numbering exampleRuntime [] addressSchema).2.2 (addressParser [] false false true true true)
      (by decide) (testLines.take 5) (lit "city6    5   T")
      ((addressParser [] false false true true true).after 5 [] false)
      ((addressParser [] false false true true true).after 6
        [{ line := 6, colName := lit "Street", err := ErrNumCols }] false)
      [lit "city6", [], lit "5", lit "T"] none (by decide) (by decide)).1⟩

/-- C20: tolerances never alter a clean decode.  If `parseLine` succeeds on a
line with the three tolerances disabled, it appended no diagnostic and left
`done` as it was, and under every setting of the three tolerances (the trim
toggles unchanged) `parseLine` returns the same tokens and a nil error on that
line, appends no diagnostic and leaves `done` as it was. -/
theorem tolerances_never_alter_clean_decode (rt : Runtime) (line : GoString)
    (parser : Parser)
    (tokens : List GoString) (q : Parser)
    (h : parseLine rt line parser.record
      { parser with handleShortLines := false, ignoreExtraSize := false,
                    ignoreEmptyCols := false } = Exec.ok (tokens, none, q)) :
    q.Errors = parser.Errors ∧ q.done = parser.done ∧
    ∀ (handleShortLines ignoreExtraSize ignoreEmptyCols : Bool),
      ∃ q', parseLine rt line parser.record
          { parser with handleShortLines := handleShortLines,
                        ignoreExtraSize := ignoreExtraSize,
                        ignoreEmptyCols := ignoreEmptyCols } = Exec.ok (tokens, none, q') ∧
        q'.Errors = parser.Errors ∧ q'.done = parser.done := by
  obtain ⟨ds, hl, hq⟩ := parseLine_ok_inv h
  obtain ⟨hds, _, hall⟩ := lineOutcome_strict_clean hl
  subst hds
  refine ⟨by rw [hq]; simp [Parser.after], by rw [hq]; simp [Parser.after], ?_⟩
  intro hs ie iec
  rw [parseLine_eq, hall hs ie iec]
  exact ⟨_, rfl, by simp [Parser.after], by simp [Parser.after]⟩

/-- Witness for C20: the first line of the tests, both trims on, and the line
`é` of one character and two bytes on a column of width 2, which the strict
decode accepts (its token is `é` followed by the first zero of the conversion
buffer). -/
theorem tolerances_never_alter_clean_decode_witness :
    (parseLine exampleRuntime (lit "city1str15   T") addressSchema
        (addressParser [] false false false true true)
      = Exec.ok ([lit "city1", lit "str1", lit "5", lit "T"], none,
          (addressParser [] false false false true true).after 1 [] false) ∧
    ∃ q', parseLine exampleRuntime (lit "city1str15   T") addressSchema
        (addressParser [] true false true true true)
      = Exec.ok ([lit "city1", lit "str1", lit "5", lit "T"], none, q') ∧
      q'.Errors = [] ∧ q'.done = false) ∧
    (parseLine exampleRuntime (lit "é") (oneColumn 2) (oneColumnParser 2 false false false)
      = Exec.ok ([lit "é" ++ [0x00]], none,
          (oneColumnParser 2 false false false).after 1 [] false) ∧
    ∃ q', parseLine exampleRuntime (lit "é") (oneColumn 2) (oneColumnParser 2 true true false)
      = Exec.ok ([lit "é" ++ [0x00]], none, q') ∧
      q'.Errors = [] ∧ q'.done = false) :=
  ⟨⟨by decide,
    (tolerances_never_alter_clean_decode exampleRuntime (lit "city1str15   T")
      (addressParser [] false false false true true)
      [lit "city1", lit "str1", lit "5", lit "T"]
      ((addressParser [] false false false true true).after 1 [] false) (by decide)).2.2
      true false true⟩,
   ⟨by decide,
    (tolerances_never_alter_clean_decode exampleRuntime (lit "é")
      (oneColumnParser 2 false false false)
      [lit "é" ++ [0x00]]
      ((oneColumnParser 2 false false false).after 1 [] false) (by decide)).2.2
      true true false⟩⟩

end FixLenRW
